import Mathlib

/-!
Verification development for the RootlessNet protocol core
(identity, content objects, X3DH handshake, Double Ratchet).

The TypeScript sources are shallowly embedded: byte buffers become
`List Nat`, in-place mutation becomes explicit state passing, thrown
exceptions become `Except String`, and the external cryptographic
library calls (noble curves/ciphers, HKDF) are abstracted as fields of
a `Prims` structure; their algebraic contracts (DH symmetry, AEAD
round-trip, signature correctness) appear as explicit hypotheses of the
theorems, and concrete toy instances discharge them in witnesses.
Randomness (fresh key pairs, nonces, salts) is passed in as explicit
arguments.
-/

set_option maxHeartbeats 1000000
set_option maxRecDepth 100000

/-- Byte buffers (`Uint8Array`) are modelled as lists of naturals. -/
abbrev Bytes := List Nat

/-- A public/private key pair, as in the crypto package's
`SigningKeyPair` / `EncryptionKeyPair` types. -/
structure KeyPair where
  publicKey : Bytes
  privateKey : Bytes
deriving Repr, DecidableEq

/-- The `Argon2Params` record consumed by `kdf.ts`
(`packages/crypto/src/hash.ts`, second document): memory, time,
parallelism, a hash length and the salt. -/
structure KdfParams where
  salt : Bytes
  memoryCost : Nat
  timeCost : Nat
  parallelism : Nat
  hashLength : Nat
deriving Repr, DecidableEq

/-- The external cryptographic primitives consumed by the protocol
(Ed25519, X25519, BLAKE3, SHA-256, HKDF-SHA256, XChaCha20-Poly1305).
They live in external libraries (`@noble/curves`, `@noble/hashes`,
`@noble/ciphers`), so they are abstracted as deterministic functions;
the theorems state the contracts they rely on as hypotheses. -/
structure Prims where
  /-- Ed25519 public key from a 32-byte seed. -/
  edPub : Bytes → Bytes
  /-- Ed25519 signature of a message under a seed. -/
  edSign : Bytes → Bytes → Bytes
  /-- Ed25519 verification: public key, message, signature. -/
  edVerify : Bytes → Bytes → Bytes → Bool
  /-- X25519 public key from a private scalar. -/
  xPub : Bytes → Bytes
  /-- X25519 ECDH: private scalar, public point. -/
  dh : Bytes → Bytes → Bytes
  /-- BLAKE3 at 32-byte output. -/
  hashB : Bytes → Bytes
  /-- HKDF-SHA256 with the default all-zero salt: ikm, info, length. -/
  hkdf : Bytes → String → Nat → Bytes
  /-- XChaCha20-Poly1305 sealing: key, nonce, plaintext. -/
  aeadEnc : Bytes → Bytes → Bytes → Bytes
  /-- XChaCha20-Poly1305 opening: key, ciphertext, nonce; `none` on
  authentication failure. -/
  aeadDec : Bytes → Bytes → Bytes → Option Bytes
  /-- SHA-256 (`sha256` of `@noble/hashes`). -/
  sha256H : Bytes → Bytes
  /-- HKDF-SHA256 with an explicit salt: ikm, salt, info, length
  (the `salt` branch of `hkdf` in `kdf.ts`). -/
  hkdfSalt : Bytes → Bytes → String → Nat → Bytes

/- ### packages/crypto/src/utils.ts -/

/-- `constantTimeEqual` from `utils.ts`: length check, then an
OR-accumulator over the bytewise XORs. -/
def constantTimeEqual (a b : Bytes) : Bool :=
  if a.length ≠ b.length then false
  else ((List.zip a b).foldl (fun acc p => acc ||| (p.1 ^^^ p.2)) 0) == 0

/-- `concat` from `utils.ts`. -/
def concatBytes (arrays : List Bytes) : Bytes := arrays.flatten

/- ### packages/crypto/src/signing.ts -/

/-- `sign` from `signing.ts`: a 64-byte private key is seed‖public,
the seed is extracted before signing. -/
def sign (P : Prims) (privateKey message : Bytes) : Bytes :=
  let seed := if privateKey.length = 64 then privateKey.take 32 else privateKey
  P.edSign seed message

/-- `signHash` from `signing.ts`: hash-then-sign. -/
def signHash (P : Prims) (privateKey data : Bytes) : Bytes :=
  sign P privateKey (P.hashB data)

/-- `verify` from `signing.ts`. -/
def verify (P : Prims) (publicKey message signature : Bytes) : Bool :=
  P.edVerify publicKey message signature

/-- `verifyHash` from `signing.ts`. -/
def verifyHash (P : Prims) (publicKey data signature : Bytes) : Bool :=
  verify P publicKey (P.hashB data) signature

/-- `signingKeyPairFromSeed` from `signing.ts` (64-byte private =
seed‖public); the 32-byte length guard is omitted, callers pass
KDF-derived 32-byte material. -/
def signingKeyPairFromSeed (P : Prims) (seed : Bytes) : KeyPair :=
  ⟨P.edPub seed, seed ++ P.edPub seed⟩

/- ### packages/crypto/src/encryption.ts -/

/-- Result of `encrypt` in `encryption.ts`. -/
structure EncryptedData where
  ciphertext : Bytes
  nonce : Bytes
deriving Repr, DecidableEq

/-- `encrypt` from `encryption.ts`: length guards, then AEAD seal. -/
def encryptAead (P : Prims) (key plaintext nonce : Bytes) :
    Except String EncryptedData :=
  if key.length ≠ 32 then .error "Key must be 32 bytes"
  else if nonce.length ≠ 24 then .error "Nonce must be 24 bytes"
  else .ok ⟨P.aeadEnc key nonce plaintext, nonce⟩

/-- `decrypt` from `encryption.ts`: length guards, then AEAD open;
the cipher's authentication failure surfaces as an error. -/
def decryptAead (P : Prims) (key ciphertext nonce : Bytes) :
    Except String Bytes :=
  if key.length ≠ 32 then .error "Key must be 32 bytes"
  else if nonce.length ≠ 24 then .error "Nonce must be 24 bytes"
  else match P.aeadDec key ciphertext nonce with
    | some pt => .ok pt
    | none => .error "invalid tag"

/- ### Key derivation — kdf.ts (second document of
packages/crypto/src/hash.ts) -/

/-- `kdfChain(chainKey)` from `kdf.ts`: returns
`(messageKey, nextChainKey)`, each an HKDF-SHA256 of the chain key at
length 32 with infos `KDF_CONTEXT.MESSAGE_KEY =
rootless-message-key-v2` and `KDF_CONTEXT.CHAIN_KEY =
rootless-chain-key-v2` (no explicit salt, so `hkdf` uses the all-zero
default). -/
def kdfChain (P : Prims) (chainKey : Bytes) : Bytes × Bytes :=
  (P.hkdf chainKey "rootless-message-key-v2" 32,
   P.hkdf chainKey "rootless-chain-key-v2" 32)

/-- `kdfRootKey(rootKey, dhOutput)` from `kdf.ts`: concatenates
`rootKey ‖ dhOutput` and returns `deriveKeys` of it under
`KDF_CONTEXT.ROOT_KEY = rootless-root-key-v2` and
`KDF_CONTEXT.CHAIN_KEY = rootless-chain-key-v2`, i.e. the pair
`(newRootKey, chainKey)` of default-salt HKDF-SHA256 outputs at
length 32. -/
def kdfRootKey (P : Prims) (rootKey dhOutput : Bytes) : Bytes × Bytes :=
  (P.hkdf (rootKey ++ dhOutput) "rootless-root-key-v2" 32,
   P.hkdf (rootKey ++ dhOutput) "rootless-chain-key-v2" 32)

/-- `createArgon2Params()` from `kdf.ts`: the parameter record
`memoryCost 262144, timeCost 3, parallelism 4, hashLength 32` around
a fresh 16-byte random salt; the salt is the single nondeterministic
input, so it is taken as a parameter here. -/
def createArgon2Params (salt : Bytes) : KdfParams :=
  ⟨salt, 262144, 3, 4, 32⟩

/- ### packages/messaging/src — Double Ratchet (part_018) -/

/-- `RatchetHeader` from the messaging types. -/
structure RatchetHeader where
  dhPublic : Bytes
  n : Nat
  pn : Nat
deriving Repr, DecidableEq

/-- `EncryptedMessage` from the messaging types. -/
structure EncryptedMessage where
  header : RatchetHeader
  ciphertext : Bytes
  nonce : Bytes
deriving Repr, DecidableEq

/-- Skipped-key table entry key. The source keys its `Map` by the
string `toHex(dhPublic) + ":" + n`; `toHex` is injective on byte
arrays, so the pair is an equivalent key. -/
abbrev SkipKey := Bytes × Nat

/-- `RatchetState` from the messaging types; the insertion-ordered JS
`Map` becomes an insertion-ordered association list. -/
structure RatchetState where
  dhSend : KeyPair
  dhReceive : Option Bytes
  rootKey : Bytes
  sendChainKey : Option Bytes
  receiveChainKey : Option Bytes
  sendN : Nat
  receiveN : Nat
  previousSendN : Nat
  skippedKeys : List (SkipKey × Bytes)
  maxSkip : Nat
deriving Repr, DecidableEq

/-- JS `Map.get` on the insertion-ordered association list. -/
def mapGet (m : List (SkipKey × Bytes)) (k : SkipKey) : Option Bytes :=
  (m.find? (fun e => e.1 == k)).map (·.2)

/-- JS `Map.set`: update in place if the key exists, else append. -/
def mapSet (m : List (SkipKey × Bytes)) (k : SkipKey) (v : Bytes) :
    List (SkipKey × Bytes) :=
  if m.any (fun e => e.1 == k) then
    m.map (fun e => if e.1 == k then (k, v) else e)
  else m ++ [(k, v)]

/-- JS `Map.delete`. -/
def mapDelete (m : List (SkipKey × Bytes)) (k : SkipKey) :
    List (SkipKey × Bytes) :=
  m.filter (fun e => !(e.1 == k))

/-- `initSenderRatchet` from the Double Ratchet source; the fresh DH
pair is passed in as its private scalar. -/
def initSenderRatchet (P : Prims)
    (sharedSecret recipientDhPublic freshPriv : Bytes) : RatchetState :=
  let dhSend : KeyPair := ⟨P.xPub freshPriv, freshPriv⟩
  let dhOutput := P.dh freshPriv recipientDhPublic
  let r := kdfRootKey P sharedSecret dhOutput
  { dhSend := dhSend
    dhReceive := some recipientDhPublic
    rootKey := r.1
    sendChainKey := some r.2
    receiveChainKey := none
    sendN := 0
    receiveN := 0
    previousSendN := 0
    skippedKeys := []
    maxSkip := 1000 }

/-- `initReceiverRatchet` from the Double Ratchet source. -/
def initReceiverRatchet (sharedSecret : Bytes) (dhKeyPair : KeyPair) :
    RatchetState :=
  { dhSend := dhKeyPair
    dhReceive := none
    rootKey := sharedSecret
    sendChainKey := none
    receiveChainKey := none
    sendN := 0
    receiveN := 0
    previousSendN := 0
    skippedKeys := []
    maxSkip := 1000 }

/-- `dhRatchetStep` from the Double Ratchet source; the fresh DH pair
generated inside is passed in as its private scalar. -/
def dhRatchetStep (P : Prims) (st : RatchetState)
    (theirDhPublic freshPriv : Bytes) : RatchetState :=
  let st1 := { st with
    previousSendN := st.sendN
    sendN := 0
    receiveN := 0
    dhReceive := some theirDhPublic }
  let dhOutput1 := P.dh st1.dhSend.privateKey theirDhPublic
  let r1 := kdfRootKey P st1.rootKey dhOutput1
  let st2 := { st1 with rootKey := r1.1, receiveChainKey := some r1.2 }
  let dhOutput2 := P.dh freshPriv theirDhPublic
  let r2 := kdfRootKey P st2.rootKey dhOutput2
  { st2 with
    dhSend := ⟨P.xPub freshPriv, freshPriv⟩
    rootKey := r2.1
    sendChainKey := some r2.2 }

/-- The `while (state.receiveN < until)` loop body of
`skipMessageKeys`: derive the message key, store it under
`(dhReceive, receiveN)`, advance the chain, and evict the oldest
(first-inserted) entry when the table exceeds `maxSkip`. -/
def skipLoop (P : Prims) (st : RatchetState) (untilN : Nat) : RatchetState :=
  if h : st.receiveN < untilN then
    match st.receiveChainKey with
    | none => st
    | some rck =>
      let mk := (kdfChain P rck).1
      let nck := (kdfChain P rck).2
      let key : SkipKey := (st.dhReceive.getD [], st.receiveN)
      let sk1 := mapSet st.skippedKeys key mk
      let sk2 := if sk1.length > st.maxSkip then sk1.drop 1 else sk1
      skipLoop P { st with
        receiveChainKey := some nck
        receiveN := st.receiveN + 1
        skippedKeys := sk2 } untilN
  else st
termination_by untilN - st.receiveN
decreasing_by simp_all; omega

/-- `skipMessageKeys` from the Double Ratchet source: no-op without a
receive chain; the too-many-skipped check precedes any mutation. -/
def skipMessageKeys (P : Prims) (st : RatchetState) (untilN : Nat) :
    Except String RatchetState :=
  match st.receiveChainKey with
  | none => .ok st
  | some _ =>
    if st.receiveN + st.maxSkip < untilN then
      .error "Too many skipped messages"
    else .ok (skipLoop P st untilN)

/-- `ratchetEncrypt` from the Double Ratchet source; the fresh random
nonce is passed in. -/
def ratchetEncrypt (P : Prims) (st : RatchetState)
    (plaintext nonce : Bytes) :
    Except String (EncryptedMessage × RatchetState) :=
  match st.sendChainKey with
  | none => .error "Ratchet not initialized for sending"
  | some sck =>
    let mk := (kdfChain P sck).1
    let nck := (kdfChain P sck).2
    let header : RatchetHeader := ⟨st.dhSend.publicKey, st.sendN, st.previousSendN⟩
    match encryptAead P mk plaintext nonce with
    | .error e => .error e
    | .ok ed =>
      .ok (⟨header, ed.ciphertext, nonce⟩,
           { st with sendChainKey := some nck, sendN := st.sendN + 1 })

/-- `ratchetDecrypt` from the Double Ratchet source. The state is
returned alongside the result also on errors, mirroring the in-place
mutations that the thrown exception leaves behind: `skipMessageKeys`
throws before mutating, but mutations of earlier phases (old-chain
skipping, the DH ratchet step, the chain advance) persist. -/
def ratchetDecrypt (P : Prims) (st : RatchetState)
    (message : EncryptedMessage) (freshPriv : Bytes) :
    Except String Bytes × RatchetState :=
  let keyId : SkipKey := (message.header.dhPublic, message.header.n)
  match mapGet st.skippedKeys keyId with
  | some skippedKey =>
    let st1 := { st with skippedKeys := mapDelete st.skippedKeys keyId }
    (decryptAead P skippedKey message.ciphertext message.nonce, st1)
  | none =>
    let dhChanged := match st.dhReceive with
      | none => true
      | some r => !(constantTimeEqual message.header.dhPublic r)
    let phase1 : Except String RatchetState :=
      if dhChanged then
        match (match st.dhReceive with
               | some _ => skipMessageKeys P st message.header.pn
               | none => .ok st) with
        | .error e => .error e
        | .ok stA => .ok (dhRatchetStep P stA message.header.dhPublic freshPriv)
      else .ok st
    match phase1 with
    | .error e => (.error e, st)
    | .ok stB =>
      match skipMessageKeys P stB message.header.n with
      | .error e => (.error e, stB)
      | .ok stC =>
        match stC.receiveChainKey with
        | none => (.error "No receiving chain key", stC)
        | some rck =>
          let mk := (kdfChain P rck).1
          let nck := (kdfChain P rck).2
          let stD := { stC with
            receiveChainKey := some nck
            receiveN := stC.receiveN + 1 }
          (decryptAead P mk message.ciphertext message.nonce, stD)

/- ### Multibase codecs (multiformats library) -/

/-- Character of a 5-bit value in the RFC 4648 lowercase base32
alphabet `abcdefghijklmnopqrstuvwxyz234567`. -/
def b32Char (v : Nat) : Char :=
  if v < 26 then Char.ofNat (97 + v) else Char.ofNat (24 + v)

/-- 5-bit value of a base32 character, `none` for a character outside
the alphabet. -/
def b32Val (c : Char) : Option Nat :=
  if 97 ≤ c.toNat ∧ c.toNat ≤ 122 then some (c.toNat - 97)
  else if 50 ≤ c.toNat ∧ c.toNat ≤ 55 then some (c.toNat - 50 + 26)
  else none

/-- The `while (bits > bitsPerChar)` emit loop of the multiformats
RFC 4648 encoder, run on structural fuel (the loop runs at most
`bits / 5` times). -/
def b32EmitLoop : Nat → Nat → Nat → List Char → Nat × List Char
  | 0, _, bits, acc => (bits, acc)
  | fuel + 1, buffer, bits, acc =>
    if bits > 5 then
      b32EmitLoop fuel buffer (bits - 5) (acc ++ [b32Char ((buffer >>> (bits - 5)) % 32)])
    else (bits, acc)

/-- RFC 4648 base32 encoding (lowercase, no padding), as in the
multiformats `rfc4648` encoder. -/
def b32Encode (bytes : Bytes) : List Char :=
  let fin := bytes.foldl
    (fun (st : Nat × Nat × List Char) b =>
      let buffer := st.1 * 256 + b
      let r := b32EmitLoop (st.2.1 + 8) buffer (st.2.1 + 8) st.2.2
      (buffer, r.1, r.2))
    (0, 0, [])
  if fin.2.1 ≠ 0 then
    fin.2.2 ++ [b32Char ((fin.1 <<< (5 - fin.2.1)) % 32)]
  else fin.2.2

/-- The character loop of the multiformats RFC 4648 decoder: fold each
character's 5 bits into the buffer, emitting a byte whenever 8 bits
are available; `none` on a character outside the alphabet. -/
def b32DecodeCore : List Char → Nat → Nat → Bytes → Option (Nat × Nat × Bytes)
  | [], buffer, bits, out => some (buffer, bits, out)
  | c :: rest, buffer, bits, out =>
    match b32Val c with
    | none => none
    | some v =>
      let buffer' := buffer * 32 + v
      let bits' := bits + 5
      if bits' ≥ 8 then
        b32DecodeCore rest buffer' (bits' - 8) (out ++ [(buffer' >>> (bits' - 8)) % 256])
      else
        b32DecodeCore rest buffer' bits' out

/-- RFC 4648 base32 decoding as in multiformats: strip trailing
padding, run the character loop, and reject a leftover of five or
more bits or any nonzero leftover bits. -/
def b32Decode (chars : List Char) : Option Bytes :=
  let trimmed := (chars.reverse.dropWhile (· == '=')).reverse
  match b32DecodeCore trimmed 0 0 [] with
  | none => none
  | some (buffer, bits, out) =>
    if bits ≥ 5 ∨ (buffer <<< (8 - bits)) % 256 ≠ 0 then none
    else some out

/-- Multibase base32 decode: require the `b` prefix, then base
decode, as the multiformats `Decoder` does. -/
def multibaseB32Decode (s : String) : Option Bytes :=
  match s.toList with
  | 'b' :: rest => b32Decode rest
  | _ => none

/-- Big-endian digits of a natural number in a given base, on
structural fuel (`fuel = n` always suffices); empty for zero, as in
the base-x algorithm used by multiformats base58. -/
def natDigitsBE (base : Nat) (n : Nat) : List Nat :=
  (go n n []).2
where
  go : Nat → Nat → List Nat → Nat × List Nat
    | 0, n, acc => (n, acc)
    | fuel + 1, n, acc =>
      if n = 0 then (n, acc) else go fuel (n / base) (n % base :: acc)

/-- Character of a base58btc digit
(`123456789ABCDEFGHJKLMNPQRSTUVWXYZabcdefghijkmnopqrstuvwxyz`). -/
def b58Char (v : Nat) : Char :=
  "123456789ABCDEFGHJKLMNPQRSTUVWXYZabcdefghijkmnopqrstuvwxyz".toList.getD v '1'

/-- Digit value of a base58btc character. -/
def b58Val (c : Char) : Option Nat :=
  match "123456789ABCDEFGHJKLMNPQRSTUVWXYZabcdefghijkmnopqrstuvwxyz".toList.findIdx? (· == c) with
  | some i => some i
  | none => none

/-- base58btc encoding by the base-x algorithm: one `1` per leading
zero byte, then the big-endian base-58 digits of the value. -/
def b58Encode (bytes : Bytes) : List Char :=
  let zeros := (bytes.takeWhile (· == 0)).length
  let n := bytes.foldl (fun acc b => acc * 256 + b) 0
  List.replicate zeros '1' ++ (natDigitsBE 58 n).map b58Char

/-- base58btc decoding by the base-x algorithm: leading `1`s become
zero bytes, the rest is read as a base-58 value; `none` on a
character outside the alphabet. -/
def b58Decode (chars : List Char) : Option Bytes :=
  let ones := (chars.takeWhile (· == '1')).length
  let rest := chars.drop ones
  match rest.foldl
    (fun (acc : Option Nat) c =>
      match acc, b58Val c with
      | some n, some v => some (n * 58 + v)
      | _, _ => none)
    (some 0) with
  | none => none
  | some n => some (List.replicate ones 0 ++ natDigitsBE 256 n)

/-- Multibase base58btc encode (`z` prefix). -/
def multibaseB58Encode (bytes : Bytes) : String :=
  String.mk ('z' :: b58Encode bytes)

/-- Multibase base58btc decode: require the `z` prefix. -/
def multibaseB58Decode (s : String) : Option Bytes :=
  match s.toList with
  | 'z' :: rest => b58Decode rest
  | _ => none

/- ### packages/crypto/src/identifiers.ts -/

/-- Result record of `parseCID`; fields read past the end of the
decoded buffer are `undefined` in JS and are modelled as `none`. -/
structure ParsedCID where
  version : Option Nat
  codec : Option Nat
  hashFunction : Option Nat
  hash : Bytes
deriving Repr, DecidableEq

/-- `computeCID` from `identifiers.ts`: CIDv1, raw codec `0x55`,
BLAKE3 multihash (`0x1e`, length byte, digest), base32 multibase. -/
def computeCID (P : Prims) (data : Bytes) : String :=
  let hashBytes := P.hashB data
  let multihash := [0x1e, hashBytes.length] ++ hashBytes
  let cid := [0x01, 0x55] ++ multihash
  String.mk ('b' :: b32Encode cid)

/-- `parseCID` from `identifiers.ts`: base32 multibase decode, then
read `version`, `codec`, `hashFunction`, a length byte and that many
hash bytes — with no validation of any of them. The only failure is a
failed base32 decode. A missing length byte (`undefined`) makes the
JS `slice(4, 4 + undefined)` empty, modelled by a default of `0`. -/
def parseCID (cidStr : String) : Option ParsedCID :=
  (multibaseB32Decode cidStr).map (fun bytes =>
    ⟨bytes.get? 0, bytes.get? 1, bytes.get? 2,
     (bytes.drop 4).take (bytes.getD 3 0)⟩)

/-- `verifyCID` from `identifiers.ts`. -/
def verifyCID (P : Prims) (cidStr : String) (data : Bytes) : Bool :=
  cidStr == computeCID P data

/-- `isValidCID` from `identifiers.ts`: true iff `parseCID` does not
throw. -/
def isValidCID (cidStr : String) : Bool :=
  (parseCID cidStr).isSome

/-- `createDID` from `identifiers.ts`: `did:rootless:key:` followed by
the base58btc multibase of `codec ‖ 0x01 ‖ publicKey`
(`0xed` Ed25519, `0xec` X25519). -/
def createDID (publicKey : Bytes) (keyType : String) : String :=
  let codec := if keyType == "ed25519" then 0xed else 0xec
  "did:rootless:key:" ++ multibaseB58Encode ([codec, 0x01] ++ publicKey)

/-- Result record of `parseDID`. -/
structure ParsedDID where
  method : String
  keyType : String
  publicKey : Bytes
deriving Repr, DecidableEq

/-- JS `String.split` on a separator character, structurally on the
character list. -/
def splitChars (sep : Char) : List Char → List (List Char)
  | [] => [[]]
  | c :: rest =>
    let r := splitChars sep rest
    if c = sep then [] :: r
    else match r with
      | h :: t => (c :: h) :: t
      | [] => [[c]]

/-- `parseDID` from `identifiers.ts`: split on `:` into exactly four
parts with head `did:rootless`, require the `key` method, base58btc
decode, dispatch on the codec byte and return the bytes after the
two-byte tag. -/
def parseDID (did : String) : Except String ParsedDID :=
  let parts := (splitChars ':' did.toList).map String.mk
  if parts.length ≠ 4 ∨ parts.getD 0 "" ≠ "did" ∨ parts.getD 1 "" ≠ "rootless" then
    .error "Invalid DID format"
  else if parts.getD 2 "" ≠ "key" then
    .error "Unsupported DID method"
  else
    match multibaseB58Decode (parts.getD 3 "") with
    | none => .error "Invalid base58 string"
    | some multicodec =>
      let publicKey := multicodec.drop 2
      if multicodec.getD 0 0 = 0xed then .ok ⟨"key", "ed25519", publicKey⟩
      else if multicodec.getD 0 0 = 0xec then .ok ⟨"key", "x25519", publicKey⟩
      else .error "Unsupported key codec"

/-- `isValidDID` from `identifiers.ts`. -/
def isValidDID (did : String) : Bool :=
  match parseDID did with
  | .ok _ => true
  | .error _ => false

/- ### packages/messaging/src/x3dh.ts -/

/-- `signedPrekey` record of a `PrekeySet`. -/
structure SignedPrekey where
  id : Nat
  publicKey : Bytes
  privateKey : Bytes
  signature : Bytes
  created : Nat
deriving Repr, DecidableEq

/-- One-time prekey record of a `PrekeySet`. -/
structure OneTimePrekey where
  id : Nat
  publicKey : Bytes
  privateKey : Bytes
  used : Bool
deriving Repr, DecidableEq

/-- `PrekeySet` from the messaging types. -/
structure PrekeySet where
  identityKey : KeyPair
  signedPrekey : SignedPrekey
  oneTimePrekeys : List OneTimePrekey
deriving Repr, DecidableEq

/-- Public signed-prekey projection inside a `PrekeyBundle`. -/
structure BundleSignedPrekey where
  id : Nat
  publicKey : Bytes
  signature : Bytes
  created : Nat
deriving Repr, DecidableEq

/-- Public one-time-prekey projection inside a `PrekeyBundle`. -/
structure BundleOneTimePrekey where
  id : Nat
  publicKey : Bytes
deriving Repr, DecidableEq

/-- `PrekeyBundle` from the messaging types. -/
structure PrekeyBundle where
  identityKey : Bytes
  signedPrekey : BundleSignedPrekey
  oneTimePrekeys : List BundleOneTimePrekey
deriving Repr, DecidableEq

/-- `X3DHResult` from the messaging types. -/
structure X3DHResult where
  sharedSecret : Bytes
  ephemeralPublic : Bytes
  usedSignedPrekeyId : Nat
  usedOneTimePrekeyId : Option Nat
deriving Repr, DecidableEq

/-- `generatePrekeySet` from `x3dh.ts`; the random ids and private
scalars are passed in. The signed prekey's public key is signed with
the first 32 bytes of the identity signing private key. -/
def generatePrekeySet (P : Prims) (identityKeyPair signingKeyPair : KeyPair)
    (spkPriv : Bytes) (spkId : Nat) (created : Nat)
    (otpSeeds : List (Nat × Bytes)) : PrekeySet :=
  let signature := sign P (signingKeyPair.privateKey.take 32) (P.xPub spkPriv)
  { identityKey := identityKeyPair
    signedPrekey := ⟨spkId, P.xPub spkPriv, spkPriv, signature, created⟩
    oneTimePrekeys := otpSeeds.map (fun s => ⟨s.1, P.xPub s.2, s.2, false⟩) }

/-- `getPublicBundle` from `x3dh.ts`: drop private halves and used
one-time prekeys. -/
def getPublicBundle (prekeySet : PrekeySet) : PrekeyBundle :=
  { identityKey := prekeySet.identityKey.publicKey
    signedPrekey := ⟨prekeySet.signedPrekey.id, prekeySet.signedPrekey.publicKey,
                     prekeySet.signedPrekey.signature, prekeySet.signedPrekey.created⟩
    oneTimePrekeys := (prekeySet.oneTimePrekeys.filter (fun k => !k.used)).map
      (fun k => ⟨k.id, k.publicKey⟩) }

/-- `x3dhInitiate` from `x3dh.ts`: verify the signed prekey, compute
DH1‖DH2‖DH3 and DH4 against the first listed one-time prekey when the
bundle has one, and HKDF with info `x3dh-v1`. The fresh ephemeral
private scalar is passed in. -/
def x3dhInitiate (P : Prims) (ourIdentityKey : KeyPair)
    (theirBundle : PrekeyBundle) (signingPublicKey ephPriv : Bytes) :
    Except String X3DHResult :=
  if !(verify P signingPublicKey theirBundle.signedPrekey.publicKey
        theirBundle.signedPrekey.signature) then
    .error "Invalid signed prekey signature"
  else
    let dh1 := P.dh ourIdentityKey.privateKey theirBundle.signedPrekey.publicKey
    let dh2 := P.dh ephPriv theirBundle.identityKey
    let dh3 := P.dh ephPriv theirBundle.signedPrekey.publicKey
    match theirBundle.oneTimePrekeys with
    | otp :: _ =>
      let dh4 := P.dh ephPriv otp.publicKey
      .ok ⟨P.hkdf (dh1 ++ dh2 ++ dh3 ++ dh4) "x3dh-v1" 32,
           P.xPub ephPriv, theirBundle.signedPrekey.id, some otp.id⟩
    | [] =>
      .ok ⟨P.hkdf (dh1 ++ dh2 ++ dh3) "x3dh-v1" 32,
           P.xPub ephPriv, theirBundle.signedPrekey.id, none⟩

/-- The in-place `otp.used = true` mutation of `x3dhRespond`: mark the
first prekey carrying the id. -/
def markUsed : List OneTimePrekey → Nat → List OneTimePrekey
  | [], _ => []
  | k :: rest, i =>
    if k.id = i then { k with used := true } :: rest else k :: markUsed rest i

/-- `x3dhRespond` from `x3dh.ts`: check the signed-prekey id, compute
the mirrored DH values, look the one-time prekey up by id alone
(the `used` flag is not consulted), mark it used, and HKDF with info
`x3dh-v1`. Returns the shared secret together with the mutated
prekey set. -/
def x3dhRespond (P : Prims) (ourPrekeySet : PrekeySet)
    (theirIdentityKey theirEphemeralKey : Bytes)
    (usedSignedPrekeyId : Nat) (usedOneTimePrekeyId : Option Nat) :
    Except String (Bytes × PrekeySet) :=
  if ourPrekeySet.signedPrekey.id ≠ usedSignedPrekeyId then
    .error "Unknown signed prekey ID"
  else
    let dh1 := P.dh ourPrekeySet.signedPrekey.privateKey theirIdentityKey
    let dh2 := P.dh ourPrekeySet.identityKey.privateKey theirEphemeralKey
    let dh3 := P.dh ourPrekeySet.signedPrekey.privateKey theirEphemeralKey
    match usedOneTimePrekeyId with
    | some otpId =>
      match ourPrekeySet.oneTimePrekeys.find? (fun k => k.id == otpId) with
      | none => .error "Unknown one-time prekey ID"
      | some otp =>
        let dh4 := P.dh otp.privateKey theirEphemeralKey
        .ok (P.hkdf (dh1 ++ dh2 ++ dh3 ++ dh4) "x3dh-v1" 32,
             { ourPrekeySet with
               oneTimePrekeys := markUsed ourPrekeySet.oneTimePrekeys otpId })
    | none =>
      .ok (P.hkdf (dh1 ++ dh2 ++ dh3) "x3dh-v1" 32, ourPrekeySet)

/-- `countAvailablePrekeys` from `x3dh.ts`. -/
def countAvailablePrekeys (prekeySet : PrekeySet) : Nat :=
  (prekeySet.oneTimePrekeys.filter (fun k => !k.used)).length

/- ### Canonical JSON rendering (JSON.stringify semantics) -/

/-- Opening brace character of a JSON object. -/
def obrace : String := String.singleton (Char.ofNat 123)

/-- Closing brace character of a JSON object. -/
def cbrace : String := String.singleton (Char.ofNat 125)

/-- Lowercase hex digit. -/
def hexDigit (n : Nat) : Char :=
  if n < 10 then Char.ofNat (48 + n) else Char.ofNat (87 + n)

/-- The escapes `JSON.stringify` applies inside a quoted string. -/
def jsonEscapeChar (c : Char) : List Char :=
  if c = '"' then ['\\', '"']
  else if c = '\\' then ['\\', '\\']
  else if c.toNat = 8 then ['\\', 'b']
  else if c.toNat = 9 then ['\\', 't']
  else if c.toNat = 10 then ['\\', 'n']
  else if c.toNat = 12 then ['\\', 'f']
  else if c.toNat = 13 then ['\\', 'r']
  else if c.toNat < 32 then
    ['\\', 'u', '0', '0', hexDigit (c.toNat / 16), hexDigit (c.toNat % 16)]
  else [c]

/-- A JSON string literal. -/
def jStr (s : String) : String :=
  "\"" ++ String.mk (s.toList.flatMap jsonEscapeChar) ++ "\""

/-- A JSON number (all numbers in these objects are naturals). -/
def jNat (n : Nat) : String := toString n

/-- A byte array rendered the way `canonicalSerialize` renders a
`Uint8Array`: `sortKeys` runs before the replacer and spreads the
`Uint8Array` into a plain object whose keys are the decimal indices,
so it serializes as `\x7b"0":b0,"1":b1,...\x7d`; JavaScript
enumerates integer-like keys in ascending numeric order, which agrees
with the object built from index 0 upward. -/
def jBytes (b : Bytes) : String :=
  obrace ++ String.intercalate "," ((List.range b.length).map
    (fun i => jStr (toString i) ++ ":" ++ toString (b.getD i 0))) ++ cbrace

/-- A JSON array of strings. -/
def jStrList (l : List String) : String :=
  "[" ++ String.intercalate "," (l.map jStr) ++ "]"

/-- A `key:value` member. -/
def jField (k v : String) : String := jStr k ++ ":" ++ v

/-- A JSON object from already-rendered members. -/
def jObj (fields : List String) : String :=
  obrace ++ String.intercalate "," fields ++ cbrace

/-- `TextEncoder.encode`. Code points coincide with UTF-8 bytes on the
ASCII strings this development feeds it. -/
def utf8Bytes (s : String) : Bytes := s.toList.map Char.toNat

/- ### packages/identity/src/identity.ts — data model -/

/-- `KeySet` from the crypto types. -/
structure KeySet where
  signing : KeyPair
  encryption : KeyPair
deriving Repr, DecidableEq

/-- `proof` record of an `IdentityDocument`. -/
structure IdentityProof where
  type : String
  created : Nat
  verificationMethod : String
  signature : Bytes
deriving Repr, DecidableEq

/-- `IdentityKey` from the identity types: one `publicKeys[]` entry. -/
structure IdentityKey where
  id : String
  type : String
  purpose : String
  publicKey : Bytes
  created : Nat
  expires : Option Nat
  revoked : Option Nat
deriving Repr, DecidableEq

/-- `IdentityDocument` from the identity types. -/
structure IdentityDocument where
  version : Nat
  did : String
  type : String
  publicKeys : List IdentityKey
  created : Nat
  updated : Nat
  proof : IdentityProof
deriving Repr, DecidableEq

/-- `Identity` from the identity types. -/
structure Identity where
  did : String
  type : String
  document : IdentityDocument
  keySet : KeySet
  created : Nat
deriving Repr, DecidableEq

/-- `canonicalSerialize` from `identity.ts`, applied to the document
without its proof. The source calls
`JSON.stringify(obj, Object.keys(obj).sort())`; an array replacer is a
property whitelist applied at every nesting level, so each nested
`publicKeys[]` entry keeps only its `created` and `type` members (the
top-level key set is `created, did, publicKeys, type, updated,
version`) — `id`, `purpose` and the `publicKey` bytes are dropped from
the serialization. Members are emitted in whitelist (sorted) order. -/
def serializeIdentityDocNoProof (d : IdentityDocument) : String :=
  jObj [jField "created" (jNat d.created),
        jField "did" (jStr d.did),
        jField "publicKeys"
          ("[" ++ String.intercalate ","
            (d.publicKeys.map (fun k =>
              jObj [jField "created" (jNat k.created),
                    jField "type" (jStr k.type)])) ++ "]"),
        jField "type" (jStr d.type),
        jField "updated" (jNat d.updated),
        jField "version" (jNat d.version)]

/-- `encryptionKeyPairFromSeed` from `keyexchange.ts`. -/
def encryptionKeyPairFromSeed (P : Prims) (seed : Bytes) : KeyPair :=
  ⟨P.xPub seed, seed⟩

/-- `createIdentity` from `identity.ts`, given the key set (the
no-seed path generates it from the CSPRNG; the seed path derives it,
see `createIdentityFromSeed`): build the DID from the signing public
key, the two `publicKeys` entries, sign the document without its
proof, and attach the proof. -/
def createIdentity (P : Prims) (keySet : KeySet) (type : String) (now : Nat) :
    Identity :=
  let did := createDID keySet.signing.publicKey "ed25519"
  let publicKeys : List IdentityKey :=
    [⟨did ++ "#key-1", "Ed25519", "signing", keySet.signing.publicKey, now, none, none⟩,
     ⟨did ++ "#key-2", "X25519", "encryption", keySet.encryption.publicKey, now, none, none⟩]
  let docNoProof : IdentityDocument :=
    { version := 2, did := did, type := type, publicKeys := publicKeys,
      created := now, updated := now,
      proof := ⟨"", 0, "", []⟩ }
  let serialized := utf8Bytes (serializeIdentityDocNoProof docNoProof)
  let signature := signHash P keySet.signing.privateKey serialized
  let document := { docNoProof with
    proof := ⟨"Ed25519Signature2020", now, did ++ "#key-1", signature⟩ }
  { did := did, type := type, document := document, keySet := keySet,
    created := now }

/-- The seed path of `createIdentity`: both private halves are HKDF of
the seed with the v2 purpose infos. -/
def createIdentityFromSeed (P : Prims) (seed : Bytes) (type : String)
    (now : Nat) : Identity :=
  let signingMaterial := P.hkdf seed "rootless-signing-key-v2" 32
  let encryptionMaterial := P.hkdf seed "rootless-encryption-key-v2" 32
  createIdentity P
    ⟨signingKeyPairFromSeed P signingMaterial,
     encryptionKeyPairFromSeed P encryptionMaterial⟩ type now

/-- `IdentityVerification` from the identity types. -/
structure IdentityVerification where
  valid : Bool
  errors : List String
  document : Option IdentityDocument
deriving Repr, DecidableEq

/-- `verifyIdentityDocument` from `identity.ts`. Errors accumulate in
source order; a missing signing key returns immediately. JS
truthiness of `key.revoked && key.revoked < now` makes a zero
timestamp falsy, hence the `≠ 0` conjuncts. -/
def verifyIdentityDocument (P : Prims) (document : IdentityDocument)
    (now : Nat) : IdentityVerification :=
  let errors0 := if document.version ≠ 2 then ["INVALID_VERSION"] else []
  match document.publicKeys.find?
      (fun k => k.purpose == "signing" && k.id == document.proof.verificationMethod) with
  | none => ⟨false, errors0 ++ ["SIGNING_KEY_NOT_FOUND"], none⟩
  | some signingKey =>
    let errors1 := errors0 ++
      (if document.did ≠ createDID signingKey.publicKey "ed25519" then
        ["DID_MISMATCH"] else [])
    let serialized := utf8Bytes (serializeIdentityDocNoProof document)
    let errors2 := errors1 ++
      (if !(verifyHash P signingKey.publicKey serialized document.proof.signature) then
        ["INVALID_SIGNATURE"] else [])
    let errors3 := errors2 ++
      (if document.created > now + 300000 then ["FUTURE_TIMESTAMP"] else [])
    let errors4 := errors3 ++ document.publicKeys.flatMap (fun key =>
      (match key.revoked with
       | some r => if r ≠ 0 ∧ r < now then ["KEY_REVOKED:" ++ key.id] else []
       | none => []) ++
      (match key.expires with
       | some e => if e ≠ 0 ∧ e < now then ["KEY_EXPIRED:" ++ key.id] else []
       | none => []))
    ⟨errors4.isEmpty, errors4, if errors4.isEmpty then some document else none⟩

/- ### packages/crypto/src/keyexchange.ts — sealed box, multi-recipient -/

/-- `SealedBox` from the crypto types. -/
structure SealedBox where
  ephemeralPublic : Bytes
  ciphertext : Bytes
  nonce : Bytes
deriving Repr, DecidableEq

/-- One `recipients[]` entry of a `MultiRecipientPayload`. -/
structure RecipientKey where
  recipientPublicKey : Bytes
  encryptedKey : Bytes
  nonce : Bytes
deriving Repr, DecidableEq

/-- `MultiRecipientPayload` from the crypto types. -/
structure MultiRecipientPayload where
  ephemeralPublic : Bytes
  recipients : List RecipientKey
  ciphertext : Bytes
  nonce : Bytes
deriving Repr, DecidableEq

/-- `sealTo` from `keyexchange.ts`: ephemeral-static ECDH, HKDF with
info `rootless-sealed-box-v2`, AEAD. The fresh ephemeral scalar and
nonce are passed in. -/
def sealTo (P : Prims) (recipientPublicKey plaintext ephPriv nonce : Bytes) :
    Except String SealedBox :=
  let sharedSecret := P.dh ephPriv recipientPublicKey
  let encryptionKey := P.hkdf sharedSecret "rootless-sealed-box-v2" 32
  match encryptAead P encryptionKey plaintext nonce with
  | .error e => .error e
  | .ok ed => .ok ⟨P.xPub ephPriv, ed.ciphertext, nonce⟩

/-- `unseal` from `keyexchange.ts` (named `unsealBox` here). -/
def unsealBox (P : Prims) (myPrivateKey : Bytes) (sealed : SealedBox) :
    Except String Bytes :=
  let sharedSecret := P.dh myPrivateKey sealed.ephemeralPublic
  let decryptionKey := P.hkdf sharedSecret "rootless-sealed-box-v2" 32
  decryptAead P decryptionKey sealed.ciphertext sealed.nonce

/-- `encryptToMultiple` from `keyexchange.ts`: a fresh content key is
wrapped per recipient under HKDF(`rootless-multi-recipient-wrap-v2`)
of an ephemeral-static DH, then the payload is sealed under the
content key. Fresh scalars and nonces are passed in, the per-recipient
nonces as an indexed supply. -/
def encryptToMultiple (P : Prims) (recipientPublicKeys : List Bytes)
    (plaintext ephPriv contentKey : Bytes) (recipNonces : Nat → Bytes)
    (contentNonce : Bytes) : Except String MultiRecipientPayload :=
  if recipientPublicKeys.length = 0 then
    .error "At least one recipient required"
  else
    match (recipientPublicKeys.enum.mapM (fun ri =>
      let sharedSecret := P.dh ephPriv ri.2
      let wrapKey := P.hkdf sharedSecret "rootless-multi-recipient-wrap-v2" 32
      let nonce := recipNonces ri.1
      match encryptAead P wrapKey contentKey nonce with
      | .error e => Except.error e
      | .ok ed => Except.ok (⟨ri.2, ed.ciphertext, nonce⟩ : RecipientKey)) :
      Except String (List RecipientKey)) with
    | .error e => .error e
    | .ok recipients =>
      match encryptAead P contentKey plaintext contentNonce with
      | .error e => .error e
      | .ok ed => .ok ⟨P.xPub ephPriv, recipients, ed.ciphertext, contentNonce⟩

/-- `decryptMultiRecipient` from `keyexchange.ts`: find our entry by
constant-time comparison against our public key (`NotRecipient` when
absent), unwrap the content key, then open the payload. -/
def decryptMultiRecipient (P : Prims) (myPrivateKey myPublicKey : Bytes)
    (payload : MultiRecipientPayload) : Except String Bytes :=
  match payload.recipients.find?
      (fun r => constantTimeEqual r.recipientPublicKey myPublicKey) with
  | none => .error "Not a recipient of this message"
  | some myEntry =>
    let sharedSecret := P.dh myPrivateKey payload.ephemeralPublic
    let unwrapKey := P.hkdf sharedSecret "rootless-multi-recipient-wrap-v2" 32
    match decryptAead P unwrapKey myEntry.encryptedKey myEntry.nonce with
    | .error e => .error e
    | .ok contentKey => decryptAead P contentKey payload.ciphertext payload.nonce

/- ### packages/content/src/content.ts -/

/-- One `recipients[]` entry of an encrypted content payload. -/
structure ContentRecipient where
  did : String
  encryptedKey : Bytes
  nonce : Bytes
deriving Repr, DecidableEq

/-- `ContentPayload` union from the content types. -/
inductive ContentPayload where
  | clear (data : Bytes)
  | encrypted (algorithm : String) (ephemeralPublic : Option Bytes)
      (recipients : Option (List ContentRecipient))
      (ciphertext : Bytes) (nonce : Bytes)
  | zoneEncrypted (zoneId : String) (epoch : Nat)
      (ciphertext : Bytes) (nonce : Bytes)
deriving Repr, DecidableEq

/-- `ContentObject` from the content types; `id` and `signature` are
empty placeholders until attached. -/
structure ContentObject where
  version : Nat
  id : String
  author : String
  timestamp : Nat
  expiresAt : Option Nat
  zone : String
  parent : Option String
  thread : Option String
  mentions : List String
  contentType : String
  payloadEncryption : String
  payload : ContentPayload
  payloadHash : Bytes
  tags : List String
  language : Option String
  extensions : Option (List (String × String))
  signature : Bytes
deriving Repr, DecidableEq

/-- `CreateContentInput` from the content types, with the source's
defaults already applied by the caller of the embedding. -/
structure CreateContentInput where
  payload : Bytes
  contentType : String := "text/plain"
  zone : String := "public"
  parent : Option String := none
  thread : Option String := none
  mentions : List String := []
  tags : List String := []
  language : Option String := none
  encryption : String := "none"
  recipients : List String := []
  expiresAt : Option Nat := none
  extensions : Option (List (String × String)) := none
deriving Repr

/-- `ContentVerification` from the content types. -/
structure ContentVerification where
  valid : Bool
  errors : List String
  content : Option ContentObject
deriving Repr, DecidableEq

/-- Canonical JSON of a content payload under `canonicalSerialize`
from `content.ts` (recursive key sort, byte arrays as integer
arrays, absent optionals omitted). -/
def serializePayload : ContentPayload → String
  | .clear data =>
    jObj [jField "data" (jBytes data), jField "type" (jStr "clear")]
  | .encrypted algorithm ephemeralPublic recipients ciphertext nonce =>
    jObj ([jField "algorithm" (jStr algorithm),
           jField "ciphertext" (jBytes ciphertext)]
      ++ (match ephemeralPublic with
          | some e => [jField "ephemeralPublic" (jBytes e)]
          | none => [])
      ++ [jField "nonce" (jBytes nonce)]
      ++ (match recipients with
          | some rs => [jField "recipients"
              ("[" ++ String.intercalate "," (rs.map (fun r =>
                jObj [jField "did" (jStr r.did),
                      jField "encryptedKey" (jBytes r.encryptedKey),
                      jField "nonce" (jBytes r.nonce)])) ++ "]")]
          | none => [])
      ++ [jField "type" (jStr "encrypted")])
  | .zoneEncrypted zoneId epoch ciphertext nonce =>
    jObj [jField "ciphertext" (jBytes ciphertext),
          jField "epoch" (jNat epoch),
          jField "nonce" (jBytes nonce),
          jField "type" (jStr "zone-encrypted"),
          jField "zoneId" (jStr zoneId)]

/-- Canonical JSON of an `extensions` record: entries sorted by key,
string values. -/
def serializeExtensions (ext : List (String × String)) : String :=
  jObj ((ext.insertionSort (fun a b => a.1 ≤ b.1)).map
    (fun e => jField e.1 (jStr e.2)))

/-- Canonical JSON of a content object under `canonicalSerialize` from
`content.ts`, without `id`, with or without `signature`: keys in
lexical order at every level, absent optionals omitted. -/
def serializeContentFields (c : ContentObject) (withSig : Bool) : String :=
  jObj ([jField "author" (jStr c.author),
         jField "contentType" (jStr c.contentType)]
    ++ (match c.expiresAt with
        | some e => [jField "expiresAt" (jNat e)]
        | none => [])
    ++ (match c.extensions with
        | some ext => [jField "extensions" (serializeExtensions ext)]
        | none => [])
    ++ (match c.language with
        | some l => [jField "language" (jStr l)]
        | none => [])
    ++ [jField "mentions" (jStrList c.mentions)]
    ++ (match c.parent with
        | some p => [jField "parent" (jStr p)]
        | none => [])
    ++ [jField "payload" (serializePayload c.payload),
        jField "payloadEncryption" (jStr c.payloadEncryption),
        jField "payloadHash" (jBytes c.payloadHash)]
    ++ (if withSig then [jField "signature" (jBytes c.signature)] else [])
    ++ [jField "tags" (jStrList c.tags)]
    ++ (match c.thread with
        | some t => [jField "thread" (jStr t)]
        | none => [])
    ++ [jField "timestamp" (jNat c.timestamp),
        jField "version" (jNat c.version),
        jField "zone" (jStr c.zone)])

/-- The fresh randomness `createContent` consumes, passed explicitly:
ephemeral X25519 scalar, 32-byte content key, content nonce, sealed-box
nonce, and an indexed supply of per-recipient wrap nonces. -/
structure ContentEntropy where
  ephPriv : Bytes
  contentKey : Bytes
  contentNonce : Bytes
  sealNonce : Bytes
  recipNonces : Nat → Bytes

/-- `createContent` from `content.ts`: hash the payload, build the
payload variant for the requested encryption level, assemble the
object, sign the serialization without `id`/`signature`, then attach
the CID of the serialization without `id` only. -/
def createContent (P : Prims) (input : CreateContentInput)
    (identity : Identity) (now : Nat) (rng : ContentEntropy) :
    Except String ContentObject :=
  let payloadBytes := input.payload
  let payloadHash := P.hashB payloadBytes
  let payloadE : Except String ContentPayload :=
    if input.encryption == "none" then
      .ok (.clear payloadBytes)
    else if input.encryption == "recipients" then
      if input.recipients.length = 0 then
        .error "Recipients required for recipient encryption"
      else
        match (input.recipients.mapM (fun did =>
            (parseDID did).map (·.publicKey)) : Except String (List Bytes)) with
        | .error e => .error e
        | .ok recipientKeys =>
          match encryptToMultiple P recipientKeys payloadBytes rng.ephPriv
              rng.contentKey rng.recipNonces rng.contentNonce with
          | .error e => .error e
          | .ok encrypted =>
            .ok (.encrypted "xchacha20-poly1305" (some encrypted.ephemeralPublic)
              (some ((input.recipients.zip encrypted.recipients).map (fun p =>
                ⟨p.1, p.2.encryptedKey, p.2.nonce⟩)))
              encrypted.ciphertext encrypted.nonce)
    else if input.encryption == "self" then
      match sealTo P identity.keySet.encryption.publicKey payloadBytes
          rng.ephPriv rng.sealNonce with
      | .error e => .error e
      | .ok sealed =>
        .ok (.encrypted "xchacha20-poly1305" (some sealed.ephemeralPublic)
          none sealed.ciphertext sealed.nonce)
    else if input.encryption == "zone" then
      .error "Zone encryption requires zone key management"
    else
      .error "Unknown encryption level"
  match payloadE with
  | .error e => .error e
  | .ok payload =>
    let c0 : ContentObject :=
      { version := 2, id := "", author := identity.did, timestamp := now,
        expiresAt := input.expiresAt, zone := input.zone,
        parent := input.parent, thread := input.thread <|> input.parent,
        mentions := input.mentions, contentType := input.contentType,
        payloadEncryption := input.encryption, payload := payload,
        payloadHash := payloadHash, tags := input.tags,
        language := input.language, extensions := input.extensions,
        signature := [] }
    let serialized := utf8Bytes (serializeContentFields c0 false)
    let signature := signHash P identity.keySet.signing.privateKey serialized
    let c1 := { c0 with signature := signature }
    let id := computeCID P (utf8Bytes (serializeContentFields c1 true))
    .ok { c1 with id := id }

/-- The `computedHash.every((b, i) => b === content.payloadHash[i])`
check of `verifyContent`: indexes of the computed hash are compared
against the stored hash, reads past its end being `undefined`. -/
def payloadHashMatches (computed stored : Bytes) : Bool :=
  (List.range computed.length).all (fun i => computed.get? i == stored.get? i)

/-- `verifyContent` from `content.ts`. Errors accumulate in source
order except that a failed author-key resolution (resolver error, or
unparsable DID without a resolver) returns immediately with the
errors collected so far. JS truthiness makes a zero `expiresAt`
falsy, hence the `≠ 0` conjunct. -/
def verifyContent (P : Prims) (content : ContentObject)
    (resolvePublicKey : Option (String → Except String Bytes)) (now : Nat) :
    ContentVerification :=
  let errors0 := if content.version ≠ 2 then ["INVALID_VERSION"] else []
  let expectedCID := computeCID P (utf8Bytes (serializeContentFields content true))
  let errors1 := errors0 ++ (if content.id ≠ expectedCID then ["INVALID_CID"] else [])
  let authorKeyE : Except String Bytes :=
    match resolvePublicKey with
    | some resolver =>
      match resolver content.author with
      | .ok pk => .ok pk
      | .error _ => .error "AUTHOR_KEY_NOT_FOUND"
    | none =>
      match parseDID content.author with
      | .ok parsed => .ok parsed.publicKey
      | .error _ => .error "INVALID_AUTHOR_DID"
  match authorKeyE with
  | .error tag => ⟨false, errors1 ++ [tag], none⟩
  | .ok authorPublicKey =>
    let serialized := utf8Bytes (serializeContentFields content false)
    let errors2 := errors1 ++
      (if !(verifyHash P authorPublicKey serialized content.signature) then
        ["INVALID_SIGNATURE"] else [])
    let errors3 := errors2 ++
      (if content.timestamp > now + 5 * 60 * 1000 then ["FUTURE_TIMESTAMP"] else [])
    let errors4 := errors3 ++
      (match content.expiresAt with
       | some e => if e ≠ 0 ∧ e < now then ["EXPIRED"] else []
       | none => [])
    let errors5 := errors4 ++
      (match content.payload with
       | .clear data =>
         if !(payloadHashMatches (P.hashB data) content.payloadHash) then
           ["INVALID_PAYLOAD_HASH"] else []
       | _ => [])
    ⟨errors5.isEmpty, errors5, if errors5.isEmpty then some content else none⟩

/-- `decryptPayload` from `content.ts`: clear payloads return their
bytes; encrypted payloads with a `recipients` list rebuild the
multi-recipient payload, resolving each entry's recipient public key
by parsing its DID; without one they are opened as a sealed box; a
zone payload cannot be decrypted. -/
def decryptPayload (P : Prims) (content : ContentObject)
    (identity : Identity) : Except String Bytes :=
  match content.payload with
  | .clear data => .ok data
  | .encrypted _ ephemeralPublic recipients ciphertext nonce =>
    match recipients with
    | some rs =>
      match (rs.mapM (fun r =>
          (parseDID r.did).map (fun parsed =>
            (⟨parsed.publicKey, r.encryptedKey, r.nonce⟩ : RecipientKey))) :
          Except String (List RecipientKey)) with
      | .error e => .error e
      | .ok mapped =>
        decryptMultiRecipient P identity.keySet.encryption.privateKey
          identity.keySet.encryption.publicKey
          ⟨ephemeralPublic.getD [], mapped, ciphertext, nonce⟩
    | none =>
      unsealBox P identity.keySet.encryption.privateKey
        ⟨ephemeralPublic.getD [], ciphertext, nonce⟩
  | .zoneEncrypted _ _ _ _ =>
    .error "Cannot decrypt zone-encrypted content without zone key"

/- ### packages/identity/src/identity.ts — export / import -/

/-- The `kdf` member of an `ExportedIdentity` envelope. -/
structure KdfEnvelope where
  algorithm : String
  salt : Bytes
  memoryCost : Nat
  timeCost : Nat
  parallelism : Nat
deriving Repr, DecidableEq

/-- `ExportedIdentity` from the identity types. -/
structure ExportedIdentity where
  version : Nat
  encrypted : Bool
  data : Bytes
  kdf : Option KdfEnvelope
deriving Repr, DecidableEq

/-- `deriveKeyFromPassword` from `kdf.ts`: SHA-256 of
`password ‖ salt`, then `timeCost * 100` stretching rounds mixing the
salt back in every tenth round, and a final HKDF-SHA256 with the
explicit salt, info `rootless-password-key-v2` and the parameter
record's `hashLength`. -/
def deriveKeyFromPassword (P : Prims) (password : String)
    (params : KdfParams) : Bytes :=
  let passwordBytes := utf8Bytes password
  let combined := passwordBytes ++ params.salt
  let key0 := P.sha256H combined
  let key := (List.range (params.timeCost * 100)).foldl
    (fun key i =>
      if i % 10 = 0 then P.sha256H (key ++ params.salt) else P.sha256H key)
    key0
  P.hkdfSalt key params.salt "rootless-password-key-v2" params.hashLength

/-- `exportIdentity` from `identity.ts`: serialize the identity
(JSON.stringify of the record with byte arrays as integer arrays,
abstracted as `encodeId`), derive a wrap key from the password with
fresh Argon2id parameters, AEAD-encrypt under a fresh nonce, and
return `nonce ‖ ciphertext` with the KDF parameters. -/
def exportIdentity (P : Prims) (encodeId : Identity → Bytes)
    (identity : Identity) (password : String) (salt nonce : Bytes) :
    Except String ExportedIdentity :=
  let plaintext := encodeId identity
  let kdfParams := createArgon2Params salt
  let encryptionKey := deriveKeyFromPassword P password kdfParams
  match encryptAead P encryptionKey plaintext nonce with
  | .error e => .error e
  | .ok ed =>
    .ok ⟨2, true, nonce ++ ed.ciphertext,
         some ⟨"argon2id", kdfParams.salt, kdfParams.memoryCost,
               kdfParams.timeCost, kdfParams.parallelism⟩⟩

/-- `importIdentity` from `identity.ts`: re-derive the wrap key from
the stored KDF parameters (with `hashLength` 32), split off the
24-byte nonce, decrypt (any failure surfaces as the authentication
error), parse (abstracted as `decodeId`), re-verify the document, and
return the identity. -/
def importIdentity (P : Prims) (decodeId : Bytes → Option Identity)
    (exported : ExportedIdentity) (password : String) (now : Nat) :
    Except String Identity :=
  if !exported.encrypted then .error "Unencrypted exports not supported"
  else match exported.kdf with
  | none => .error "Unencrypted exports not supported"
  | some env =>
    let decryptionKey := deriveKeyFromPassword P password
      ⟨env.salt, env.memoryCost, env.timeCost, env.parallelism, 32⟩
    let nonce := exported.data.take 24
    let ciphertext := exported.data.drop 24
    match decryptAead P decryptionKey ciphertext nonce with
    | .error _ => .error "Invalid password or corrupted data"
    | .ok plaintext =>
      match decodeId plaintext with
      | none => .error "Invalid JSON"
      | some identity =>
        let verification := verifyIdentityDocument P identity.document now
        if !verification.valid then
          .error ("Invalid identity: " ++ String.intercalate ", " verification.errors)
        else .ok identity

/- ### Concrete toy primitives for witnesses -/

/-- Truncate/zero-pad a byte list to a fixed length. -/
def padTo (len : Nat) (l : Bytes) : Bytes :=
  (l ++ List.replicate len 0).take len

/-- A concrete instance of the primitive interface used to evaluate
the embedding on closed inputs: keys are their own public halves, DH
is a symmetric digest of both inputs, the AEAD prepends key and nonce
and opening checks them, and the KDFs pad their inputs to the
requested length. It satisfies the algebraic contracts the theorems
assume (DH symmetry, AEAD round-trip and key-sensitivity, signature
correctness). -/
def toyPrims : Prims where
  edPub := fun s => s
  edSign := fun s m => s ++ m
  edVerify := fun p m sig => sig == p ++ m
  xPub := fun s => s
  dh := fun a b => [a.sum + b.sum, a.length + b.length]
  hashB := fun d => d
  hkdf := fun ikm info len => padTo len (ikm ++ utf8Bytes info ++ [len])
  aeadEnc := fun k n p => k ++ n ++ p
  aeadDec := fun k c n =>
    if c.take k.length == k && ((c.drop k.length).take n.length == n) then
      some ((c.drop k.length).drop n.length)
    else none
  sha256H := fun d => padTo 32 d
  hkdfSalt := fun ikm salt info len =>
    padTo len (ikm ++ salt ++ utf8Bytes info ++ [len])

/-- Whether an `Except` is the given error. -/
def isErrorWith {α : Type} (e : Except String α) (msg : String) : Bool :=
  match e with
  | .error m => m == msg
  | .ok _ => false

/-- Fold a list of (message, fresh scalar) deliveries through
`ratchetDecrypt`, keeping only the state (results discarded), to state
invariants over arbitrary operation sequences. -/
def decryptFold (P : Prims) (st : RatchetState) :
    List (EncryptedMessage × Bytes) → RatchetState
  | [] => st
  | (m, f) :: rest => decryptFold P (ratchetDecrypt P st m f).2 rest

/-- Decidable equality of `Except` results, for evaluating the
embedding on closed inputs. -/
instance {e a : Type} [DecidableEq e] [DecidableEq a] :
    DecidableEq (Except e a) := fun x y =>
  match x, y with
  | .ok v, .ok w =>
    if h : v = w then isTrue (by rw [h]) else isFalse (fun hh => h (Except.ok.inj hh))
  | .error v, .error w =>
    if h : v = w then isTrue (by rw [h]) else isFalse (fun hh => h (Except.error.inj hh))
  | .ok _, .error _ => isFalse (fun hh => Except.noConfusion hh)
  | .error _, .ok _ => isFalse (fun hh => Except.noConfusion hh)

/- ### Toy-primitive contracts -/

/-- The toy DH is symmetric: both sides of an ECDH agree. -/
theorem toy_dh_sym (a b : Bytes) :
    toyPrims.dh a (toyPrims.xPub b) = toyPrims.dh b (toyPrims.xPub a) := by
  simp [toyPrims, Nat.add_comm]

/-- The toy AEAD round-trips under the sealing key and nonce. -/
theorem toy_aead_roundtrip (k n p : Bytes) :
    toyPrims.aeadDec k (toyPrims.aeadEnc k n p) n = some p := by
  simp [toyPrims]

/-- The toy HKDF emits exactly the requested number of bytes. -/
theorem toy_hkdf_length (ikm : Bytes) (info : String) (len : Nat) :
    (toyPrims.hkdf ikm info len).length = len := by
  simp [toyPrims, padTo]
  omega

/- ### C8 — CID parsing performs no shape validation -/

/-- C8 counterexample: `"baa"` is base32-decodable to the single byte
`0x00` — version byte 0, no codec, no hash-function byte, empty hash,
nothing like the required `0x01 ‖ 0x55 ‖ 0x1e ‖ 0x20 ‖ 32-byte` shape —
yet `parseCID` succeeds and `isValidCID` returns `true`, refuting the
claim that such strings are rejected. -/
theorem parseCID_accepts_wrong_shape :
    multibaseB32Decode "baa" = some [0] ∧
    parseCID "baa" = some ⟨some 0, none, none, []⟩ ∧
    isValidCID "baa" = true := by
  decide

/-- C8 (amended): `parseCID` rejects exactly the strings that fail
multibase base32 decoding; it validates nothing about the decoded
bytes — any decodable string parses and `isValidCID` holds, even when
the bytes violate the CID shape. -/
theorem parseCID_rejects_only_decode_failures :
    (∀ s b, multibaseB32Decode s = some b → isValidCID s = true) ∧
    (∀ s, multibaseB32Decode s = none → isValidCID s = false) := by
  constructor
  · intro s b h
    simp [isValidCID, parseCID, h]
  · intro s h
    simp [isValidCID, parseCID, h]

/-- C8 witness: the amended theorem applied to the concrete string
`"baa"`, whose decoded bytes have a wrong version byte. -/
theorem parseCID_rejects_only_decode_failures_witness :
    isValidCID "baa" = true :=
  parseCID_rejects_only_decode_failures.1 "baa" [0] (by decide)

/- ### C4 — one-time prekey reuse is not rejected -/

/-- C4: `x3dhRespond` (`x3dh.ts` lines 195–205) marks the named
one-time prekey `used = true`, but a second call naming the same id
succeeds instead of failing with the unknown-one-time-prekey error,
because `oneTimePrekeys.find((k) => k.id === usedOneTimePrekeyId)`
matches on the id alone and never consults the `used` flag. The first
three conjuncts evaluate a concrete prekey set with a single one-time
prekey of id `7`; the last proves in general that the call succeeds
whenever any entry carries the id, used or not. -/
theorem x3dhRespond_accepts_reused_otp :
    (x3dhRespond toyPrims ⟨⟨[1], [1]⟩, ⟨5, [2], [2], [9, 2], 0⟩,
        [⟨7, [3], [3], false⟩]⟩ [4] [6] 5 (some 7)).isOk = true ∧
    ((x3dhRespond toyPrims ⟨⟨[1], [1]⟩, ⟨5, [2], [2], [9, 2], 0⟩,
        [⟨7, [3], [3], false⟩]⟩ [4] [6] 5 (some 7)).toOption.map
      (fun r => r.2.oneTimePrekeys.map (·.used))).getD [] = [true] ∧
    (x3dhRespond toyPrims
      (((x3dhRespond toyPrims ⟨⟨[1], [1]⟩, ⟨5, [2], [2], [9, 2], 0⟩,
          [⟨7, [3], [3], false⟩]⟩ [4] [6] 5 (some 7)).toOption.map (·.2)).getD
        ⟨⟨[1], [1]⟩, ⟨5, [2], [2], [9, 2], 0⟩, [⟨7, [3], [3], false⟩]⟩)
      [4] [6] 5 (some 7)).isOk = true ∧
    (∀ (P : Prims) (s : PrekeySet) (ik ek : Bytes) (i : Nat),
      s.oneTimePrekeys.any (fun k => k.id == i) = true →
      (x3dhRespond P s ik ek s.signedPrekey.id (some i)).isOk = true) := by
  refine ⟨by decide, by decide, by decide, ?_⟩
  intro P s ik ek i hany
  have hfind : (s.oneTimePrekeys.find? (fun k => k.id == i)).isSome := by
    rw [List.find?_isSome]
    simpa [List.any_eq_true] using hany
  rcases Option.isSome_iff_exists.mp hfind with ⟨otp, hotp⟩
  simp [x3dhRespond, hotp, Except.isOk, Except.toBool]

/-- C4 witness: the general conjunct applied to a prekey set whose
single one-time prekey is already marked used. -/
theorem x3dhRespond_accepts_reused_otp_witness :
    (x3dhRespond toyPrims ⟨⟨[1], [1]⟩, ⟨5, [2], [2], [9, 2], 0⟩,
        [⟨7, [3], [3], true⟩]⟩ [4] [6] 5 (some 7)).isOk = true :=
  x3dhRespond_accepts_reused_otp.2.2.2 toyPrims
    ⟨⟨[1], [1]⟩, ⟨5, [2], [2], [9, 2], 0⟩, [⟨7, [3], [3], true⟩]⟩
    [4] [6] 7 (by decide)

/- ### C6 — identity document verification misses key mutations -/

/-- Flip the low bit of the first byte of a buffer. -/
def flipFirstByte : Bytes → Bytes
  | [] => []
  | x :: r => (x ^^^ 1) :: r

/-- The identity document of a freshly created toy identity. -/
def freshDocument : IdentityDocument :=
  (createIdentity toyPrims
    ⟨signingKeyPairFromSeed toyPrims (List.replicate 32 1),
     encryptionKeyPairFromSeed toyPrims (List.replicate 32 2)⟩
    "persistent" 1000).document

/-- `freshDocument` with one byte of the encryption entry's
`publicKey` flipped. -/
def flippedDocument : IdentityDocument :=
  { freshDocument with
    publicKeys := freshDocument.publicKeys.map (fun k =>
      if k.purpose == "encryption" then
        { k with publicKey := flipFirstByte k.publicKey }
      else k) }

/-- C6: a fresh identity document verifies as valid — but so does the
document with a byte of the encryption entry's `publicKey` flipped,
refuting the claim that every such flip yields `INVALID_SIGNATURE` or
`DID_MISMATCH`. The identity serializer's
`JSON.stringify(obj, Object.keys(obj).sort())` treats the sorted key
array as a property whitelist, so the `publicKey` bytes are never part
of the signed serialization, and the DID is recomputed from the
signing entry only. -/
theorem verifyIdentityDocument_misses_encryption_key_flip :
    (verifyIdentityDocument toyPrims freshDocument 1000).valid = true ∧
    (verifyIdentityDocument toyPrims flippedDocument 1000).valid = true ∧
    flippedDocument ≠ freshDocument := by
  decide

/- ### C1 — recipient encryption wraps to the wrong key -/

/-- Toy identity A (distinct signing and encryption seeds). -/
def identityA : Identity :=
  createIdentity toyPrims
    ⟨signingKeyPairFromSeed toyPrims (List.replicate 32 1),
     encryptionKeyPairFromSeed toyPrims (List.replicate 32 2)⟩
    "persistent" 1000

/-- Toy identity B (distinct signing and encryption seeds). -/
def identityB : Identity :=
  createIdentity toyPrims
    ⟨signingKeyPairFromSeed toyPrims (List.replicate 32 3),
     encryptionKeyPairFromSeed toyPrims (List.replicate 32 4)⟩
    "persistent" 1000

/-- A's content addressed to B alone via recipients encryption. -/
def contentForB : Except String ContentObject :=
  createContent toyPrims
    { payload := utf8Bytes "for B only", encryption := "recipients",
      recipients := [identityB.did] }
    identityA 2000
    ⟨List.replicate 32 5, List.replicate 32 7, List.replicate 24 8,
     List.replicate 24 6, fun _ => List.replicate 24 9⟩

/-- C1: creating content with `recipients = [B.did]` succeeds, but the
named recipient B cannot decrypt it: `decryptPayload` fails with the
`NotRecipient` error, because both sides resolve the recipient key as
`parseDID(did).publicKey` — B's Ed25519 signing key (the DID encodes
the signing key) — which is compared against, and wrapped for, a key
that is not B's X25519 encryption key. -/
theorem decryptPayload_not_recipient_for_named_recipient :
    contentForB.isOk = true ∧
    isErrorWith
      ((contentForB.toOption.map
        (fun c => decryptPayload toyPrims c identityB)).getD (.ok []))
      "Not a recipient of this message" = true ∧
    identityB.keySet.encryption.publicKey ≠ identityB.keySet.signing.publicKey := by
  decide

/- ### C5 — verification does short-circuit when the author key is missing -/

/-- A concrete content object whose author DID is unparsable, whose
timestamp is far in the future, and whose payload hash is wrong. -/
def badAuthorContent : ContentObject :=
  { version := 2, id := "x", author := "garbage", timestamp := 400000,
    expiresAt := none, zone := "public", parent := none, thread := none,
    mentions := [], contentType := "text/plain", payloadEncryption := "none",
    payload := .clear [1], payloadHash := [9], tags := [], language := none,
    extensions := none, signature := [0] }

/-- C5 counterexample: on `badAuthorContent`, `verifyContent` returns
only `INVALID_CID` and `INVALID_AUTHOR_DID` — the applicable
`FUTURE_TIMESTAMP` (timestamp exceeds now + 5 min) and
`INVALID_PAYLOAD_HASH` (hash mismatch on a clear payload) never
appear, because an unparsable author DID returns early. This refutes
the claim that every applicable error tag is accumulated. -/
theorem verifyContent_short_circuits_on_bad_author :
    (verifyContent toyPrims badAuthorContent none 0).errors =
      ["INVALID_CID", "INVALID_AUTHOR_DID"] ∧
    badAuthorContent.timestamp > 0 + 5 * 60 * 1000 ∧
    payloadHashMatches (toyPrims.hashB [1]) badAuthorContent.payloadHash = false := by
  decide

/-- Membership in a conditional singleton. -/
theorem mem_tagIf {c : Prop} [Decidable c] (a b : String) :
    a ∈ (if c then [b] else []) ↔ c ∧ a = b := by
  split_ifs with h <;> simp_all

/-- C5 (amended): whenever the author public key is obtainable — the
DID parses with no resolver supplied, or a supplied resolver succeeds
— `verifyContent` accumulates every applicable error tag, each
present exactly when its condition holds; when the key is
unobtainable (resolver failure, or unparsable DID without a
resolver) it returns early, carrying only the version/CID errors
plus `AUTHOR_KEY_NOT_FOUND` resp. `INVALID_AUTHOR_DID` and skipping
the signature, timestamp, expiry and payload-hash checks. Likewise
`verifyIdentityDocument` accumulates its version, DID, signature,
freshness and per-key tags when the signing key entry is found, and
returns early with only the version error plus
`SIGNING_KEY_NOT_FOUND` when it is missing. -/
theorem verification_accumulates_when_key_available :
    (∀ (P : Prims) (content : ContentObject) (now : Nat) (pk : ParsedDID),
      parseDID content.author = .ok pk →
      (("INVALID_VERSION" ∈ (verifyContent P content none now).errors ↔
          content.version ≠ 2) ∧
       ("INVALID_CID" ∈ (verifyContent P content none now).errors ↔
          content.id ≠ computeCID P (utf8Bytes (serializeContentFields content true))) ∧
       ("INVALID_SIGNATURE" ∈ (verifyContent P content none now).errors ↔
          verifyHash P pk.publicKey (utf8Bytes (serializeContentFields content false))
            content.signature = false) ∧
       ("FUTURE_TIMESTAMP" ∈ (verifyContent P content none now).errors ↔
          content.timestamp > now + 5 * 60 * 1000) ∧
       ("EXPIRED" ∈ (verifyContent P content none now).errors ↔
          ∃ e, content.expiresAt = some e ∧ e ≠ 0 ∧ e < now) ∧
       ("INVALID_PAYLOAD_HASH" ∈ (verifyContent P content none now).errors ↔
          ∃ d, content.payload = .clear d ∧
            payloadHashMatches (P.hashB d) content.payloadHash = false))) ∧
    (∀ (P : Prims) (content : ContentObject) (now : Nat)
        (resolver : String → Except String Bytes) (pk : Bytes),
      resolver content.author = .ok pk →
      (("INVALID_VERSION" ∈ (verifyContent P content (some resolver) now).errors ↔
          content.version ≠ 2) ∧
       ("INVALID_CID" ∈ (verifyContent P content (some resolver) now).errors ↔
          content.id ≠ computeCID P (utf8Bytes (serializeContentFields content true))) ∧
       ("INVALID_SIGNATURE" ∈ (verifyContent P content (some resolver) now).errors ↔
          verifyHash P pk (utf8Bytes (serializeContentFields content false))
            content.signature = false) ∧
       ("FUTURE_TIMESTAMP" ∈ (verifyContent P content (some resolver) now).errors ↔
          content.timestamp > now + 5 * 60 * 1000) ∧
       ("EXPIRED" ∈ (verifyContent P content (some resolver) now).errors ↔
          ∃ e, content.expiresAt = some e ∧ e ≠ 0 ∧ e < now) ∧
       ("INVALID_PAYLOAD_HASH" ∈ (verifyContent P content (some resolver) now).errors ↔
          ∃ d, content.payload = .clear d ∧
            payloadHashMatches (P.hashB d) content.payloadHash = false))) ∧
    (∀ (P : Prims) (content : ContentObject) (now : Nat)
        (resolver : String → Except String Bytes) (e : String),
      resolver content.author = .error e →
      verifyContent P content (some resolver) now =
        ⟨false,
         ((if content.version ≠ 2 then ["INVALID_VERSION"] else []) ++
          (if content.id ≠ computeCID P (utf8Bytes (serializeContentFields content true))
            then ["INVALID_CID"] else [])) ++ ["AUTHOR_KEY_NOT_FOUND"],
         none⟩) ∧
    (∀ (P : Prims) (content : ContentObject) (now : Nat) (e : String),
      parseDID content.author = .error e →
      verifyContent P content none now =
        ⟨false,
         ((if content.version ≠ 2 then ["INVALID_VERSION"] else []) ++
          (if content.id ≠ computeCID P (utf8Bytes (serializeContentFields content true))
            then ["INVALID_CID"] else [])) ++ ["INVALID_AUTHOR_DID"],
         none⟩) ∧
    (∀ (P : Prims) (document : IdentityDocument) (now : Nat) (sk : IdentityKey),
      document.publicKeys.find?
        (fun k => k.purpose == "signing" && k.id == document.proof.verificationMethod) =
          some sk →
      (("INVALID_VERSION" ∈ (verifyIdentityDocument P document now).errors ↔
          document.version ≠ 2) ∧
       ("DID_MISMATCH" ∈ (verifyIdentityDocument P document now).errors ↔
          document.did ≠ createDID sk.publicKey "ed25519") ∧
       ("INVALID_SIGNATURE" ∈ (verifyIdentityDocument P document now).errors ↔
          verifyHash P sk.publicKey (utf8Bytes (serializeIdentityDocNoProof document))
            document.proof.signature = false) ∧
       ("FUTURE_TIMESTAMP" ∈ (verifyIdentityDocument P document now).errors ↔
          document.created > now + 300000) ∧
       (∀ k ∈ document.publicKeys,
          (∃ r, k.revoked = some r ∧ r ≠ 0 ∧ r < now) →
            ("KEY_REVOKED:" ++ k.id) ∈ (verifyIdentityDocument P document now).errors) ∧
       (∀ k ∈ document.publicKeys,
          (∃ e, k.expires = some e ∧ e ≠ 0 ∧ e < now) →
            ("KEY_EXPIRED:" ++ k.id) ∈ (verifyIdentityDocument P document now).errors))) ∧
    (∀ (P : Prims) (document : IdentityDocument) (now : Nat),
      document.publicKeys.find?
        (fun k => k.purpose == "signing" && k.id == document.proof.verificationMethod) =
          none →
      verifyIdentityDocument P document now =
        ⟨false,
         (if document.version ≠ 2 then ["INVALID_VERSION"] else []) ++
           ["SIGNING_KEY_NOT_FOUND"],
         none⟩) := by
  refine ⟨?_, ?_, ?_, ?_, ?_, ?_⟩
  · intro P content now pk h
    refine ⟨?_, ?_, ?_, ?_, ?_, ?_⟩ <;>
    · simp only [verifyContent, h]
      rcases content.expiresAt with _ | e <;>
        rcases hp : content.payload with d | ⟨a, ep, rc, ct, nn⟩ | ⟨z, ep, ct, nn⟩ <;>
        simp [mem_tagIf, List.mem_append, hp, Bool.not_eq_true]
  · intro P content now resolver pk h
    refine ⟨?_, ?_, ?_, ?_, ?_, ?_⟩ <;>
    · simp only [verifyContent, h]
      rcases content.expiresAt with _ | e <;>
        rcases hp : content.payload with d | ⟨a, ep, rc, ct, nn⟩ | ⟨z, ep, ct, nn⟩ <;>
        simp [mem_tagIf, List.mem_append, hp, Bool.not_eq_true]
  · intro P content now resolver e h
    simp [verifyContent, h, List.append_assoc]
  · intro P content now e h
    simp [verifyContent, h, List.append_assoc]
  · intro P document now sk h
    have hkey : ∀ (t : String) (x : IdentityKey),
        (t ∈ (match x.revoked with
              | some r => if ¬r = 0 ∧ r < now then ["KEY_REVOKED:" ++ x.id] else []
              | none => []) ∨
         t ∈ (match x.expires with
              | some e => if ¬e = 0 ∧ e < now then ["KEY_EXPIRED:" ++ x.id] else []
              | none => [])) →
        t.data.head? = some 'K' := by
      intro t x hm
      rcases hm with hm | hm
      · revert hm
        rcases x.revoked with _ | r
        · simp
        · dsimp only
          split_ifs
          · intro hm
            simp only [List.mem_singleton] at hm
            subst hm
            simp [String.data_append]
          · simp
      · revert hm
        rcases x.expires with _ | e
        · simp
        · dsimp only
          split_ifs
          · intro hm
            simp only [List.mem_singleton] at hm
            subst hm
            simp [String.data_append]
          · simp
    refine ⟨?_, ?_, ?_, ?_, ?_, ?_⟩
    · simp only [verifyIdentityDocument, h]
      simp [mem_tagIf, List.mem_append, Bool.not_eq_true]
      intro x hx hm
      have hk := hkey _ x hm
      simp at hk
    · simp only [verifyIdentityDocument, h]
      simp [mem_tagIf, List.mem_append, Bool.not_eq_true]
      intro x hx hm
      have hk := hkey _ x hm
      simp at hk
    · simp only [verifyIdentityDocument, h]
      simp [mem_tagIf, List.mem_append, Bool.not_eq_true]
      intro x hx hm
      have hk := hkey _ x hm
      simp at hk
    · simp only [verifyIdentityDocument, h]
      simp [mem_tagIf, List.mem_append, Bool.not_eq_true]
      intro x hx hm
      have hk := hkey _ x hm
      simp at hk
    · rintro k hk ⟨r, hr, h0, hlt⟩
      simp only [verifyIdentityDocument, h]
      refine List.mem_append_right _ (List.mem_flatMap.mpr ⟨k, hk, ?_⟩)
      simp [hr, h0, hlt]
    · rintro k hk ⟨e, he, h0, hlt⟩
      simp only [verifyIdentityDocument, h]
      refine List.mem_append_right _ (List.mem_flatMap.mpr ⟨k, hk, ?_⟩)
      simp [he, h0, hlt]
  · intro P document now h
    simp [verifyIdentityDocument, h]

/-- C5 witness: the accumulation theorem applied to a concrete content
object with a parsable author DID and a far-future timestamp
(accumulation conjunct), and to the same object under a failing
resolver (early-return conjunct). -/
theorem verification_accumulates_witness :
    "FUTURE_TIMESTAMP" ∈
      (verifyContent toyPrims { badAuthorContent with author := identityA.did }
        none 0).errors ∧
    (verifyContent toyPrims badAuthorContent
        (some (fun _ => Except.error "resolver down")) 0).errors =
      ["INVALID_CID", "AUTHOR_KEY_NOT_FOUND"] :=
  ⟨((verification_accumulates_when_key_available.1 toyPrims
      { badAuthorContent with author := identityA.did } 0
      ⟨"key", "ed25519", identityA.keySet.signing.publicKey⟩
      (by decide)).2.2.2.1).mpr (by decide),
   by
    rw [verification_accumulates_when_key_available.2.2.1 toyPrims
      badAuthorContent 0 (fun _ => Except.error "resolver down")
      "resolver down" rfl]
    decide⟩

/- ### C2 — X3DH shared-secret agreement -/

/-- `find?` by id returns the listed prekey when ids are distinct. -/
theorem find_by_id_of_nodup (l : List OneTimePrekey) (otp : OneTimePrekey)
    (hmem : otp ∈ l) (hnd : (l.map (fun k => k.id)).Nodup) :
    l.find? (fun k => k.id == otp.id) = some otp := by
  induction l with
  | nil => cases hmem
  | cons hd tl ih =>
    rcases List.mem_cons.mp hmem with rfl | hm
    · simp [List.find?]
    · rcases List.nodup_cons.mp (by rw [List.map_cons] at hnd; exact hnd) with ⟨hni, hnd2⟩
      have hne : (hd.id == otp.id) = false := by
        refine beq_eq_false_iff_ne.mpr ?_
        intro he
        exact hni (he ▸ List.mem_map_of_mem (fun k => k.id) hm)
      rw [List.find?_cons, hne]
      exact ih hm hnd2

/-- C2: for every prekey set whose key pairs are well formed, whose
one-time-prekey ids are distinct, and whose signed prekey carries a
verifying signature, an initiator run against the public bundle and
the responder run on the returned ephemeral key and prekey ids
compute the same 32-byte shared secret — both when the bundle holds a
one-time prekey and when it holds none (the statement covers both by
cases on the bundle). -/
theorem x3dh_initiator_responder_agree
    (P : Prims) (set : PrekeySet) (ikA : KeyPair) (signingPub ephPriv : Bytes)
    (hsig : verify P signingPub set.signedPrekey.publicKey
      set.signedPrekey.signature = true)
    (hikA : ikA.publicKey = P.xPub ikA.privateKey)
    (hspk : set.signedPrekey.publicKey = P.xPub set.signedPrekey.privateKey)
    (hikB : set.identityKey.publicKey = P.xPub set.identityKey.privateKey)
    (hotp : ∀ k ∈ set.oneTimePrekeys, k.publicKey = P.xPub k.privateKey)
    (hids : (set.oneTimePrekeys.map (fun k => k.id)).Nodup)
    (hsym : ∀ a b, P.dh a (P.xPub b) = P.dh b (P.xPub a))
    (hklen : ∀ ikm info, (P.hkdf ikm info 32).length = 32) :
    ∃ res set',
      x3dhInitiate P ikA (getPublicBundle set) signingPub ephPriv = .ok res ∧
      x3dhRespond P set ikA.publicKey res.ephemeralPublic res.usedSignedPrekeyId
        res.usedOneTimePrekeyId = .ok (res.sharedSecret, set') ∧
      res.sharedSecret.length = 32 := by
  have e1 : P.dh ikA.privateKey set.signedPrekey.publicKey =
      P.dh set.signedPrekey.privateKey ikA.publicKey := by
    rw [hspk, hikA, hsym]
  have e2 : P.dh ephPriv set.identityKey.publicKey =
      P.dh set.identityKey.privateKey (P.xPub ephPriv) := by
    rw [hikB, hsym]
  have e3 : P.dh ephPriv set.signedPrekey.publicKey =
      P.dh set.signedPrekey.privateKey (P.xPub ephPriv) := by
    rw [hspk, hsym]
  rcases hf : set.oneTimePrekeys.filter (fun k => !k.used) with _ | ⟨otp, rest⟩
  · refine ⟨⟨P.hkdf (P.dh ikA.privateKey set.signedPrekey.publicKey ++
        P.dh ephPriv set.identityKey.publicKey ++
        P.dh ephPriv set.signedPrekey.publicKey) "x3dh-v1" 32,
      P.xPub ephPriv, set.signedPrekey.id, none⟩, set, ?_, ?_, ?_⟩
    · simp [x3dhInitiate, hsig, getPublicBundle, hf]
    · simp [x3dhRespond, e1, e2, e3]
    · exact hklen _ _
  · have hmem : otp ∈ set.oneTimePrekeys :=
      List.mem_of_mem_filter (hf ▸ List.mem_cons_self otp rest)
    have hfind := find_by_id_of_nodup set.oneTimePrekeys otp hmem hids
    have e4 : P.dh ephPriv otp.publicKey =
        P.dh otp.privateKey (P.xPub ephPriv) := by
      rw [hotp otp hmem, hsym]
    refine ⟨⟨P.hkdf (P.dh ikA.privateKey set.signedPrekey.publicKey ++
        P.dh ephPriv set.identityKey.publicKey ++
        P.dh ephPriv set.signedPrekey.publicKey ++
        P.dh ephPriv otp.publicKey) "x3dh-v1" 32,
      P.xPub ephPriv, set.signedPrekey.id, some otp.id⟩,
      { set with oneTimePrekeys := markUsed set.oneTimePrekeys otp.id },
      ?_, ?_, ?_⟩
    · simp [x3dhInitiate, hsig, getPublicBundle, hf]
    · simp [x3dhRespond, hfind, e1, e2, e3, e4]
    · exact hklen _ _

/-- C2 witness: the agreement theorem applied to a concrete toy prekey
set holding one unused one-time prekey. -/
theorem x3dh_initiator_responder_agree_witness :
    ∃ res set',
      x3dhInitiate toyPrims ⟨[4], [4]⟩
        (getPublicBundle ⟨⟨[1], [1]⟩, ⟨5, [2], [2], [9, 2], 0⟩,
          [⟨7, [3], [3], false⟩]⟩) [9] [6] = .ok res ∧
      x3dhRespond toyPrims ⟨⟨[1], [1]⟩, ⟨5, [2], [2], [9, 2], 0⟩,
          [⟨7, [3], [3], false⟩]⟩ [4] res.ephemeralPublic
        res.usedSignedPrekeyId res.usedOneTimePrekeyId =
          .ok (res.sharedSecret, set') ∧
      res.sharedSecret.length = 32 :=
  x3dh_initiator_responder_agree toyPrims
    ⟨⟨[1], [1]⟩, ⟨5, [2], [2], [9, 2], 0⟩, [⟨7, [3], [3], false⟩]⟩
    ⟨[4], [4]⟩ [9] [6] (by decide) (by decide) (by decide) (by decide)
    (by decide) (by decide) toy_dh_sym (fun ikm info => toy_hkdf_length ikm info 32)

/- ### C9 — identity export / import -/

/-- C9: exporting an identity under a password and importing under the
same password succeeds and preserves the DID, while importing under a
password deriving a different wrap key fails with the authentication
error (not a decode error). Hypotheses state the serialization
round-trip (`JSON.parse ∘ JSON.stringify`), the AEAD contract at the
used key and nonce, the derived key lengths, and that the identity's
own document verifies. -/
theorem export_import_roundtrip
    (P : Prims) (enc : Identity → Bytes) (dec : Bytes → Option Identity)
    (identity : Identity) (pw pw' : String) (salt nonce : Bytes) (now : Nat)
    (hroundtrip : dec (enc identity) = some identity)
    (hklen : (deriveKeyFromPassword P pw (createArgon2Params salt)).length = 32)
    (hk'len : (deriveKeyFromPassword P pw' (createArgon2Params salt)).length = 32)
    (hnlen : nonce.length = 24)
    (hdec : P.aeadDec (deriveKeyFromPassword P pw (createArgon2Params salt))
      (P.aeadEnc (deriveKeyFromPassword P pw (createArgon2Params salt)) nonce (enc identity)) nonce =
        some (enc identity))
    (hwrong : P.aeadDec (deriveKeyFromPassword P pw' (createArgon2Params salt))
      (P.aeadEnc (deriveKeyFromPassword P pw (createArgon2Params salt)) nonce (enc identity)) nonce =
        none)
    (hvalid : (verifyIdentityDocument P identity.document now).valid = true) :
    ∃ exported imported,
      exportIdentity P enc identity pw salt nonce = .ok exported ∧
      importIdentity P dec exported pw now = .ok imported ∧
      imported.did = identity.did ∧
      importIdentity P dec exported pw' now =
        .error "Invalid password or corrupted data" := by
  have htake : (nonce ++ P.aeadEnc (deriveKeyFromPassword P pw (createArgon2Params salt)) nonce
      (enc identity)).take 24 = nonce := by
    rw [← hnlen]
    exact List.take_left _ _
  have hdrop : (nonce ++ P.aeadEnc (deriveKeyFromPassword P pw (createArgon2Params salt)) nonce
      (enc identity)).drop 24 =
      P.aeadEnc (deriveKeyFromPassword P pw (createArgon2Params salt)) nonce (enc identity) := by
    rw [← hnlen]
    exact List.drop_left _ _
  simp only [createArgon2Params] at hklen hk'len hdec hwrong htake hdrop
  refine ⟨⟨2, true,
      nonce ++ P.aeadEnc (deriveKeyFromPassword P pw (createArgon2Params salt)) nonce (enc identity),
      some ⟨"argon2id", salt, 262144, 3, 4⟩⟩, identity, ?_, ?_, rfl, ?_⟩
  · simp [exportIdentity, encryptAead, hklen, hnlen, createArgon2Params]
  · simp [importIdentity, decryptAead, createArgon2Params, htake, hdrop,
      hklen, hnlen, hdec, hroundtrip, hvalid]
  · simp [importIdentity, decryptAead, createArgon2Params, htake, hdrop,
      hk'len, hnlen, hwrong]

/-- C9 witness: the round-trip theorem applied to the concrete toy
identity under passwords `pw` and `qw`. -/
theorem export_import_roundtrip_witness :
    ∃ exported imported,
      exportIdentity toyPrims (fun i => utf8Bytes i.did) identityA "pw"
        (List.replicate 16 3) (List.replicate 24 4) = .ok exported ∧
      importIdentity toyPrims
        (fun b => if b = utf8Bytes identityA.did then some identityA else none)
        exported "pw" 2000 = .ok imported ∧
      imported.did = identityA.did ∧
      importIdentity toyPrims
        (fun b => if b = utf8Bytes identityA.did then some identityA else none)
        exported "qw" 2000 = .error "Invalid password or corrupted data" :=
  export_import_roundtrip toyPrims (fun i => utf8Bytes i.did)
    (fun b => if b = utf8Bytes identityA.did then some identityA else none)
    identityA "pw" "qw" (List.replicate 16 3) (List.replicate 24 4) 2000
    (by decide) (by decide) (by decide) (by decide) (by decide) (by decide)
    (by decide)

/- ### C10 — ratchetDecrypt mutates state before an AEAD failure -/

/-- C10: when the message is not served from `skippedKeys` and the
final AEAD open fails, `ratchetDecrypt` has already consumed the
message key: the receive chain key has been advanced, `receiveN`
incremented, and — when the header carried a new DH public — the DH
ratchet step (new `dhSend`, new `dhReceive`, new chains) has been
performed and is kept. The first conjunct covers an unchanged DH
public at the current index; the second covers a header with a new DH
public on a receiver without a receive chain. -/
theorem ratchetDecrypt_mutates_state_before_auth_failure :
    (∀ (P : Prims) (st : RatchetState) (msg : EncryptedMessage)
        (fresh r rck : Bytes) (err : String),
      mapGet st.skippedKeys (msg.header.dhPublic, msg.header.n) = none →
      st.dhReceive = some r →
      constantTimeEqual msg.header.dhPublic r = true →
      st.receiveChainKey = some rck →
      msg.header.n = st.receiveN →
      decryptAead P (kdfChain P rck).1 msg.ciphertext msg.nonce = .error err →
      ratchetDecrypt P st msg fresh =
        (.error err,
         { st with receiveChainKey := some (kdfChain P rck).2,
                   receiveN := st.receiveN + 1 })) ∧
    (∀ (P : Prims) (st : RatchetState) (msg : EncryptedMessage)
        (fresh r : Bytes) (err : String),
      mapGet st.skippedKeys (msg.header.dhPublic, msg.header.n) = none →
      st.dhReceive = some r →
      constantTimeEqual msg.header.dhPublic r = false →
      st.receiveChainKey = none →
      msg.header.n = 0 →
      decryptAead P (kdfChain P (kdfRootKey P st.rootKey
          (P.dh st.dhSend.privateKey msg.header.dhPublic)).2).1
        msg.ciphertext msg.nonce = .error err →
      (ratchetDecrypt P st msg fresh).1 = .error err ∧
      (ratchetDecrypt P st msg fresh).2.dhSend = ⟨P.xPub fresh, fresh⟩ ∧
      (ratchetDecrypt P st msg fresh).2.dhReceive = some msg.header.dhPublic ∧
      (ratchetDecrypt P st msg fresh).2.receiveN = 1 ∧
      (ratchetDecrypt P st msg fresh).2.receiveChainKey =
        some (kdfChain P (kdfRootKey P st.rootKey
          (P.dh st.dhSend.privateKey msg.header.dhPublic)).2).2) := by
  constructor
  · intro P st msg fresh r rck err hmiss hr hct hrck hn herr
    have h1 : ¬(st.receiveN + st.maxSkip < st.receiveN) := by omega
    have h2 : ¬(st.receiveN < st.receiveN) := by omega
    rw [hn] at hmiss
    simp [ratchetDecrypt, hmiss, hr, hct, hrck, hn, skipMessageKeys,
      skipLoop, h1, h2, herr]
  · intro P st msg fresh r err hmiss hr hct hrck hn herr
    have h1 : ∀ m : Nat, ¬(0 + m < 0) := by omega
    have h2 : ¬(0 < 0) := by omega
    rw [hn] at hmiss
    simp [ratchetDecrypt, hmiss, hr, hct, hrck, hn, skipMessageKeys,
      dhRatchetStep, skipLoop, h1, h2, herr]

/- ### C7 — skipped-key table bound, overflow eviction, skip limit -/

/-- `Map.set` grows the table by at most one entry. -/
theorem mapSet_length_le (m : List (SkipKey × Bytes)) (k : SkipKey) (v : Bytes) :
    (mapSet m k v).length ≤ m.length + 1 := by
  unfold mapSet
  split_ifs <;> simp

/-- The skip loop never touches `maxSkip`. -/
theorem skipLoop_maxSkip (P : Prims) (st : RatchetState) (untilN : Nat) :
    (skipLoop P st untilN).maxSkip = st.maxSkip := by
  induction st, untilN using skipLoop.induct P with
  | case1 st untilN h1 h2 =>
    rw [skipLoop]
    simp [h1, h2]
  | case2 st untilN h1 rck h2 mk nck key sk1 sk2 ih =>
    rw [skipLoop]
    simp only [h1, h2, dif_pos]
    exact ih
  | case3 st untilN h1 =>
    rw [skipLoop]
    simp [h1]

/-- The skip loop keeps the table within `maxSkip` entries. -/
theorem skipLoop_len (P : Prims) (st : RatchetState) (untilN : Nat)
    (h : st.skippedKeys.length ≤ st.maxSkip) :
    (skipLoop P st untilN).skippedKeys.length ≤ st.maxSkip := by
  induction st, untilN using skipLoop.induct P with
  | case1 st untilN h1 h2 =>
    rw [skipLoop]
    simpa [h1, h2] using h
  | case2 st untilN h1 rck h2 mk nck key sk1 sk2 ih =>
    rw [skipLoop]
    simp only [h1, h2, dif_pos]
    apply ih
    show sk2.length ≤ st.maxSkip
    simp only [sk2, sk1]
    split_ifs with hgt
    · have := mapSet_length_le st.skippedKeys key mk
      simp only [List.length_drop]
      omega
    · have := mapSet_length_le st.skippedKeys key mk
      omega
  | case3 st untilN h1 =>
    rw [skipLoop]
    simpa [h1] using h

/-- `skipMessageKeys` keeps the table within `maxSkip` and preserves
`maxSkip` on success. -/
theorem skipMessageKeys_ok_inv (P : Prims) (st : RatchetState) (untilN : Nat)
    (st' : RatchetState) (hok : skipMessageKeys P st untilN = .ok st')
    (h : st.skippedKeys.length ≤ st.maxSkip) :
    st'.skippedKeys.length ≤ st'.maxSkip ∧ st'.maxSkip = st.maxSkip := by
  unfold skipMessageKeys at hok
  rcases hck : st.receiveChainKey with _ | rck <;> rw [hck] at hok
  · cases hok
    exact ⟨h, rfl⟩
  · split_ifs at hok
    cases hok
    exact ⟨(skipLoop_maxSkip P st untilN) ▸ skipLoop_len P st untilN h,
           skipLoop_maxSkip P st untilN⟩

/-- The DH ratchet step touches neither the table nor `maxSkip`. -/
theorem dhRatchetStep_skipped (P : Prims) (st : RatchetState)
    (pub fresh : Bytes) :
    (dhRatchetStep P st pub fresh).skippedKeys = st.skippedKeys ∧
    (dhRatchetStep P st pub fresh).maxSkip = st.maxSkip := by
  simp [dhRatchetStep]

/-- One `ratchetDecrypt` call keeps the skipped-key table within
`maxSkip` and preserves `maxSkip`, on success and on every error
path. -/
theorem ratchetDecrypt_table_inv (P : Prims) (st : RatchetState)
    (msg : EncryptedMessage) (fresh : Bytes)
    (h : st.skippedKeys.length ≤ st.maxSkip) :
    (ratchetDecrypt P st msg fresh).2.skippedKeys.length ≤
      (ratchetDecrypt P st msg fresh).2.maxSkip ∧
    (ratchetDecrypt P st msg fresh).2.maxSkip = st.maxSkip := by
  unfold ratchetDecrypt
  rcases hm : mapGet st.skippedKeys (msg.header.dhPublic, msg.header.n) with _ | sk
  · simp only [hm]
    split
    · exact ⟨h, rfl⟩
    · rename_i stB heq
      have hB : stB.skippedKeys.length ≤ stB.maxSkip ∧ stB.maxSkip = st.maxSkip := by
        revert heq
        rcases hr : st.dhReceive with _ | r
        · simp only [hr]
          intro heq
          cases heq
          rcases dhRatchetStep_skipped P st msg.header.dhPublic fresh with ⟨e1, e2⟩
          exact ⟨e1 ▸ e2 ▸ h, e2⟩
        · simp only [hr]
          cases hct : constantTimeEqual msg.header.dhPublic r
          · simp only [Bool.not_false, if_pos]
            split
            · intro heq
              cases heq
            · rename_i stA hA
              intro heq
              cases heq
              rcases skipMessageKeys_ok_inv P st msg.header.pn stA hA h with ⟨f1, f2⟩
              rcases dhRatchetStep_skipped P stA msg.header.dhPublic fresh with ⟨e1, e2⟩
              exact ⟨e1 ▸ e2 ▸ f1, by rw [e2, f2]⟩
          · simp only [Bool.not_true, if_neg]
            intro heq
            cases heq
            exact ⟨h, rfl⟩
      rcases hB with ⟨hB1, hB2⟩
      split
      · exact ⟨hB1, hB2⟩
      · rename_i stC hC
        rcases skipMessageKeys_ok_inv P stB msg.header.n stC hC hB1 with ⟨g1, g2⟩
        split
        · exact ⟨g1, by rw [g2, hB2]⟩
        · exact ⟨g1, by rw [g2, hB2]⟩
  · simp only [hm]
    exact ⟨le_trans (List.length_filter_le _ _) h, by simp⟩

/-- `Map.set` appends when the key is absent. -/
theorem mapSet_append_of_absent (m : List (SkipKey × Bytes)) (k : SkipKey)
    (v : Bytes) (h : m.any (fun e => e.1 == k) = false) :
    mapSet m k v = m ++ [(k, v)] := by
  unfold mapSet
  simp [h]

/-- First-in-first-out eviction: the skip loop leaves the table equal
to a suffix of the old entries followed by the newly derived keys —
entries are only ever dropped from the front (oldest first), and only
while the table is full. -/
theorem skipLoop_fifo (P : Prims) :
    ∀ (st : RatchetState) (untilN : Nat),
    ∀ (base ne : List (SkipKey × Bytes)) (d : Nat),
      st.skippedKeys = (base ++ ne).drop d →
      d ≤ (base ++ ne).length →
      (∀ i, mapGet base (st.dhReceive.getD [], i) = none) →
      (∀ e ∈ ne, e.1.1 = st.dhReceive.getD [] ∧ e.1.2 < st.receiveN) →
      st.skippedKeys.length ≤ st.maxSkip →
      (d = 0 ∨ st.skippedKeys.length = st.maxSkip) →
      ∃ d' ne',
        (skipLoop P st untilN).skippedKeys = (base ++ (ne ++ ne')).drop d' ∧
        d' ≤ (base ++ (ne ++ ne')).length ∧
        (d' = 0 ∨ (skipLoop P st untilN).skippedKeys.length = st.maxSkip) ∧
        (skipLoop P st untilN).skippedKeys.length ≤ st.maxSkip := by
  intro st untilN
  induction st, untilN using skipLoop.induct P with
  | case1 st untilN h1 h2 =>
    intro base ne d hshape hd hbase hne hlen hfull
    rw [skipLoop]
    simp only [h1, h2, dif_pos]
    exact ⟨d, [], by simpa using hshape, by simpa using hd, by simpa using hfull,
      hlen⟩
  | case2 st untilN h1 rck h2 mk nck key sk1 sk2 ih =>
    intro base ne d hshape hd hbase hne hlen hfull
    -- the fresh key is absent from the current table
    have habs : st.skippedKeys.any (fun e => e.1 == key) = false := by
      rw [Bool.eq_false_iff]
      intro hany
      rcases List.any_eq_true.mp hany with ⟨e, hemem, hek⟩
      have hemem' : e ∈ base ++ ne := List.mem_of_mem_drop (hshape ▸ hemem)
      have hek' : e.1 = key := by
        simpa using hek
      rcases List.mem_append.mp hemem' with hb | hn
      · have hfind := (List.find?_eq_none.mp (by
          have := hbase st.receiveN
          unfold mapGet at this
          exact Option.map_eq_none'.mp this)) e hb
        simp [hek'] at hfind
      · have hlt := (hne e hn).2
        rw [hek'] at hlt
        simp [key] at hlt
    have hsk1 : sk1 = (base ++ ne).drop d ++ [(key, mk)] := by
      simp only [sk1]
      rw [mapSet_append_of_absent _ _ _ habs, hshape]
    have hsk1' : sk1 = (base ++ (ne ++ [(key, mk)])).drop d := by
      rw [hsk1, ← List.append_assoc, List.drop_append_of_le_length hd]
    have hlen1 : sk1.length = st.skippedKeys.length + 1 := by
      rw [hsk1, ← hshape]
      simp
    have hdlen : d ≤ (base ++ (ne ++ [(key, mk)])).length := by
      simp only [List.length_append] at hd ⊢
      omega
    have hnew : ∀ e ∈ ne ++ [(key, mk)],
        e.1.1 = st.dhReceive.getD [] ∧ e.1.2 < st.receiveN + 1 := by
      intro e he
      rcases List.mem_append.mp he with hn | hk
      · have := hne e hn
        exact ⟨this.1, by omega⟩
      · simp only [List.mem_singleton] at hk
        subst hk
        exact ⟨rfl, by show st.receiveN < st.receiveN + 1; omega⟩
    rw [skipLoop]
    simp only [h1, h2, dif_pos]
    by_cases hgt : sk1.length > st.maxSkip
    · -- eviction: drop the global head
      have hsk2 : sk2 = (base ++ (ne ++ [(key, mk)])).drop (d + 1) := by
        simp only [sk2, hgt, if_pos, dite_true]
        rw [hsk1', List.drop_drop]
      have hskip2len : sk2.length = st.maxSkip := by
        have h21 : sk2 = List.drop 1 sk1 := by simp [sk2, hgt]
        rw [h21]
        simp only [List.length_drop]
        omega
      have hd1len : d + 1 ≤ (base ++ (ne ++ [(key, mk)])).length := by
        have : sk1.length ≤ (base ++ (ne ++ [(key, mk)])).length - d := by
          rw [hsk1']
          simp [List.length_drop]
        simp only [List.length_append] at hd this ⊢
        omega
      rcases ih base (ne ++ [(key, mk)]) (d + 1) hsk2 hd1len
          (by simpa using hbase) hnew
          (by show sk2.length ≤ st.maxSkip; omega)
          (Or.inr (by show sk2.length = st.maxSkip; exact hskip2len)) with
        ⟨d', ne', g1, g2, g3, g4⟩
      refine ⟨d', [(key, mk)] ++ ne', ?_, ?_, g3, g4⟩
      · exact g1.trans (by rw [List.append_assoc])
      · simpa [List.length_append] using g2
    · -- no eviction
      have hd0 : d = 0 := by
        rcases hfull with h0 | hfl
        · exact h0
        · omega
      have hsk2 : sk2 = (base ++ (ne ++ [(key, mk)])).drop d := by
        simp only [sk2, hgt, dite_false]
        exact hsk1'
      rcases ih base (ne ++ [(key, mk)]) d hsk2 hdlen
          (by simpa using hbase) hnew
          (by
            show sk2.length ≤ st.maxSkip
            have h21 : sk2 = sk1 := by simp [sk2, hgt]
            rw [h21]
            omega)
          (Or.inl hd0) with ⟨d', ne', g1, g2, g3, g4⟩
      refine ⟨d', [(key, mk)] ++ ne', ?_, ?_, g3, g4⟩
      · exact g1.trans (by rw [List.append_assoc])
      · simpa [List.length_append] using g2
  | case3 st untilN h1 =>
    intro base ne d hshape hd hbase hne hlen hfull
    rw [skipLoop]
    simp only [h1, dif_neg, ite_false]
    exact ⟨d, [], by simpa using hshape, by simpa using hd, by simpa using hfull,
      hlen⟩

/-- C7: (1) across any sequence of `ratchetDecrypt` operations the
skipped-key table never holds more than `maxSkip` entries (and
`maxSkip` itself never changes); (2) a single decrypt that would skip
more than `maxSkip` message keys at once fails with the
too-many-skipped error, leaving the state unchanged; (3) on success
`skipMessageKeys` leaves the table equal to a suffix of the old
entries followed by the newly derived keys — the oldest entries are
evicted first, and only while the table is full. -/
theorem skipped_table_bounded_fifo_and_skip_limit :
    (∀ (P : Prims) (st : RatchetState) (msgs : List (EncryptedMessage × Bytes)),
      st.skippedKeys.length ≤ st.maxSkip →
      (decryptFold P st msgs).skippedKeys.length ≤ st.maxSkip ∧
      (decryptFold P st msgs).maxSkip = st.maxSkip) ∧
    (∀ (P : Prims) (st : RatchetState) (msg : EncryptedMessage)
        (fresh r rck : Bytes),
      mapGet st.skippedKeys (msg.header.dhPublic, msg.header.n) = none →
      st.dhReceive = some r →
      constantTimeEqual msg.header.dhPublic r = true →
      st.receiveChainKey = some rck →
      st.receiveN + st.maxSkip < msg.header.n →
      ratchetDecrypt P st msg fresh = (.error "Too many skipped messages", st)) ∧
    (∀ (P : Prims) (st : RatchetState) (untilN : Nat) (st' : RatchetState),
      skipMessageKeys P st untilN = .ok st' →
      st.skippedKeys.length ≤ st.maxSkip →
      (∀ i, mapGet st.skippedKeys (st.dhReceive.getD [], i) = none) →
      ∃ d ne, st'.skippedKeys = (st.skippedKeys ++ ne).drop d ∧
        (d = 0 ∨ st'.skippedKeys.length = st.maxSkip) ∧
        st'.skippedKeys.length ≤ st.maxSkip) := by
  refine ⟨?_, ?_, ?_⟩
  · intro P st msgs
    induction msgs generalizing st with
    | nil => exact fun h => ⟨h, rfl⟩
    | cons mf rest ih =>
      intro h
      rcases mf with ⟨m, f⟩
      rcases ratchetDecrypt_table_inv P st m f h with ⟨h1, h2⟩
      rcases ih (ratchetDecrypt P st m f).2 (h2 ▸ h1) with ⟨g1, g2⟩
      exact ⟨by rw [← h2]; exact g2 ▸ g1, by rw [← h2]; exact g2⟩
  · intro P st msg fresh r rck hmiss hr hct hrck hlt
    unfold ratchetDecrypt
    simp only [hmiss, hr, hct, Bool.not_true, skipMessageKeys, hrck,
      if_neg, ite_false, hlt, if_pos, ite_true]
    simp [hrck, hlt]
  · intro P st untilN st' hok hlen hbase
    unfold skipMessageKeys at hok
    rcases hck : st.receiveChainKey with _ | rck <;> rw [hck] at hok
    · cases hok
      exact ⟨0, [], by simp, Or.inl rfl, hlen⟩
    · split_ifs at hok
      cases hok
      rcases skipLoop_fifo P st untilN st.skippedKeys [] 0 (by simp) (by simp)
          hbase (by simp) hlen (Or.inl rfl) with ⟨d, ne, g1, g2, g3, g4⟩
      exact ⟨d, ne, by simpa using g1, g3, g4⟩

/-- C7 witness: the skip-limit part applied to a concrete state with
`maxSkip = 1000` receiving a message with index 1001. -/
theorem skipped_table_skip_limit_witness :
    ratchetDecrypt toyPrims
      { dhSend := ⟨[1], [1]⟩, dhReceive := some [2], rootKey := [3],
        sendChainKey := none, receiveChainKey := some (List.replicate 32 5),
        sendN := 0, receiveN := 0, previousSendN := 0, skippedKeys := [],
        maxSkip := 1000 }
      ⟨⟨[2], 1001, 0⟩, [7], List.replicate 24 6⟩ [9] =
      (.error "Too many skipped messages",
       { dhSend := ⟨[1], [1]⟩, dhReceive := some [2], rootKey := [3],
         sendChainKey := none, receiveChainKey := some (List.replicate 32 5),
         sendN := 0, receiveN := 0, previousSendN := 0, skippedKeys := [],
         maxSkip := 1000 }) :=
  skipped_table_bounded_fifo_and_skip_limit.2.1 toyPrims _ _ [9] [2]
    (List.replicate 32 5) (by decide) rfl (by decide) rfl (by decide)

/- ### C10 witness -/

/-- C10 witness: the mutation theorem applied to a concrete state and
an unauthentic ciphertext; the failed call leaves the advanced chain
key and incremented counter behind. -/
theorem ratchetDecrypt_mutates_witness :
    ratchetDecrypt toyPrims
      { dhSend := ⟨[1], [1]⟩, dhReceive := some [2], rootKey := [3],
        sendChainKey := none, receiveChainKey := some (List.replicate 32 5),
        sendN := 0, receiveN := 0, previousSendN := 0, skippedKeys := [],
        maxSkip := 1000 }
      ⟨⟨[2], 0, 0⟩, [7, 7, 7], List.replicate 24 6⟩ [9] =
      (.error "invalid tag",
       { dhSend := ⟨[1], [1]⟩, dhReceive := some [2], rootKey := [3],
         sendChainKey := none,
         receiveChainKey := some (kdfChain toyPrims (List.replicate 32 5)).2,
         sendN := 0, receiveN := 1, previousSendN := 0, skippedKeys := [],
         maxSkip := 1000 }) :=
  ratchetDecrypt_mutates_state_before_auth_failure.1 toyPrims _ _ [9] [2]
    (List.replicate 32 5) "invalid tag" (by decide) rfl (by decide) rfl
    (by decide) (by decide)

/- ### C3 — a two-party Double Ratchet session -/

/-- The chain key after `n` symmetric-ratchet advances of a chain with
the given seed. -/
def chainKeyAt (P : Prims) (seed : Bytes) : Nat → Bytes
  | 0 => seed
  | n + 1 => (kdfChain P (chainKeyAt P seed n)).2

/-- The message key of the `n`-th message of a chain with the given
seed. -/
def msgKeyAt (P : Prims) (seed : Bytes) (n : Nat) : Bytes :=
  (kdfChain P (chainKeyAt P seed n)).1

/-- The DH output consumed by step `i` of the alternating root-key
ladder: step `2k` pairs A's `k`-th scalar with B's `k`-th public key,
step `2k+1` pairs B's `(k+1)`-th scalar with A's `k`-th public key. -/
def dhAt (P : Prims) (als bts : List Bytes) (i : Nat) : Bytes :=
  if i % 2 = 0 then P.dh (als.getD (i / 2) []) (P.xPub (bts.getD (i / 2) []))
  else P.dh (bts.getD (i / 2 + 1) []) (P.xPub (als.getD (i / 2) []))

/-- The root key after `i` ladder steps (step count 0 = the X3DH
shared secret). -/
def rootAt (P : Prims) (sk : Bytes) (als bts : List Bytes) : Nat → Bytes
  | 0 => sk
  | i + 1 => (kdfRootKey P (rootAt P sk als bts i) (dhAt P als bts i)).1

/-- Seed of A's `k`-th sending chain (established at ladder step
`2k`). -/
def chainAB (P : Prims) (sk : Bytes) (als bts : List Bytes) (k : Nat) : Bytes :=
  (kdfRootKey P (rootAt P sk als bts (2 * k)) (dhAt P als bts (2 * k))).2

/-- Seed of B's `k`-th sending chain for `k ≥ 1` (established at
ladder step `2k - 1`); B's chain 0 is a placeholder that never
sends. -/
def chainBA (P : Prims) (sk : Bytes) (als bts : List Bytes) (k : Nat) : Bytes :=
  (kdfRootKey P (rootAt P sk als bts (2 * k - 1)) (dhAt P als bts (2 * k - 1))).2

/-- Sum of the first `c` entries of a chain-length list. -/
def sumTo (lens : List Nat) (c : Nat) : Nat := (lens.take c).sum

/-- Split a global message index into (chain index, offset inside the
chain) according to the per-chain message counts. -/
def chainPos : List Nat → Nat → Nat × Nat
  | [], i => (0, i)
  | L :: rest, i =>
    if i < L then (0, i)
    else ((chainPos rest (i - L)).1 + 1, (chainPos rest (i - L)).2)

/-- Increment the last entry of a chain-length list. -/
def bumpLast : List Nat → List Nat
  | [] => []
  | [l] => [l + 1]
  | l :: m :: rest => l :: bumpLast (m :: rest)

/-- A sent message kept with its plaintext, to state the round trip. -/
structure SentMsg where
  msg : EncryptedMessage
  plaintext : Bytes
deriving Repr, DecidableEq

/-- Placeholder message for out-of-range lookups. -/
def dummyMsg : SentMsg := ⟨⟨⟨[], 0, 0⟩, [], []⟩, []⟩

/-- An event of a two-party ratchet session: a send by one side (with
the fresh nonce the encryption consumes) or the delivery of the `i`-th
message sent by the opposite side (with the fresh DH scalar a ratchet
step would consume). -/
inductive SessionEvent where
  | sendA (plaintext nonce : Bytes)
  | sendB (plaintext nonce : Bytes)
  | deliverA (i : Nat) (fresh : Bytes)
  | deliverB (i : Nat) (fresh : Bytes)
deriving Repr, DecidableEq

/-- A two-party session: both ratchet states, what each side has sent
(with plaintexts), which opposite-side message indices have been
delivered to each side (in delivery order), and specification-only
bookkeeping — the DH scalars each side has used so far and the message
counts of each side's sending chains. The bookkeeping never feeds back
into the ratchet states. -/
structure Session where
  stA : RatchetState
  stB : RatchetState
  sentA : List SentMsg
  sentB : List SentMsg
  dlvA : List Nat
  dlvB : List Nat
  als : List Bytes
  bts : List Bytes
  lensA : List Nat
  lensB : List Nat
deriving Repr

/-- One step of the session semantics. Sends run `ratchetEncrypt` and
record the message; deliveries run `ratchetDecrypt` on the indexed
message and record the index. The bookkeeping mirrors the branch the
decrypt takes: a DH ratchet happens exactly when the message is not in
the skipped-key table and carries a new DH public key. -/
def stepSession (P : Prims) (w : Session) : SessionEvent → Session
  | .sendA p nonce =>
    match ratchetEncrypt P w.stA p nonce with
    | .ok r => { w with stA := r.2, sentA := w.sentA ++ [⟨r.1, p⟩],
                        lensA := bumpLast w.lensA }
    | .error _ => w
  | .sendB p nonce =>
    match ratchetEncrypt P w.stB p nonce with
    | .ok r => { w with stB := r.2, sentB := w.sentB ++ [⟨r.1, p⟩],
                        lensB := bumpLast w.lensB }
    | .error _ => w
  | .deliverB i fresh =>
    let m := (w.sentA.getD i dummyMsg).msg
    let ratcheted :=
      (mapGet w.stB.skippedKeys (m.header.dhPublic, m.header.n)).isNone &&
      (match w.stB.dhReceive with
       | none => true
       | some r => !(constantTimeEqual m.header.dhPublic r))
    { w with stB := (ratchetDecrypt P w.stB m fresh).2,
             dlvB := w.dlvB ++ [i],
             bts := if ratcheted then w.bts ++ [fresh] else w.bts,
             lensB := if ratcheted then w.lensB ++ [0] else w.lensB }
  | .deliverA i fresh =>
    let m := (w.sentB.getD i dummyMsg).msg
    let ratcheted :=
      (mapGet w.stA.skippedKeys (m.header.dhPublic, m.header.n)).isNone &&
      (match w.stA.dhReceive with
       | none => true
       | some r => !(constantTimeEqual m.header.dhPublic r))
    { w with stA := (ratchetDecrypt P w.stA m fresh).2,
             dlvA := w.dlvA ++ [i],
             als := if ratcheted then w.als ++ [fresh] else w.als,
             lensA := if ratcheted then w.lensA ++ [0] else w.lensA }

/-- The public keys of a list of DH scalars. -/
def xPubs (P : Prims) (l : List Bytes) : List Bytes := l.map P.xPub

/-- Event well-formedness: nonces are 24 bytes, B sends only once its
sending chain exists, a delivery names an undelivered message that is
at most `maxSkip = 1000` positions ahead of the number of messages
already delivered to that side, and the fresh DH scalar yields a
public key not used before. -/
def ValidEvent (P : Prims) (w : Session) : SessionEvent → Prop
  | .sendA _ nonce => nonce.length = 24
  | .sendB _ nonce => nonce.length = 24 ∧ w.stB.sendChainKey.isSome = true
  | .deliverB i fresh =>
    i < w.sentA.length ∧ i ∉ w.dlvB ∧ i ≤ w.dlvB.length + 1000 ∧
    P.xPub fresh ∉ xPubs P (w.als ++ w.bts)
  | .deliverA i fresh =>
    i < w.sentB.length ∧ i ∉ w.dlvA ∧ i ≤ w.dlvA.length + 1000 ∧
    P.xPub fresh ∉ xPubs P (w.als ++ w.bts)

/-- All events of a trace are well-formed at the states they reach. -/
def ValidFrom (P : Prims) (w : Session) : List SessionEvent → Prop
  | [] => True
  | e :: tr => ValidEvent P w e ∧ ValidFrom P (stepSession P w e) tr

/-- The observable outcome of one event: sends succeed, and a delivery
decrypts to exactly the plaintext that was encrypted. -/
def DeliveredOk (P : Prims) (w : Session) : SessionEvent → Prop
  | .sendA p nonce => ∃ r, ratchetEncrypt P w.stA p nonce = .ok r
  | .sendB p nonce => ∃ r, ratchetEncrypt P w.stB p nonce = .ok r
  | .deliverB i fresh =>
    (ratchetDecrypt P w.stB (w.sentA.getD i dummyMsg).msg fresh).1 =
      .ok (w.sentA.getD i dummyMsg).plaintext
  | .deliverA i fresh =>
    (ratchetDecrypt P w.stA (w.sentB.getD i dummyMsg).msg fresh).1 =
      .ok (w.sentB.getD i dummyMsg).plaintext

/-- Every event of a trace has its expected outcome. -/
def DeliveriesOk (P : Prims) (w : Session) : List SessionEvent → Prop
  | [] => True
  | e :: tr => DeliveredOk P w e ∧ DeliveriesOk P (stepSession P w e) tr

/-- The session right after `initSenderRatchet`/`initReceiverRatchet`
over a shared secret, the responder's signed-prekey pair and the
initiator's fresh DH scalar. -/
def initSession (P : Prims) (sk spkPriv freshA : Bytes) : Session :=
  { stA := initSenderRatchet P sk (P.xPub spkPriv) freshA
    stB := initReceiverRatchet sk ⟨P.xPub spkPriv, spkPriv⟩
    sentA := [], sentB := [], dlvA := [], dlvB := []
    als := [freshA], bts := [spkPriv], lensA := [0], lensB := [0] }

/-- Key under which the `i`-th A→B message would sit in B's
skipped-key table. -/
def skipKeyA (P : Prims) (als : List Bytes) (lensA : List Nat) (i : Nat) :
    SkipKey :=
  (P.xPub (als.getD (chainPos lensA i).1 []), (chainPos lensA i).2)

/-- Message key of the `i`-th A→B message. -/
def msgKeyA (P : Prims) (sk : Bytes) (als bts : List Bytes)
    (lensA : List Nat) (i : Nat) : Bytes :=
  msgKeyAt P (chainAB P sk als bts (chainPos lensA i).1) (chainPos lensA i).2

/-- Key under which the `i`-th B→A message would sit in A's
skipped-key table. -/
def skipKeyB (P : Prims) (bts : List Bytes) (lensB : List Nat) (i : Nat) :
    SkipKey :=
  (P.xPub (bts.getD (chainPos lensB i).1 []), (chainPos lensB i).2)

/-- Message key of the `i`-th B→A message. -/
def msgKeyB (P : Prims) (sk : Bytes) (als bts : List Bytes)
    (lensB : List Nat) (i : Nat) : Bytes :=
  msgKeyAt P (chainBA P sk als bts (chainPos lensB i).1) (chainPos lensB i).2

/-- Number of A→B message keys B has derived so far (all keys of the
receive chains B has closed, plus `receiveN` of the current one). -/
def frontierB (w : Session) : Nat :=
  sumTo w.lensA (w.bts.length - 2) + w.stB.receiveN

/-- Number of B→A message keys A has derived so far. -/
def frontierA (w : Session) : Nat :=
  sumTo w.lensB (w.als.length - 1) + w.stA.receiveN

/-- The synchronization invariant of a running session. With
`kA = als.length - 1` and `kB = bts.length - 1` the two parties sit at
generations `kA` and `kB` of the alternating ladder (`kB ∈ {kA, kA+1}`):
A sends on chain `chainAB kA` and receives B-chain `kB' = kA`;
B sends on chain `chainBA kB` (none while `kB = 0`) and receives
A-chain `kB - 1` (none while `kB = 0`). Sent messages carry the header,
ciphertext and nonce the chain structure dictates; each receiver's
skipped-key table holds exactly the keys it has derived for
still-undelivered messages, without duplicates, and the number of
outstanding derived keys stays within `maxSkip = 1000`. -/
structure SessionInv (P : Prims) (sk : Bytes) (w : Session) : Prop where
  halen : w.als.length = w.lensA.length
  hblen : w.bts.length = w.lensB.length
  hapos : 0 < w.als.length
  hbpos : 0 < w.bts.length
  hab : w.bts.length = w.als.length ∨ w.bts.length = w.als.length + 1
  hnodup : (xPubs P (w.als ++ w.bts)).Nodup
  hlensB0 : w.lensB.getD 0 0 = 0
  hAdh : w.stA.dhSend = ⟨P.xPub (w.als.getD (w.als.length - 1) []),
                         w.als.getD (w.als.length - 1) []⟩
  hAsend : w.stA.sendChainKey = some (chainKeyAt P
    (chainAB P sk w.als w.bts (w.als.length - 1))
    (w.lensA.getD (w.als.length - 1) 0))
  hAsn : w.stA.sendN = w.lensA.getD (w.als.length - 1) 0
  hApn : w.stA.previousSendN =
    (if w.als.length - 1 = 0 then 0 else w.lensA.getD (w.als.length - 2) 0)
  hAroot : w.stA.rootKey = rootAt P sk w.als w.bts (2 * (w.als.length - 1) + 1)
  hAmax : w.stA.maxSkip = 1000
  hArdh : w.stA.dhReceive = some (P.xPub (w.bts.getD (w.als.length - 1) []))
  hArck : w.stA.receiveChainKey = (if w.als.length - 1 = 0 then none else
    some (chainKeyAt P (chainBA P sk w.als w.bts (w.als.length - 1))
      w.stA.receiveN))
  hArn : w.stA.receiveN ≤ w.lensB.getD (w.als.length - 1) 0
  hBdh : w.stB.dhSend = ⟨P.xPub (w.bts.getD (w.bts.length - 1) []),
                         w.bts.getD (w.bts.length - 1) []⟩
  hBsend : w.stB.sendChainKey = (if w.bts.length - 1 = 0 then none else
    some (chainKeyAt P (chainBA P sk w.als w.bts (w.bts.length - 1))
      (w.lensB.getD (w.bts.length - 1) 0)))
  hBsn : w.stB.sendN = w.lensB.getD (w.bts.length - 1) 0
  hBpn : w.stB.previousSendN =
    (if w.bts.length - 1 = 0 then 0 else w.lensB.getD (w.bts.length - 2) 0)
  hBroot : w.stB.rootKey = rootAt P sk w.als w.bts (2 * (w.bts.length - 1))
  hBmax : w.stB.maxSkip = 1000
  hBrdh : w.stB.dhReceive = (if w.bts.length - 1 = 0 then none else
    some (P.xPub (w.als.getD (w.bts.length - 2) [])))
  hBrck : w.stB.receiveChainKey = (if w.bts.length - 1 = 0 then none else
    some (chainKeyAt P (chainAB P sk w.als w.bts (w.bts.length - 2))
      w.stB.receiveN))
  hBrn : w.stB.receiveN ≤
    (if w.bts.length - 1 = 0 then 0 else w.lensA.getD (w.bts.length - 2) 0)
  hsA : w.sentA.length = w.lensA.sum
  hmsgA : ∀ i, i < w.sentA.length →
    (w.sentA.getD i dummyMsg).msg.header =
      ⟨P.xPub (w.als.getD (chainPos w.lensA i).1 []),
       (chainPos w.lensA i).2,
       if (chainPos w.lensA i).1 = 0 then 0
       else w.lensA.getD ((chainPos w.lensA i).1 - 1) 0⟩ ∧
    (w.sentA.getD i dummyMsg).msg.ciphertext =
      P.aeadEnc (msgKeyA P sk w.als w.bts w.lensA i)
        (w.sentA.getD i dummyMsg).msg.nonce
        (w.sentA.getD i dummyMsg).plaintext ∧
    (w.sentA.getD i dummyMsg).msg.nonce.length = 24
  hsB : w.sentB.length = w.lensB.sum
  hmsgB : ∀ i, i < w.sentB.length →
    (w.sentB.getD i dummyMsg).msg.header =
      ⟨P.xPub (w.bts.getD (chainPos w.lensB i).1 []),
       (chainPos w.lensB i).2,
       w.lensB.getD ((chainPos w.lensB i).1 - 1) 0⟩ ∧
    (w.sentB.getD i dummyMsg).msg.ciphertext =
      P.aeadEnc (msgKeyB P sk w.als w.bts w.lensB i)
        (w.sentB.getD i dummyMsg).msg.nonce
        (w.sentB.getD i dummyMsg).plaintext ∧
    (w.sentB.getD i dummyMsg).msg.nonce.length = 24
  hdlvB : ∀ i ∈ w.dlvB, i < frontierB w
  hdlvBnd : w.dlvB.Nodup
  htblB : ∀ i, i < frontierB w → i ∉ w.dlvB →
    mapGet w.stB.skippedKeys (skipKeyA P w.als w.lensA i) =
      some (msgKeyA P sk w.als w.bts w.lensA i)
  htblBmem : ∀ e ∈ w.stB.skippedKeys, ∃ i, i < frontierB w ∧ i ∉ w.dlvB ∧
    e = (skipKeyA P w.als w.lensA i, msgKeyA P sk w.als w.bts w.lensA i)
  htblBlen : w.stB.skippedKeys.length + w.dlvB.length = frontierB w
  htblBnd : (w.stB.skippedKeys.map (fun e => e.1)).Nodup
  hslackB : frontierB w ≤ w.dlvB.length + 1000
  hdlvA : ∀ i ∈ w.dlvA, i < frontierA w
  hdlvAnd : w.dlvA.Nodup
  htblA : ∀ i, i < frontierA w → i ∉ w.dlvA →
    mapGet w.stA.skippedKeys (skipKeyB P w.bts w.lensB i) =
      some (msgKeyB P sk w.als w.bts w.lensB i)
  htblAmem : ∀ e ∈ w.stA.skippedKeys, ∃ i, i < frontierA w ∧ i ∉ w.dlvA ∧
    e = (skipKeyB P w.bts w.lensB i, msgKeyB P sk w.als w.bts w.lensB i)
  htblAlen : w.stA.skippedKeys.length + w.dlvA.length = frontierA w
  htblAnd : (w.stA.skippedKeys.map (fun e => e.1)).Nodup
  hslackA : frontierA w ≤ w.dlvA.length + 1000

/-- The initial session satisfies the invariant as soon as the two
initial public keys differ. -/
theorem sessionInv_init (P : Prims) (sk spkPriv freshA : Bytes)
    (hfresh : P.xPub freshA ≠ P.xPub spkPriv) :
    SessionInv P sk (initSession P sk spkPriv freshA) := by
  constructor <;>
    simp [initSession, initSenderRatchet, initReceiverRatchet, frontierA,
          frontierB, sumTo, chainAB, rootAt, dhAt, chainKeyAt, xPubs, hfresh]

/- C3 helper lemmas: the association-list map -/

/-- A key is absent exactly when no entry carries it. -/
theorem mapGet_eq_none_iff (m : List (SkipKey × Bytes)) (k : SkipKey) :
    mapGet m k = none ↔ ∀ e ∈ m, e.1 ≠ k := by
  unfold mapGet
  rw [Option.map_eq_none', List.find?_eq_none]
  constructor
  · intro h e he
    simpa using h e he
  · intro h e he
    simpa using h e he

/-- A found binding is an entry of the list. -/
theorem mapGet_mem (m : List (SkipKey × Bytes)) (k : SkipKey) (v : Bytes)
    (h : mapGet m k = some v) : (k, v) ∈ m := by
  unfold mapGet at h
  obtain ⟨e, hfind, he2⟩ := Option.map_eq_some'.mp h
  have h1 : e.1 = k := by simpa using List.find?_some hfind
  have hm := List.mem_of_find?_eq_some hfind
  have he : e = (k, v) := by
    cases e
    simp_all
  rw [← he]
  exact hm

/-- Lookup distributes over append, preferring the left part. -/
theorem mapGet_append (m1 m2 : List (SkipKey × Bytes)) (k : SkipKey) :
    mapGet (m1 ++ m2) k = (mapGet m1 k).or (mapGet m2 k) := by
  unfold mapGet
  rw [List.find?_append]
  rcases h : m1.find? (fun e => e.1 == k) with _ | e <;> simp [h]

/-- Deleting a key removes it. -/
theorem mapGet_delete_self (m : List (SkipKey × Bytes)) (k : SkipKey) :
    mapGet (mapDelete m k) k = none := by
  rw [mapGet_eq_none_iff]
  intro e he
  have := List.of_mem_filter he
  simpa using this

/-- Deleting a key leaves the other keys untouched. -/
theorem mapGet_delete_ne (m : List (SkipKey × Bytes)) (k k' : SkipKey)
    (h : k' ≠ k) : mapGet (mapDelete m k) k' = mapGet m k' := by
  induction m with
  | nil => rfl
  | cons e m ih =>
    by_cases h1 : e.1 = k
    · have hp : (!(e.1 == k)) = false := by simp [h1]
      rw [mapDelete, List.filter_cons, hp]
      simp only [Bool.false_eq_true, if_false]
      rw [show (List.filter (fun e => !(e.1 == k)) m) = mapDelete m k from rfl, ih]
      unfold mapGet
      rw [List.find?_cons_of_neg _
        (by simp only [beq_iff_eq, h1]; exact fun hc => h hc.symm)]
    · have hp : (!(e.1 == k)) = true := by simp [h1]
      rw [mapDelete, List.filter_cons, hp]
      simp only [if_true]
      rw [show (List.filter (fun e => !(e.1 == k)) m) = mapDelete m k from rfl]
      by_cases h2 : e.1 = k'
      · unfold mapGet
        rw [List.find?_cons_of_pos _ (by simp [h2]),
            List.find?_cons_of_pos _ (by simp [h2])]
      · unfold mapGet
        rw [List.find?_cons_of_neg _ (by simp [h2]),
            List.find?_cons_of_neg _ (by simp [h2])]
        exact ih

/-- Deleting a present key from a duplicate-free table removes exactly
one entry. -/
theorem mapDelete_length (m : List (SkipKey × Bytes)) (k : SkipKey) (v : Bytes)
    (hnd : (m.map (fun e => e.1)).Nodup) (h : mapGet m k = some v) :
    (mapDelete m k).length + 1 = m.length := by
  induction m with
  | nil => simp [mapGet] at h
  | cons e m ih =>
    rw [List.map_cons, List.nodup_cons] at hnd
    by_cases h1 : e.1 = k
    · have hp : (!(e.1 == k)) = false := by simp [h1]
      rw [mapDelete, List.filter_cons, hp]
      simp only [Bool.false_eq_true, if_false]
      have hall : List.filter (fun e => !(e.1 == k)) m = m := by
        apply List.filter_eq_self.mpr
        intro a ha
        rw [Bool.not_eq_true', beq_eq_false_iff_ne]
        intro hak
        exact hnd.1 (by
          rw [h1, ← hak]
          exact List.mem_map_of_mem (fun e => e.1) ha)
      rw [hall]
      simp
    · have hp : (!(e.1 == k)) = true := by simp [h1]
      rw [mapDelete, List.filter_cons, hp]
      simp only [if_true]
      have h' : mapGet m k = some v := by
        unfold mapGet at h
        rw [List.find?_cons_of_neg _ (by simp [h1])] at h
        exact h
      have := ih hnd.2 h'
      simp only [List.length_cons]
      rw [show (List.filter (fun e => !(e.1 == k)) m) = mapDelete m k from rfl]
      omega

/-- Deleting preserves key distinctness. -/
theorem mapDelete_nodup (m : List (SkipKey × Bytes)) (k : SkipKey)
    (hnd : (m.map (fun e => e.1)).Nodup) :
    ((mapDelete m k).map (fun e => e.1)).Nodup :=
  ((List.filter_sublist m).map (fun e => e.1)).nodup hnd

/-- Lookup in a run of freshly derived keys of one chain. -/
theorem mapGet_range (r : Bytes) (q : SkipKey) :
    ∀ (d b : Nat) (g : Nat → Bytes),
    mapGet ((List.range d).map (fun t => ((r, b + t), g t))) q =
      if q.1 = r ∧ b ≤ q.2 ∧ q.2 < b + d then some (g (q.2 - b)) else none := by
  intro d
  induction d with
  | zero =>
    intro b g
    simp only [List.range_zero, List.map_nil]
    rw [show mapGet [] q = none from rfl]
    split_ifs with h
    · omega
    · rfl
  | succ d ih =>
    intro b g
    rw [List.range_succ_eq_map, List.map_cons, List.map_map]
    rcases q with ⟨qp, qn⟩
    by_cases hq : qp = r ∧ qn = b
    · unfold mapGet
      rw [List.find?_cons_of_pos _ (by simp [hq.1, hq.2])]
      simp only [Option.map_some']
      rw [if_pos (by exact ⟨hq.1, by omega, by omega⟩)]
      simp [hq.2]
    · unfold mapGet
      rw [List.find?_cons_of_neg _ (by
        simp only [beq_iff_eq, Prod.mk.injEq, Nat.add_zero]
        intro hc
        exact hq ⟨hc.1.symm, hc.2.symm⟩)]
      have hcomp : ((fun t => ((r, b + t), g t)) ∘ fun t => t + 1) =
          (fun t => ((r, (b + 1) + t), (fun s => g (s + 1)) t)) := by
        funext t
        simp only [Function.comp_apply, Prod.mk.injEq, true_and, and_true]
        omega
      rw [hcomp]
      have := ih (b + 1) (fun s => g (s + 1))
      unfold mapGet at this
      rw [this]
      by_cases hcond : qp = r ∧ b ≤ qn ∧ qn < b + (d + 1)
      · have hb1 : b + 1 ≤ qn := by
          rcases hcond with ⟨hc1, hc2, hc3⟩
          rcases Nat.eq_or_lt_of_le hc2 with he | hl
          · exact absurd ⟨hc1, he.symm⟩ hq
          · omega
        rw [if_pos ⟨hcond.1, hb1, by omega⟩, if_pos hcond]
        show some (g (qn - (b + 1) + 1)) = some (g (qn - b))
        rw [show qn - (b + 1) + 1 = qn - b by omega]
      · rw [if_neg (by
          intro ⟨hc1, hc2, hc3⟩
          exact hcond ⟨hc1, by omega, by omega⟩), if_neg hcond]

/- C3 helper lemmas: constant-time equality is equality -/

/-- Bitwise OR vanishes only when both operands do. -/
theorem natOr_eq_zero (a b : Nat) : a ||| b = 0 ↔ a = 0 ∧ b = 0 := by
  constructor
  · intro h
    constructor
    · apply Nat.eq_of_testBit_eq
      intro i
      have hb := congrArg (fun x => Nat.testBit x i) h
      simp only [Nat.testBit_or, Nat.zero_testBit, Bool.or_eq_false_iff] at hb
      simp [hb.1]
    · apply Nat.eq_of_testBit_eq
      intro i
      have hb := congrArg (fun x => Nat.testBit x i) h
      simp only [Nat.testBit_or, Nat.zero_testBit, Bool.or_eq_false_iff] at hb
      simp [hb.2]
  · rintro ⟨rfl, rfl⟩
    rfl

/-- The XOR-accumulator is zero exactly when it started zero and every
byte pair agrees. -/
theorem foldOr_eq_zero (l : List (Nat × Nat)) :
    ∀ acc, (l.foldl (fun acc p => acc ||| (p.1 ^^^ p.2)) acc = 0 ↔
      acc = 0 ∧ ∀ p ∈ l, p.1 = p.2) := by
  induction l with
  | nil =>
    intro acc
    simp
  | cons p l ih =>
    intro acc
    rw [List.foldl_cons, ih, natOr_eq_zero, Nat.xor_eq_zero]
    constructor
    · rintro ⟨⟨h1, h2⟩, h3⟩
      refine ⟨h1, ?_⟩
      intro q hq
      rcases List.mem_cons.mp hq with rfl | hq
      · exact h2
      · exact h3 q hq
    · rintro ⟨h1, h2⟩
      exact ⟨⟨h1, h2 p (List.mem_cons_self p l)⟩,
             fun q hq => h2 q (List.mem_cons_of_mem p hq)⟩

/-- A list zipped with itself pairs each element with itself. -/
theorem zip_self_eq (a : Bytes) : ∀ p ∈ List.zip a a, p.1 = p.2 := by
  induction a with
  | nil =>
    intro p hp
    simp at hp
  | cons x t ih =>
    intro p hp
    rcases List.mem_cons.mp (by simpa [List.zip_cons_cons] using hp)
      with he | ht
    · rw [he]
    · exact ih p ht

/-- Equal-length lists with pointwise-equal zip are equal. -/
theorem eq_of_zip_eq (a : Bytes) :
    ∀ b : Bytes, a.length = b.length →
      (∀ p ∈ List.zip a b, p.1 = p.2) → a = b := by
  induction a with
  | nil =>
    intro b hlen _
    cases b
    · rfl
    · simp at hlen
  | cons x a ih =>
    intro b hlen h
    cases b with
    | nil => simp at hlen
    | cons y b =>
      have hx : x = y := h (x, y) (by simp [List.zip_cons_cons])
      rw [hx, ih b (by simpa using hlen)
        (fun p hp => h p (by simp [List.zip_cons_cons, hp]))]

/-- `constantTimeEqual` from `utils.ts` decides byte-array equality. -/
theorem ctEq_iff (a b : Bytes) : constantTimeEqual a b = true ↔ a = b := by
  unfold constantTimeEqual
  split_ifs with hlen
  · constructor
    · intro h
      cases h
    · intro h
      exact absurd (congrArg List.length h) hlen
  · push_neg at hlen
    rw [beq_iff_eq, foldOr_eq_zero]
    constructor
    · rintro ⟨-, h⟩
      exact eq_of_zip_eq a b hlen h
    · rintro rfl
      exact ⟨rfl, zip_self_eq a⟩

/- C3 helper lemmas: chains, positions, the ladder -/

/-- Symmetric-chain advances compose. -/
theorem chainKeyAt_add (P : Prims) (s : Bytes) (a : Nat) :
    ∀ b, chainKeyAt P (chainKeyAt P s a) b = chainKeyAt P s (a + b) := by
  intro b
  induction b with
  | zero => rfl
  | succ b ih =>
    rw [show a + (b + 1) = (a + b) + 1 by omega]
    rw [chainKeyAt, chainKeyAt, ih]

/-- A message key of an advanced chain is a later message key of the
original chain. -/
theorem msgKeyAt_add (P : Prims) (s : Bytes) (a b : Nat) :
    msgKeyAt P (chainKeyAt P s a) b = msgKeyAt P s (a + b) := by
  unfold msgKeyAt
  rw [chainKeyAt_add]

/-- Message keys are 32 bytes whenever HKDF honors its length. -/
theorem msgKeyAt_length (P : Prims)
    (hklen : ∀ ikm info, (P.hkdf ikm info 32).length = 32)
    (s : Bytes) (n : Nat) : (msgKeyAt P s n).length = 32 := by
  unfold msgKeyAt kdfChain
  exact hklen _ _

/-- `sumTo` at the next chain adds that chain's length. -/
theorem sumTo_succ (lens : List Nat) (c : Nat) (h : c < lens.length) :
    sumTo lens (c + 1) = sumTo lens c + lens.getD c 0 := by
  unfold sumTo
  rw [List.sum_take_succ _ _ h]
  congr 1
  rw [List.getD_eq_getElem _ _ h]

/-- `sumTo` is monotone. -/
theorem sumTo_mono (lens : List Nat) (c c' : Nat) (h : c ≤ c') :
    sumTo lens c ≤ sumTo lens c' := by
  unfold sumTo
  have hsub : List.Sublist (lens.take c) (lens.take c') := by
    rw [show c = min c c' by omega, ← List.take_take]
    exact List.take_sublist _ _
  exact hsub.sum_le_sum (fun a _ => Nat.zero_le a)

/-- `sumTo` over the whole list is the total. -/
theorem sumTo_length (lens : List Nat) : sumTo lens lens.length = lens.sum := by
  unfold sumTo
  rw [List.take_length]

/-- `sumTo` never exceeds the total. -/
theorem sumTo_le_sum (lens : List Nat) (c : Nat) : sumTo lens c ≤ lens.sum := by
  by_cases h : c ≤ lens.length
  · rw [← sumTo_length lens]
    exact sumTo_mono _ _ _ h
  · unfold sumTo
    rw [List.take_of_length_le (by omega)]

/-- `chainPos` of an in-range index: valid chain, valid offset, and
the decomposition identity. -/
theorem chainPos_spec (lens : List Nat) :
    ∀ i, i < lens.sum →
      (chainPos lens i).1 < lens.length ∧
      (chainPos lens i).2 < lens.getD (chainPos lens i).1 0 ∧
      sumTo lens (chainPos lens i).1 + (chainPos lens i).2 = i := by
  induction lens with
  | nil =>
    intro i hi
    simp at hi
  | cons l rest ih =>
    intro i hi
    by_cases h : i < l
    · rw [chainPos, if_pos h]
      exact ⟨by simp, by simpa using h, by simp [sumTo]⟩
    · rw [chainPos, if_neg h]
      have hi' : i - l < rest.sum := by
        simp only [List.sum_cons] at hi
        omega
      rcases ih (i - l) hi' with ⟨g1, g2, g3⟩
      refine ⟨by simpa using g1, by simpa using g2, ?_⟩
      show sumTo (l :: rest) ((chainPos rest (i - l)).1 + 1) +
        (chainPos rest (i - l)).2 = i
      unfold sumTo
      rw [List.take_succ_cons, List.sum_cons]
      unfold sumTo at g3
      omega

/-- `chainPos` inverts the decomposition. -/
theorem chainPos_inv (lens : List Nat) :
    ∀ c n, c < lens.length → n < lens.getD c 0 →
      chainPos lens (sumTo lens c + n) = (c, n) := by
  induction lens with
  | nil =>
    intro c n hc
    simp at hc
  | cons l rest ih =>
    intro c n hc hn
    cases c with
    | zero =>
      rw [show sumTo (l :: rest) 0 + n = n by simp [sumTo]]
      rw [chainPos, if_pos (by simpa using hn)]
    | succ c =>
      have hsum : sumTo (l :: rest) (c + 1) = l + sumTo rest c := by
        unfold sumTo
        simp [List.take_succ_cons]
      rw [hsum, chainPos, if_neg (by omega)]
      have hrec := ih c n (by simpa using hc) (by simpa using hn)
      rw [show l + sumTo rest c + n - l = sumTo rest c + n by omega, hrec]

/-- An index at or past the first `c` chains sits in chain `≥ c`. -/
theorem chainPos_fst_ge (lens : List Nat) (i c : Nat) (hi : i < lens.sum)
    (h : sumTo lens c ≤ i) : c ≤ (chainPos lens i).1 := by
  rcases chainPos_spec lens i hi with ⟨g1, g2, g3⟩
  by_contra hlt
  push_neg at hlt
  have h1 : sumTo lens ((chainPos lens i).1 + 1) ≤ sumTo lens c :=
    sumTo_mono _ _ _ (by omega)
  rw [sumTo_succ _ _ g1] at h1
  omega

/-- `bumpLast` preserves the length. -/
theorem bumpLast_length (l : List Nat) : (bumpLast l).length = l.length := by
  induction l with
  | nil => rfl
  | cons x l ih =>
    cases l with
    | nil => rfl
    | cons y m => simpa [bumpLast] using ih

/-- `bumpLast` adds one to the total. -/
theorem bumpLast_sum (l : List Nat) (h : l ≠ []) :
    (bumpLast l).sum = l.sum + 1 := by
  induction l with
  | nil => cases h rfl
  | cons x l ih =>
    cases l with
    | nil => simp [bumpLast]
    | cons y m =>
      have hr := ih (by simp)
      simp only [bumpLast, List.sum_cons] at hr ⊢
      omega

/-- `bumpLast` leaves the non-final entries alone. -/
theorem bumpLast_getD_lt (l : List Nat) :
    ∀ j, j + 1 < l.length → (bumpLast l).getD j 0 = l.getD j 0 := by
  induction l with
  | nil =>
    intro j h
    rfl
  | cons x l ih =>
    intro j h
    cases l with
    | nil => simp at h
    | cons y m =>
      cases j with
      | zero => simp [bumpLast]
      | succ j =>
        simp only [bumpLast, List.getD_cons_succ]
        exact ih j (by simpa using h)

/-- `bumpLast` adds one to the final entry. -/
theorem bumpLast_getD_last (l : List Nat) (h : l ≠ []) :
    (bumpLast l).getD (l.length - 1) 0 = l.getD (l.length - 1) 0 + 1 := by
  induction l with
  | nil => cases h rfl
  | cons x l ih =>
    cases l with
    | nil => simp [bumpLast]
    | cons y m =>
      have hr := ih (by simp)
      simp only [bumpLast]
      rw [show (x :: y :: m : List Nat).length - 1 =
            ((y :: m : List Nat).length - 1) + 1 by simp]
      rw [List.getD_cons_succ, List.getD_cons_succ, hr]

/-- `bumpLast` keeps every proper prefix sum. -/
theorem sumTo_bumpLast (l : List Nat) :
    ∀ c, c < l.length → sumTo (bumpLast l) c = sumTo l c := by
  induction l with
  | nil =>
    intro c h
    simp at h
  | cons x l ih =>
    intro c h
    cases l with
    | nil =>
      have : c = 0 := by simpa using h
      subst this
      rfl
    | cons y m =>
      cases c with
      | zero => rfl
      | succ c =>
        simp only [bumpLast]
        unfold sumTo
        simp only [List.take_succ_cons, List.sum_cons]
        have hr := ih c (by simpa using h)
        unfold sumTo at hr
        omega

/-- Appending a chain does not move earlier positions. -/
theorem chainPos_append (l : List Nat) (x : Nat) :
    ∀ i, i < l.sum → chainPos (l ++ [x]) i = chainPos l i := by
  induction l with
  | nil =>
    intro i h
    simp at h
  | cons y rest ih =>
    intro i h
    rw [List.cons_append]
    by_cases h1 : i < y
    · rw [chainPos, if_pos h1, chainPos, if_pos h1]
    · have h2 : i - y < rest.sum := by
        simp only [List.sum_cons] at h
        omega
      rw [chainPos, if_neg h1, chainPos, if_neg h1, ih _ h2]

/-- Growing the last chain does not move earlier positions. -/
theorem chainPos_bumpLast (l : List Nat) :
    ∀ i, i < l.sum → chainPos (bumpLast l) i = chainPos l i := by
  induction l with
  | nil =>
    intro i h
    simp at h
  | cons y rest ih =>
    intro i h
    cases rest with
    | nil =>
      simp only [List.sum_cons, List.sum_nil] at h
      have h1 : i < y := by omega
      rw [show bumpLast [y] = [y + 1] from rfl]
      rw [chainPos, if_pos (by omega)]
      rw [chainPos, if_pos h1]
    | cons z m =>
      rw [show bumpLast (y :: z :: m) = y :: bumpLast (z :: m) from rfl]
      by_cases h1 : i < y
      · rw [chainPos, if_pos h1, chainPos, if_pos h1]
      · have h2 : i - y < (z :: m).sum := by
          simp only [List.sum_cons] at h ⊢
          omega
        rw [chainPos, if_neg h1, chainPos, if_neg h1, ih _ h2]

/-- The ladder's DH outputs only read the scalars already present. -/
theorem dhAt_append (P : Prims) (als bts als2 bts2 : List Bytes) (i : Nat)
    (ha : i < 2 * als.length) (hb : i + 1 < 2 * bts.length) :
    dhAt P (als ++ als2) (bts ++ bts2) i = dhAt P als bts i := by
  unfold dhAt
  split_ifs with h
  · rw [List.getD_append _ _ _ _ (by omega), List.getD_append _ _ _ _ (by omega)]
  · rw [List.getD_append _ _ _ _ (by omega), List.getD_append _ _ _ _ (by omega)]

/-- The root chain only reads the scalars already present. -/
theorem rootAt_append (P : Prims) (sk : Bytes) (als bts als2 bts2 : List Bytes) :
    ∀ n, n ≤ 2 * als.length → n < 2 * bts.length →
      rootAt P sk (als ++ als2) (bts ++ bts2) n = rootAt P sk als bts n := by
  intro n
  induction n with
  | zero =>
    intro _ _
    rfl
  | succ n ih =>
    intro ha hb
    rw [rootAt, rootAt, ih (by omega) (by omega),
        dhAt_append P als bts als2 bts2 n (by omega) (by omega)]

/-- A-chain seeds only read the scalars already present. -/
theorem chainAB_append (P : Prims) (sk : Bytes) (als bts als2 bts2 : List Bytes)
    (k : Nat) (ha : k < als.length) (hb : k < bts.length) :
    chainAB P sk (als ++ als2) (bts ++ bts2) k = chainAB P sk als bts k := by
  unfold chainAB
  rw [rootAt_append P sk als bts als2 bts2 _ (by omega) (by omega),
      dhAt_append P als bts als2 bts2 _ (by omega) (by omega)]

/-- B-chain seeds only read the scalars already present. -/
theorem chainBA_append (P : Prims) (sk : Bytes) (als bts als2 bts2 : List Bytes)
    (k : Nat) (hk : 1 ≤ k) (ha : k ≤ als.length) (hb : k < bts.length) :
    chainBA P sk (als ++ als2) (bts ++ bts2) k = chainBA P sk als bts k := by
  unfold chainBA
  rw [rootAt_append P sk als bts als2 bts2 _ (by omega) (by omega),
      dhAt_append P als bts als2 bts2 _ (by omega) (by omega)]

/-- Distinct scalars in a duplicate-free key list have distinct public
keys. -/
theorem xPubs_ne (P : Prims) (l : List Bytes) (h : (l.map P.xPub).Nodup)
    (i j : Nat) (hi : i < l.length) (hj : j < l.length) (hne : i ≠ j) :
    P.xPub (l.getD i []) ≠ P.xPub (l.getD j []) := by
  intro he
  have h1 : (l.map P.xPub).get ⟨i, by simpa using hi⟩ =
            (l.map P.xPub).get ⟨j, by simpa using hj⟩ := by
    simp only [List.get_eq_getElem, List.getElem_map]
    rw [← List.getD_eq_getElem l [] hi, ← List.getD_eq_getElem l [] hj]
    exact he
  have h2 := (List.Nodup.get_inj_iff h).mp h1
  simp only [Fin.mk.injEq] at h2
  exact hne h2

/-- Exact behavior of the skip loop when the freshly derived keys fit
without eviction: the chain advances to `untilN` and the keys of the
skipped messages are appended in order. -/
theorem skipLoop_spec (P : Prims) :
    ∀ (st : RatchetState) (untilN : Nat), ∀ (rck r : Bytes),
      st.receiveChainKey = some rck →
      st.dhReceive = some r →
      st.receiveN ≤ untilN →
      st.skippedKeys.length + (untilN - st.receiveN) ≤ st.maxSkip →
      (∀ j, st.receiveN ≤ j → mapGet st.skippedKeys (r, j) = none) →
      skipLoop P st untilN = { st with
        receiveChainKey := some (chainKeyAt P rck (untilN - st.receiveN)),
        receiveN := untilN,
        skippedKeys := st.skippedKeys ++
          (List.range (untilN - st.receiveN)).map
            (fun t => ((r, st.receiveN + t), msgKeyAt P rck t)) } := by
  intro st untilN
  induction st, untilN using skipLoop.induct P with
  | case1 st untilN h1 h2 =>
    intro rck r hck hr hle hsz habs
    rw [hck] at h2
    cases h2
  | case2 st untilN h1 rck0 h2 mk nck key sk1 sk2 ih =>
    intro rck r hck hr hle hsz habs
    have hrck : rck0 = rck := by
      rw [h2] at hck
      exact Option.some.inj hck
    have hkey : key = (r, st.receiveN) := by
      simp only [key, hr, Option.getD_some]
    have hnone : mapGet st.skippedKeys key = none := by
      rw [hkey]
      exact habs st.receiveN (le_refl _)
    have hany : st.skippedKeys.any (fun e => e.1 == key) = false := by
      rw [List.any_eq_false]
      intro e he
      simpa using (mapGet_eq_none_iff _ _).mp hnone e he
    have hsk1 : sk1 = st.skippedKeys ++ [(key, mk)] :=
      mapSet_append_of_absent _ _ _ hany
    have hlen1 : sk1.length = st.skippedKeys.length + 1 := by
      rw [hsk1]
      simp
    have hngt : ¬ sk1.length > st.maxSkip := by omega
    have hsk2 : sk2 = sk1 := by
      simp [sk2, hngt]
    have pf4 : sk2.length + (untilN - (st.receiveN + 1)) ≤ st.maxSkip := by
      rw [hsk2]
      omega
    have pf5 : ∀ j, st.receiveN + 1 ≤ j → mapGet sk2 (r, j) = none := by
      intro j hj
      rw [hsk2, hsk1, mapGet_append, habs j (by omega), Option.none_or,
          mapGet_eq_none_iff]
      intro e he
      have he' : e = (key, mk) := List.mem_singleton.mp he
      subst he'
      rw [hkey]
      intro hc
      have := congrArg Prod.snd hc
      simp only at this
      omega
    have hn : nck = chainKeyAt P rck 1 := by
      simp only [nck, hrck]
      rfl
    have hmk : mk = msgKeyAt P rck 0 := by
      simp only [mk, hrck]
      rfl
    simp only at ih
    have hmain := ih nck r rfl hr (by omega) pf4 pf5
    rw [skipLoop]
    simp only [h1, h2, dif_pos]
    refine hmain.trans ?_
    have hchain : chainKeyAt P nck (untilN - (st.receiveN + 1)) =
        chainKeyAt P rck (untilN - st.receiveN) := by
      rw [hn, chainKeyAt_add]
      congr 1
      omega
    have hfun : ((fun t => ((r, st.receiveN + t), msgKeyAt P rck t)) ∘
          fun t => t + 1) =
        (fun t => ((r, st.receiveN + 1 + t), msgKeyAt P nck t)) := by
      funext t
      simp only [Function.comp_apply, hn, msgKeyAt_add, Prod.mk.injEq]
      refine ⟨⟨by trivial, by omega⟩, ?_⟩
      rw [Nat.add_comm]
    have hkeys : sk2 ++ (List.range (untilN - (st.receiveN + 1))).map
          (fun t => ((r, st.receiveN + 1 + t), msgKeyAt P nck t)) =
        st.skippedKeys ++ (List.range (untilN - st.receiveN)).map
          (fun t => ((r, st.receiveN + t), msgKeyAt P rck t)) := by
      rw [hsk2, hsk1, List.append_assoc]
      congr 1
      have hd : untilN - st.receiveN = (untilN - (st.receiveN + 1)) + 1 := by
        omega
      rw [hd, List.range_succ_eq_map, List.map_cons, List.map_map, hfun]
      rw [hkey, hmk]
      simp
    rw [hchain, hkeys]
  | case3 st untilN h1 =>
    intro rck r hck hr hle hsz habs
    have heq : untilN = st.receiveN := by omega
    subst heq
    rw [skipLoop, dif_neg h1]
    rw [show st.receiveN - st.receiveN = 0 by omega]
    simp only [chainKeyAt, List.range_zero, List.map_nil, List.append_nil]
    rw [← hck]

/-- `bumpLast` never decreases an entry. -/
theorem bumpLast_getD_ge (l : List Nat) (j : Nat) :
    l.getD j 0 ≤ (bumpLast l).getD j 0 := by
  by_cases hj : j < l.length
  · by_cases hlast : j + 1 < l.length
    · rw [bumpLast_getD_lt l j hlast]
    · have hj' : j = l.length - 1 := by omega
      subst hj'
      rw [bumpLast_getD_last l (by
        intro h
        rw [h] at hj
        simp at hj)]
      omega
  · have h1 : l.getD j 0 = 0 := List.getD_eq_default _ _ (by omega)
    have h2 : (bumpLast l).getD j 0 = 0 :=
      List.getD_eq_default _ _ (by rw [bumpLast_length]; omega)
    omega

/-- The appended element sits at the old length. -/
theorem getD_concat_length {α : Type} (l : List α) (x d : α) :
    (l ++ [x]).getD l.length d = x := by
  rw [List.getD_eq_getElem _ _ (by simp)]
  simp

/-- B's derivation frontier stays within what A has sent. -/
theorem frontierB_le (P : Prims) (sk : Bytes) (w : Session)
    (hI : SessionInv P sk w) : frontierB w ≤ w.lensA.sum := by
  unfold frontierB
  by_cases hk : w.bts.length - 1 = 0
  · have h0 := hI.hBrn
    rw [if_pos hk] at h0
    have h1 : w.stB.receiveN = 0 := by omega
    rw [h1]
    simpa using sumTo_le_sum w.lensA (w.bts.length - 2)
  · have h0 := hI.hBrn
    rw [if_neg hk] at h0
    have hlt : w.bts.length - 2 < w.lensA.length := by
      have h1 := hI.hab
      have h2 := hI.halen
      have h3 := hI.hapos
      omega
    calc sumTo w.lensA (w.bts.length - 2) + w.stB.receiveN
        ≤ sumTo w.lensA (w.bts.length - 2) +
            w.lensA.getD (w.bts.length - 2) 0 := by omega
      _ = sumTo w.lensA (w.bts.length - 2 + 1) := (sumTo_succ _ _ hlt).symm
      _ ≤ w.lensA.sum := sumTo_le_sum _ _

/-- A's derivation frontier stays within what B has sent. -/
theorem frontierA_le (P : Prims) (sk : Bytes) (w : Session)
    (hI : SessionInv P sk w) : frontierA w ≤ w.lensB.sum := by
  unfold frontierA
  have h0 := hI.hArn
  have hlt : w.als.length - 1 < w.lensB.length := by
    have h1 := hI.hab
    have h2 := hI.hblen
    have h3 := hI.hapos
    have h4 := hI.hbpos
    omega
  calc sumTo w.lensB (w.als.length - 1) + w.stA.receiveN
      ≤ sumTo w.lensB (w.als.length - 1) +
          w.lensB.getD (w.als.length - 1) 0 := by omega
    _ = sumTo w.lensB (w.als.length - 1 + 1) := (sumTo_succ _ _ hlt).symm
    _ ≤ w.lensB.sum := sumTo_le_sum _ _

/-- `ratchetEncrypt` on a live sending chain succeeds and advances the
chain by one step. -/
theorem ratchetEncrypt_ok (P : Prims)
    (hklen : ∀ ikm info, (P.hkdf ikm info 32).length = 32)
    (st : RatchetState) (seed : Bytes) (n : Nat)
    (hck : st.sendChainKey = some (chainKeyAt P seed n))
    (p nonce : Bytes) (hn : nonce.length = 24) :
    ratchetEncrypt P st p nonce = .ok
      (⟨⟨st.dhSend.publicKey, st.sendN, st.previousSendN⟩,
        P.aeadEnc (msgKeyAt P seed n) nonce p, nonce⟩,
       { st with sendChainKey := some (chainKeyAt P seed (n + 1)),
                 sendN := st.sendN + 1 }) := by
  have h32 : (kdfChain P (chainKeyAt P seed n)).1.length = 32 :=
    msgKeyAt_length P hklen seed n
  have henc : encryptAead P (kdfChain P (chainKeyAt P seed n)).1 p nonce =
      .ok ⟨P.aeadEnc (msgKeyAt P seed n) nonce p, nonce⟩ := by
    unfold encryptAead
    rw [if_neg (by omega), if_neg (by omega)]
    rfl
  simp only [ratchetEncrypt, hck, henc]
  rfl

/-- A send by A succeeds and preserves the session invariant: the new
message joins the current A-chain, whose recorded length grows by
one, and nothing else moves. -/
theorem sessionInv_sendA (P : Prims) (sk : Bytes) (w : Session)
    (hklen : ∀ ikm info, (P.hkdf ikm info 32).length = 32)
    (hI : SessionInv P sk w) (p nonce : Bytes) (hn : nonce.length = 24) :
    (∃ r, ratchetEncrypt P w.stA p nonce = .ok r) ∧
    SessionInv P sk (stepSession P w (.sendA p nonce)) := by
  have halen := hI.halen
  have hapos := hI.hapos
  have hbpos := hI.hbpos
  have hab := hI.hab
  have hblen := hI.hblen
  have hAne : w.lensA ≠ [] := by
    intro h
    have h2 := hI.halen
    rw [h] at h2
    rw [List.length_nil] at h2
    omega
  have hlenA : w.lensA.length = w.als.length := halen.symm
  have henc := ratchetEncrypt_ok P hklen w.stA
    (chainAB P sk w.als w.bts (w.als.length - 1))
    (w.lensA.getD (w.als.length - 1) 0) hI.hAsend p nonce hn
  refine ⟨⟨_, henc⟩, ?_⟩
  have hlast : (bumpLast w.lensA).getD (w.als.length - 1) 0 =
      w.lensA.getD (w.als.length - 1) 0 + 1 := by
    rw [show w.als.length - 1 = w.lensA.length - 1 by omega]
    exact bumpLast_getD_last w.lensA hAne
  have hsum : (bumpLast w.lensA).sum = w.lensA.sum + 1 := bumpLast_sum _ hAne
  have hpos : ∀ i, i < w.lensA.sum →
      chainPos (bumpLast w.lensA) i = chainPos w.lensA i := chainPos_bumpLast _
  have hfbeq : sumTo (bumpLast w.lensA) (w.bts.length - 2) =
      sumTo w.lensA (w.bts.length - 2) := sumTo_bumpLast _ _ (by omega)
  have hposnew : chainPos (bumpLast w.lensA) w.lensA.sum =
      (w.als.length - 1, w.lensA.getD (w.als.length - 1) 0) := by
    have h1 : sumTo (bumpLast w.lensA) (w.als.length - 1) +
        w.lensA.getD (w.als.length - 1) 0 = w.lensA.sum := by
      rw [sumTo_bumpLast _ _ (by omega)]
      have h2 := sumTo_succ w.lensA (w.als.length - 1) (by omega)
      have h3 : w.als.length - 1 + 1 = w.lensA.length := by omega
      rw [h3, sumTo_length] at h2
      omega
    rw [← h1]
    apply chainPos_inv
    · rw [bumpLast_length]
      omega
    · rw [hlast]
      omega
  have hfble := frontierB_le P sk w hI
  have hkeysA : ∀ i, i < w.lensA.sum →
      skipKeyA P w.als (bumpLast w.lensA) i = skipKeyA P w.als w.lensA i ∧
      msgKeyA P sk w.als w.bts (bumpLast w.lensA) i =
        msgKeyA P sk w.als w.bts w.lensA i := by
    intro i hi
    unfold skipKeyA msgKeyA
    rw [hpos i hi]
    exact ⟨rfl, rfl⟩
  have hw'eq : stepSession P w (.sendA p nonce) = { w with
      stA := { w.stA with
        sendChainKey := some (chainKeyAt P
          (chainAB P sk w.als w.bts (w.als.length - 1))
          (w.lensA.getD (w.als.length - 1) 0 + 1)),
        sendN := w.stA.sendN + 1 },
      sentA := w.sentA ++ [⟨⟨⟨w.stA.dhSend.publicKey, w.stA.sendN,
        w.stA.previousSendN⟩,
        P.aeadEnc (msgKeyAt P (chainAB P sk w.als w.bts (w.als.length - 1))
          (w.lensA.getD (w.als.length - 1) 0)) nonce p, nonce⟩, p⟩],
      lensA := bumpLast w.lensA } := by
    simp only [stepSession, henc]
  have hfb : frontierB (stepSession P w (.sendA p nonce)) = frontierB w := by
    rw [hw'eq]
    unfold frontierB
    dsimp only
    rw [hfbeq]
  have hfa : frontierA (stepSession P w (.sendA p nonce)) = frontierA w := by
    rw [hw'eq]
    unfold frontierA
    dsimp only
  rw [hw'eq] at hfb hfa
  rw [hw'eq]
  exact {
    halen := by
      dsimp only
      rw [bumpLast_length]
      exact halen
    hblen := hI.hblen
    hapos := hI.hapos
    hbpos := hI.hbpos
    hab := hI.hab
    hnodup := hI.hnodup
    hlensB0 := hI.hlensB0
    hAdh := hI.hAdh
    hAsend := by
      dsimp only
      rw [hlast]
    hAsn := by
      dsimp only
      rw [hlast, hI.hAsn]
    hApn := by
      dsimp only
      rw [hI.hApn]
      by_cases k0 : w.als.length - 1 = 0
      · rw [if_pos k0, if_pos k0]
      · rw [if_neg k0, if_neg k0, bumpLast_getD_lt _ _ (by omega)]
    hAroot := hI.hAroot
    hAmax := hI.hAmax
    hArdh := hI.hArdh
    hArck := hI.hArck
    hArn := hI.hArn
    hBdh := hI.hBdh
    hBsend := hI.hBsend
    hBsn := hI.hBsn
    hBpn := hI.hBpn
    hBroot := hI.hBroot
    hBmax := hI.hBmax
    hBrdh := hI.hBrdh
    hBrck := hI.hBrck
    hBrn := by
      dsimp only
      by_cases kb0 : w.bts.length - 1 = 0
      · rw [if_pos kb0]
        have h1 := hI.hBrn
        rw [if_pos kb0] at h1
        exact h1
      · rw [if_neg kb0]
        have h1 := hI.hBrn
        rw [if_neg kb0] at h1
        have h2 := bumpLast_getD_ge w.lensA (w.bts.length - 2)
        omega
    hsA := by
      dsimp only
      rw [List.length_append, hsum, hI.hsA]
      rfl
    hmsgA := by
      dsimp only
      intro i hi
      rw [List.length_append] at hi
      by_cases hio : i < w.sentA.length
      · rw [List.getD_append _ _ _ _ hio]
        have hisum : i < w.lensA.sum := by
          rw [← hI.hsA]
          exact hio
        have hpos' := hpos i hisum
        have hspec := chainPos_spec w.lensA i hisum
        have hold := hI.hmsgA i hio
        rw [hpos']
        have hmka : msgKeyA P sk w.als w.bts (bumpLast w.lensA) i =
            msgKeyA P sk w.als w.bts w.lensA i := (hkeysA i hisum).2
        refine ⟨?_, by rw [hmka]; exact hold.2.1, hold.2.2⟩
        rw [hold.1]
        by_cases c0 : (chainPos w.lensA i).1 = 0
        · rw [if_pos c0, if_pos c0]
        · rw [if_neg c0, if_neg c0, bumpLast_getD_lt _ _ (by omega)]
      · have hieq : i = w.sentA.length := by
          simp only [List.length_singleton] at hi
          omega
        subst hieq
        rw [getD_concat_length]
        rw [hI.hsA, hposnew]
        refine ⟨?_, ?_, hn⟩
        · rw [hI.hAdh, hI.hAsn, hI.hApn]
          dsimp only
          by_cases c0 : w.als.length - 1 = 0
          · rw [if_pos c0, if_pos c0]
          · rw [if_neg c0, if_neg c0,
              show w.als.length - 1 - 1 = w.als.length - 2 by omega,
              bumpLast_getD_lt _ _ (by omega)]
        · unfold msgKeyA
          rw [hposnew]
    hsB := hI.hsB
    hmsgB := hI.hmsgB
    hdlvB := by
      dsimp only
      intro i hi
      rw [hfb]
      exact hI.hdlvB i hi
    hdlvBnd := hI.hdlvBnd
    htblB := by
      dsimp only
      intro i hfi hdl
      rw [hfb] at hfi
      rw [(hkeysA i (lt_of_lt_of_le hfi hfble)).1,
          (hkeysA i (lt_of_lt_of_le hfi hfble)).2]
      exact hI.htblB i hfi hdl
    htblBmem := by
      dsimp only
      intro e he
      obtain ⟨i, hif, hid, hee⟩ := hI.htblBmem e he
      refine ⟨i, by rw [hfb]; exact hif, hid, ?_⟩
      rw [(hkeysA i (lt_of_lt_of_le hif hfble)).1,
          (hkeysA i (lt_of_lt_of_le hif hfble)).2]
      exact hee
    htblBlen := by
      dsimp only
      rw [hfb]
      exact hI.htblBlen
    htblBnd := hI.htblBnd
    hslackB := by
      dsimp only
      rw [hfb]
      exact hI.hslackB
    hdlvA := by
      dsimp only
      intro i hi
      rw [hfa]
      exact hI.hdlvA i hi
    hdlvAnd := hI.hdlvAnd
    htblA := by
      dsimp only
      intro i hfi hdl
      rw [hfa] at hfi
      exact hI.htblA i hfi hdl
    htblAmem := by
      dsimp only
      intro e he
      obtain ⟨i, h1, h2, h3⟩ := hI.htblAmem e he
      exact ⟨i, by rw [hfa]; exact h1, h2, h3⟩
    htblAlen := by
      dsimp only
      rw [hfa]
      exact hI.htblAlen
    htblAnd := hI.htblAnd
    hslackA := by
      dsimp only
      rw [hfa]
      exact hI.hslackA }

/-- A send by B (possible once B's sending chain exists) succeeds and
preserves the session invariant. -/
theorem sessionInv_sendB (P : Prims) (sk : Bytes) (w : Session)
    (hklen : ∀ ikm info, (P.hkdf ikm info 32).length = 32)
    (hI : SessionInv P sk w) (p nonce : Bytes) (hn : nonce.length = 24)
    (hsendable : w.stB.sendChainKey.isSome = true) :
    (∃ r, ratchetEncrypt P w.stB p nonce = .ok r) ∧
    SessionInv P sk (stepSession P w (.sendB p nonce)) := by
  have halen := hI.halen
  have hapos := hI.hapos
  have hbpos := hI.hbpos
  have hab := hI.hab
  have hblen := hI.hblen
  have hk0 : ¬ w.bts.length - 1 = 0 := by
    intro h
    have h1 := hI.hBsend
    rw [if_pos h] at h1
    rw [h1] at hsendable
    simp at hsendable
  have hlen2 : 2 ≤ w.lensB.length := by omega
  have hBne : w.lensB ≠ [] := by
    intro h
    rw [h] at hlen2
    simp at hlen2
  have hsck := hI.hBsend
  rw [if_neg hk0] at hsck
  have henc := ratchetEncrypt_ok P hklen w.stB
    (chainBA P sk w.als w.bts (w.bts.length - 1))
    (w.lensB.getD (w.bts.length - 1) 0) hsck p nonce hn
  refine ⟨⟨_, henc⟩, ?_⟩
  have hlast : (bumpLast w.lensB).getD (w.bts.length - 1) 0 =
      w.lensB.getD (w.bts.length - 1) 0 + 1 := by
    rw [show w.bts.length - 1 = w.lensB.length - 1 by omega]
    exact bumpLast_getD_last w.lensB hBne
  have hsum : (bumpLast w.lensB).sum = w.lensB.sum + 1 := bumpLast_sum _ hBne
  have hpos : ∀ i, i < w.lensB.sum →
      chainPos (bumpLast w.lensB) i = chainPos w.lensB i := chainPos_bumpLast _
  have hfaeq : sumTo (bumpLast w.lensB) (w.als.length - 1) =
      sumTo w.lensB (w.als.length - 1) := sumTo_bumpLast _ _ (by omega)
  have hposnew : chainPos (bumpLast w.lensB) w.lensB.sum =
      (w.bts.length - 1, w.lensB.getD (w.bts.length - 1) 0) := by
    have h1 : sumTo (bumpLast w.lensB) (w.bts.length - 1) +
        w.lensB.getD (w.bts.length - 1) 0 = w.lensB.sum := by
      rw [sumTo_bumpLast _ _ (by omega)]
      have h2 := sumTo_succ w.lensB (w.bts.length - 1) (by omega)
      have h3 : w.bts.length - 1 + 1 = w.lensB.length := by omega
      rw [h3, sumTo_length] at h2
      omega
    rw [← h1]
    apply chainPos_inv
    · rw [bumpLast_length]
      omega
    · rw [hlast]
      omega
  have hfale := frontierA_le P sk w hI
  have hkeysB : ∀ i, i < w.lensB.sum →
      skipKeyB P w.bts (bumpLast w.lensB) i = skipKeyB P w.bts w.lensB i ∧
      msgKeyB P sk w.als w.bts (bumpLast w.lensB) i =
        msgKeyB P sk w.als w.bts w.lensB i := by
    intro i hi
    unfold skipKeyB msgKeyB
    rw [hpos i hi]
    exact ⟨rfl, rfl⟩
  have hw'eq : stepSession P w (.sendB p nonce) = { w with
      stB := { w.stB with
        sendChainKey := some (chainKeyAt P
          (chainBA P sk w.als w.bts (w.bts.length - 1))
          (w.lensB.getD (w.bts.length - 1) 0 + 1)),
        sendN := w.stB.sendN + 1 },
      sentB := w.sentB ++ [⟨⟨⟨w.stB.dhSend.publicKey, w.stB.sendN,
        w.stB.previousSendN⟩,
        P.aeadEnc (msgKeyAt P (chainBA P sk w.als w.bts (w.bts.length - 1))
          (w.lensB.getD (w.bts.length - 1) 0)) nonce p, nonce⟩, p⟩],
      lensB := bumpLast w.lensB } := by
    simp only [stepSession, henc]
  have hfa : frontierA (stepSession P w (.sendB p nonce)) = frontierA w := by
    rw [hw'eq]
    unfold frontierA
    dsimp only
    rw [hfaeq]
  have hfb : frontierB (stepSession P w (.sendB p nonce)) = frontierB w := by
    rw [hw'eq]
    unfold frontierB
    dsimp only
  rw [hw'eq] at hfa hfb
  rw [hw'eq]
  exact {
    halen := hI.halen
    hblen := by
      dsimp only
      rw [bumpLast_length]
      exact hblen
    hapos := hI.hapos
    hbpos := hI.hbpos
    hab := hI.hab
    hnodup := hI.hnodup
    hlensB0 := by
      dsimp only
      rw [show (0 : Nat) = 0 + 0 by rfl]
      rw [bumpLast_getD_lt _ _ (by omega)]
      exact hI.hlensB0
    hAdh := hI.hAdh
    hAsend := hI.hAsend
    hAsn := hI.hAsn
    hApn := hI.hApn
    hAroot := hI.hAroot
    hAmax := hI.hAmax
    hArdh := hI.hArdh
    hArck := hI.hArck
    hArn := by
      dsimp only
      have h1 := hI.hArn
      have h2 := bumpLast_getD_ge w.lensB (w.als.length - 1)
      omega
    hBdh := hI.hBdh
    hBsend := by
      dsimp only
      rw [if_neg hk0, hlast]
    hBsn := by
      dsimp only
      rw [hlast, hI.hBsn]
    hBpn := by
      dsimp only
      rw [hI.hBpn, if_neg hk0, if_neg hk0, bumpLast_getD_lt _ _ (by omega)]
    hBroot := hI.hBroot
    hBmax := hI.hBmax
    hBrdh := hI.hBrdh
    hBrck := hI.hBrck
    hBrn := hI.hBrn
    hsA := hI.hsA
    hmsgA := hI.hmsgA
    hsB := by
      dsimp only
      rw [List.length_append, hsum, hI.hsB]
      rfl
    hmsgB := by
      dsimp only
      intro i hi
      rw [List.length_append] at hi
      by_cases hio : i < w.sentB.length
      · rw [List.getD_append _ _ _ _ hio]
        have hisum : i < w.lensB.sum := by
          rw [← hI.hsB]
          exact hio
        have hpos' := hpos i hisum
        have hspec := chainPos_spec w.lensB i hisum
        have hold := hI.hmsgB i hio
        rw [hpos']
        have hmkb : msgKeyB P sk w.als w.bts (bumpLast w.lensB) i =
            msgKeyB P sk w.als w.bts w.lensB i := (hkeysB i hisum).2
        refine ⟨?_, by rw [hmkb]; exact hold.2.1, hold.2.2⟩
        rw [hold.1, bumpLast_getD_lt _ _ (by omega)]
      · have hieq : i = w.sentB.length := by
          simp only [List.length_singleton] at hi
          omega
        subst hieq
        rw [getD_concat_length]
        rw [hI.hsB, hposnew]
        refine ⟨?_, ?_, hn⟩
        · rw [hI.hBdh, hI.hBsn, hI.hBpn, if_neg hk0]
          dsimp only
          rw [show w.bts.length - 1 - 1 = w.bts.length - 2 by omega,
              bumpLast_getD_lt _ _ (by omega)]
        · unfold msgKeyB
          rw [hposnew]
    hdlvB := by
      dsimp only
      intro i hi
      rw [hfb]
      exact hI.hdlvB i hi
    hdlvBnd := hI.hdlvBnd
    htblB := by
      dsimp only
      intro i hfi hdl
      rw [hfb] at hfi
      exact hI.htblB i hfi hdl
    htblBmem := by
      dsimp only
      intro e he
      obtain ⟨i, h1, h2, h3⟩ := hI.htblBmem e he
      exact ⟨i, by rw [hfb]; exact h1, h2, h3⟩
    htblBlen := by
      dsimp only
      rw [hfb]
      exact hI.htblBlen
    htblBnd := hI.htblBnd
    hslackB := by
      dsimp only
      rw [hfb]
      exact hI.hslackB
    hdlvA := by
      dsimp only
      intro i hi
      rw [hfa]
      exact hI.hdlvA i hi
    hdlvAnd := hI.hdlvAnd
    htblA := by
      dsimp only
      intro i hfi hdl
      rw [hfa] at hfi
      rw [(hkeysB i (lt_of_lt_of_le hfi hfale)).1,
          (hkeysB i (lt_of_lt_of_le hfi hfale)).2]
      exact hI.htblA i hfi hdl
    htblAmem := by
      dsimp only
      intro e he
      obtain ⟨i, hif, hid, hee⟩ := hI.htblAmem e he
      refine ⟨i, by rw [hfa]; exact hif, hid, ?_⟩
      rw [(hkeysB i (lt_of_lt_of_le hif hfale)).1,
          (hkeysB i (lt_of_lt_of_le hif hfale)).2]
      exact hee
    htblAlen := by
      dsimp only
      rw [hfa]
      exact hI.htblAlen
    htblAnd := hI.htblAnd
    hslackA := by
      dsimp only
      rw [hfa]
      exact hI.hslackA }

/-- The receiving-side skipped-key table contains exactly the keys of
derived-but-undelivered message indexes below the frontier `fr`. -/
def TableInv (tbl : List (SkipKey × Bytes)) (keyOf : Nat → SkipKey)
    (valOf : Nat → Bytes) (dlv : List Nat) (fr : Nat) : Prop :=
  (∀ j, j < fr → j ∉ dlv → mapGet tbl (keyOf j) = some (valOf j)) ∧
  (∀ e ∈ tbl, ∃ j, j < fr ∧ j ∉ dlv ∧ e = (keyOf j, valOf j)) ∧
  tbl.length + dlv.length = fr ∧
  (tbl.map (fun e => e.1)).Nodup

/-- Lookup of an in-range key in a freshly derived run. -/
theorem mapGet_range_keys (keyOf : Nat → SkipKey) (valOf : Nat → Bytes)
    (fr : Nat) :
    ∀ d, (∀ a b, a < fr + d → b < fr + d → keyOf a = keyOf b → a = b) →
    ∀ j, fr ≤ j → j < fr + d →
    mapGet ((List.range d).map (fun t => (keyOf (fr + t), valOf (fr + t))))
      (keyOf j) = some (valOf j) := by
  intro d
  induction d with
  | zero =>
    intro _ j h1 h2
    omega
  | succ d ih =>
    intro hinj j h1 h2
    rw [List.range_succ, List.map_append, mapGet_append]
    by_cases hj : j < fr + d
    · rw [ih (fun a b ha hb => hinj a b (by omega) (by omega)) j h1 hj]
      rfl
    · have hje : j = fr + d := by omega
      have hnone : mapGet ((List.range d).map
          (fun t => (keyOf (fr + t), valOf (fr + t)))) (keyOf j) = none := by
        rw [mapGet_eq_none_iff]
        intro e he
        rw [List.mem_map] at he
        obtain ⟨t, ht, rfl⟩ := he
        rw [List.mem_range] at ht
        intro hc
        have := hinj (fr + t) j (by omega) (by omega) hc
        omega
      rw [hnone]
      simp only [Option.none_or]
      rw [List.map_singleton, hje]
      unfold mapGet
      rw [List.find?_cons_of_pos _ (by simp)]
      rfl

/-- Lookup of a foreign key in a freshly derived run. -/
theorem mapGet_range_keys_none (keyOf : Nat → SkipKey) (valOf : Nat → Bytes)
    (fr d : Nat) (q : SkipKey) (hq : ∀ t, t < d → keyOf (fr + t) ≠ q) :
    mapGet ((List.range d).map (fun t => (keyOf (fr + t), valOf (fr + t))))
      q = none := by
  rw [mapGet_eq_none_iff]
  intro e he
  rw [List.mem_map] at he
  obtain ⟨t, ht, rfl⟩ := he
  exact hq t (List.mem_range.mp ht)

/-- A key matching no undelivered derived index is absent. -/
theorem tableInv_none (tbl : List (SkipKey × Bytes)) (keyOf : Nat → SkipKey)
    (valOf : Nat → Bytes) (dlv : List Nat) (fr : Nat)
    (hT : TableInv tbl keyOf valOf dlv fr) (q : SkipKey)
    (hq : ∀ j, j < fr → j ∉ dlv → keyOf j ≠ q) :
    mapGet tbl q = none := by
  rcases h : mapGet tbl q with _ | v
  · rfl
  · exfalso
    have hm := mapGet_mem tbl q v h
    obtain ⟨j, h1, h2, h3⟩ := hT.2.1 (q, v) hm
    refine hq j h1 h2 ?_
    have := congrArg Prod.fst h3
    simpa using this.symm

/-- Serving a stored key deletes exactly that entry. -/
theorem tableInv_delete (tbl : List (SkipKey × Bytes)) (keyOf : Nat → SkipKey)
    (valOf : Nat → Bytes) (dlv : List Nat) (fr : Nat)
    (hT : TableInv tbl keyOf valOf dlv fr)
    (hinj : ∀ a b, a < fr → b < fr → keyOf a = keyOf b → a = b)
    (i : Nat) (hi : i < fr) (hid : i ∉ dlv) :
    TableInv (mapDelete tbl (keyOf i)) keyOf valOf (dlv ++ [i]) fr := by
  obtain ⟨h1, h2, h3, h4⟩ := hT
  refine ⟨?_, ?_, ?_, mapDelete_nodup _ _ h4⟩
  · intro j hj hjd
    have hji : j ≠ i := by
      intro h
      exact hjd (by rw [h]; simp)
    rw [mapGet_delete_ne _ _ _ (fun h => hji (hinj j i hj hi h))]
    exact h1 j hj (fun h => hjd (by simp [h]))
  · intro e he
    have hef := List.of_mem_filter he
    have hee := List.mem_of_mem_filter he
    obtain ⟨j, hj1, hj2, hj3⟩ := h2 e hee
    refine ⟨j, hj1, ?_, hj3⟩
    intro hmem
    rcases List.mem_append.mp hmem with hl | hr
    · exact hj2 hl
    · have hji : j = i := by simpa using hr
      subst hji
      rw [hj3] at hef
      simp at hef
  · have hdl := mapDelete_length tbl (keyOf i) (valOf i) h4 (h1 i hi hid)
    simp only [List.length_append, List.length_singleton]
    omega

/-- Deriving the keys of the next `d` messages extends the frontier. -/
theorem tableInv_append (tbl : List (SkipKey × Bytes)) (keyOf : Nat → SkipKey)
    (valOf : Nat → Bytes) (dlv : List Nat) (fr d : Nat)
    (hT : TableInv tbl keyOf valOf dlv fr)
    (hinj : ∀ a b, a < fr + d → b < fr + d → keyOf a = keyOf b → a = b)
    (hdlv : ∀ j ∈ dlv, j < fr) :
    TableInv
      (tbl ++ (List.range d).map (fun t => (keyOf (fr + t), valOf (fr + t))))
      keyOf valOf dlv (fr + d) := by
  obtain ⟨h1, h2, h3, h4⟩ := hT
  refine ⟨?_, ?_, ?_, ?_⟩
  · intro j hj hjd
    by_cases hjf : j < fr
    · rw [mapGet_append, h1 j hjf hjd]
      rfl
    · rw [mapGet_append]
      have hnone : mapGet tbl (keyOf j) = none := by
        apply tableInv_none tbl keyOf valOf dlv fr ⟨h1, h2, h3, h4⟩
        intro j' hj1 hj2 hc
        have := hinj j' j (by omega) (by omega) hc
        omega
      rw [hnone]
      simp only [Option.none_or]
      exact mapGet_range_keys keyOf valOf fr d hinj j (by omega) hj
  · intro e he
    rcases List.mem_append.mp he with hl | hr
    · obtain ⟨j, g1, g2, g3⟩ := h2 e hl
      exact ⟨j, by omega, g2, g3⟩
    · rw [List.mem_map] at hr
      obtain ⟨t, ht, rfl⟩ := hr
      rw [List.mem_range] at ht
      refine ⟨fr + t, by omega, ?_, rfl⟩
      intro hmem
      have := hdlv _ hmem
      omega
  · rw [List.length_append, List.length_map, List.length_range]
    omega
  · rw [List.map_append, List.nodup_append]
    refine ⟨h4, ?_, ?_⟩
    · rw [List.map_map]
      refine List.Nodup.map_on ?_ (List.nodup_range d)
      intro a ha b hb hc
      rw [List.mem_range] at ha hb
      simp only [Function.comp_apply] at hc
      have := hinj (fr + a) (fr + b) (by omega) (by omega) hc
      omega
    · intro a ha hb
      rw [List.map_map, List.mem_map] at hb
      obtain ⟨t, ht, hta⟩ := hb
      rw [List.mem_range] at ht
      rw [List.mem_map] at ha
      obtain ⟨e, hee, heq⟩ := ha
      obtain ⟨j, g1, g2, g3⟩ := h2 e hee
      simp only [Function.comp_apply] at hta
      have hkey : keyOf j = keyOf (fr + t) := by
        rw [g3] at heq
        simp only at heq
        exact heq.trans hta.symm
      have := hinj j (fr + t) (by omega) (by omega) hkey
      omega

/-- Consuming the message at the frontier advances it past that index. -/
theorem tableInv_consume (tbl : List (SkipKey × Bytes)) (keyOf : Nat → SkipKey)
    (valOf : Nat → Bytes) (dlv : List Nat) (fr : Nat)
    (hT : TableInv tbl keyOf valOf dlv fr)
    (hdlv : ∀ j ∈ dlv, j < fr) :
    TableInv tbl keyOf valOf (dlv ++ [fr]) (fr + 1) := by
  obtain ⟨h1, h2, h3, h4⟩ := hT
  refine ⟨?_, ?_, ?_, h4⟩
  · intro j hj hjd
    have hjf : j < fr := by
      have hne : j ≠ fr := by
        intro h
        exact hjd (by simp [h])
      omega
    exact h1 j hjf (fun h => hjd (by simp [h]))
  · intro e he
    obtain ⟨j, g1, g2, g3⟩ := h2 e he
    refine ⟨j, by omega, ?_, g3⟩
    intro hm
    rcases List.mem_append.mp hm with hl | hr
    · exact g2 hl
    · have : j = fr := by simpa using hr
      omega
  · simp only [List.length_append, List.length_singleton]
    omega

/-- Keys of distinct A→B message indexes differ. -/
theorem skipKeyA_inj (P : Prims) (sk : Bytes) (w : Session)
    (hI : SessionInv P sk w) :
    ∀ a b, a < w.lensA.sum → b < w.lensA.sum →
      skipKeyA P w.als w.lensA a = skipKeyA P w.als w.lensA b → a = b := by
  intro a b ha hb he
  unfold skipKeyA at he
  rw [Prod.mk.injEq] at he
  rcases chainPos_spec w.lensA a ha with ⟨g1, g2, g3⟩
  rcases chainPos_spec w.lensA b hb with ⟨f1, f2, f3⟩
  have hl := hI.halen
  have hnodA : (w.als.map P.xPub).Nodup := by
    have h0 := hI.hnodup
    unfold xPubs at h0
    rw [List.map_append] at h0
    exact h0.of_append_left
  have hc : (chainPos w.lensA a).1 = (chainPos w.lensA b).1 := by
    by_contra hne
    exact xPubs_ne P w.als hnodA _ _ (by omega) (by omega) hne he.1
  rw [hc] at g3
  omega

/-- Keys of distinct B→A message indexes differ. -/
theorem skipKeyB_inj (P : Prims) (sk : Bytes) (w : Session)
    (hI : SessionInv P sk w) :
    ∀ a b, a < w.lensB.sum → b < w.lensB.sum →
      skipKeyB P w.bts w.lensB a = skipKeyB P w.bts w.lensB b → a = b := by
  intro a b ha hb he
  unfold skipKeyB at he
  rw [Prod.mk.injEq] at he
  rcases chainPos_spec w.lensB a ha with ⟨g1, g2, g3⟩
  rcases chainPos_spec w.lensB b hb with ⟨f1, f2, f3⟩
  have hl := hI.hblen
  have hnodB : (w.bts.map P.xPub).Nodup := by
    have h0 := hI.hnodup
    unfold xPubs at h0
    rw [List.map_append] at h0
    exact h0.of_append_right
  have hc : (chainPos w.lensB a).1 = (chainPos w.lensB b).1 := by
    by_contra hne
    exact xPubs_ne P w.bts hnodB _ _ (by omega) (by omega) hne he.1
  rw [hc] at g3
  omega

/-- Explicit shape of one DH ratchet step. -/
theorem dhRatchetStep_eq (P : Prims) (st : RatchetState) (pub fresh : Bytes) :
    dhRatchetStep P st pub fresh = { st with
      previousSendN := st.sendN, sendN := 0, receiveN := 0,
      dhReceive := some pub,
      rootKey := (kdfRootKey P
        (kdfRootKey P st.rootKey (P.dh st.dhSend.privateKey pub)).1
        (P.dh fresh pub)).1,
      receiveChainKey := some (kdfRootKey P st.rootKey
        (P.dh st.dhSend.privateKey pub)).2,
      dhSend := ⟨P.xPub fresh, fresh⟩,
      sendChainKey := some (kdfRootKey P
        (kdfRootKey P st.rootKey (P.dh st.dhSend.privateKey pub)).1
        (P.dh fresh pub)).2 } := by
  rfl

/-- Ladder stability specialized to extending B's scalars. -/
theorem rootAt_snoc_b (P : Prims) (sk : Bytes) (als bts : List Bytes)
    (x : Bytes) (n : Nat) (ha : n ≤ 2 * als.length) (hb : n < 2 * bts.length) :
    rootAt P sk als (bts ++ [x]) n = rootAt P sk als bts n := by
  have h := rootAt_append P sk als bts [] [x] n ha hb
  rwa [List.append_nil] at h

/-- A-chain stability under extending B's scalars. -/
theorem chainAB_snoc_b (P : Prims) (sk : Bytes) (als bts : List Bytes)
    (x : Bytes) (k : Nat) (ha : k < als.length) (hb : k < bts.length) :
    chainAB P sk als (bts ++ [x]) k = chainAB P sk als bts k := by
  have h := chainAB_append P sk als bts [] [x] k ha hb
  rwa [List.append_nil] at h

/-- B-chain stability under extending B's scalars. -/
theorem chainBA_snoc_b (P : Prims) (sk : Bytes) (als bts : List Bytes)
    (x : Bytes) (k : Nat) (hk : 1 ≤ k) (ha : k ≤ als.length)
    (hb : k < bts.length) :
    chainBA P sk als (bts ++ [x]) k = chainBA P sk als bts k := by
  have h := chainBA_append P sk als bts [] [x] k hk ha hb
  rwa [List.append_nil] at h

/-- Ladder stability specialized to extending A's scalars. -/
theorem rootAt_snoc_a (P : Prims) (sk : Bytes) (als bts : List Bytes)
    (x : Bytes) (n : Nat) (ha : n ≤ 2 * als.length) (hb : n < 2 * bts.length) :
    rootAt P sk (als ++ [x]) bts n = rootAt P sk als bts n := by
  have h := rootAt_append P sk als bts [x] [] n ha hb
  rwa [List.append_nil] at h

/-- A-chain stability under extending A's scalars. -/
theorem chainAB_snoc_a (P : Prims) (sk : Bytes) (als bts : List Bytes)
    (x : Bytes) (k : Nat) (ha : k < als.length) (hb : k < bts.length) :
    chainAB P sk (als ++ [x]) bts k = chainAB P sk als bts k := by
  have h := chainAB_append P sk als bts [x] [] k ha hb
  rwa [List.append_nil] at h

/-- B-chain stability under extending A's scalars. -/
theorem chainBA_snoc_a (P : Prims) (sk : Bytes) (als bts : List Bytes)
    (x : Bytes) (k : Nat) (hk : 1 ≤ k) (ha : k ≤ als.length)
    (hb : k < bts.length) :
    chainBA P sk (als ++ [x]) bts k = chainBA P sk als bts k := by
  have h := chainBA_append P sk als bts [x] [] k hk ha hb
  rwa [List.append_nil] at h

/-- Extending either side's scalars keeps the joint key list
duplicate-free when the new public key is fresh. -/
theorem nodup_snoc_pubs_b (P : Prims) (als bts : List Bytes) (f : Bytes)
    (h : (xPubs P (als ++ bts)).Nodup) (hf : P.xPub f ∉ xPubs P (als ++ bts)) :
    (xPubs P (als ++ (bts ++ [f]))).Nodup := by
  unfold xPubs at h hf ⊢
  rw [show als ++ (bts ++ [f]) = (als ++ bts) ++ [f] by
    rw [List.append_assoc]]
  rw [List.map_append, List.nodup_append]
  refine ⟨h, List.nodup_singleton _, ?_⟩
  intro a ha hb
  rw [List.map_singleton, List.mem_singleton] at hb
  subst hb
  exact hf ha

/-- Same, when A's scalar list grows. -/
theorem nodup_snoc_pubs_a (P : Prims) (als bts : List Bytes) (f : Bytes)
    (h : (xPubs P (als ++ bts)).Nodup) (hf : P.xPub f ∉ xPubs P (als ++ bts)) :
    (xPubs P ((als ++ [f]) ++ bts)).Nodup := by
  unfold xPubs at h hf ⊢
  have hperm : List.Perm (((als ++ [f]) ++ bts).map P.xPub)
      (((als ++ bts) ++ [f]).map P.xPub) := by
    apply List.Perm.map
    have p1 : List.Perm ((als ++ [f]) ++ bts) (als ++ ([f] ++ bts)) := by
      rw [List.append_assoc]
    have p2 : List.Perm (als ++ ([f] ++ bts)) (als ++ (bts ++ [f])) :=
      List.Perm.append_left als List.perm_append_comm
    have p3 : List.Perm (als ++ (bts ++ [f])) ((als ++ bts) ++ [f]) := by
      rw [List.append_assoc]
    exact (p1.trans p2).trans p3
  rw [hperm.nodup_iff]
  rw [List.map_append, List.nodup_append]
  refine ⟨h, List.nodup_singleton _, ?_⟩
  intro a ha hb
  rw [List.map_singleton, List.mem_singleton] at hb
  subst hb
  exact hf ha

/-- Delivery of a message whose key sits in B's skipped-key table:
the stored key decrypts it and is deleted. -/
theorem sessionInv_deliverB_stored (P : Prims) (sk : Bytes) (w : Session)
    (hdec : ∀ k n p, P.aeadDec k (P.aeadEnc k n p) n = some p)
    (hklen : ∀ ikm info, (P.hkdf ikm info 32).length = 32)
    (hI : SessionInv P sk w) (i : Nat) (fresh : Bytes)
    (hv1 : i < w.sentA.length) (hv2 : i ∉ w.dlvB)
    (hin : i < frontierB w) :
    (ratchetDecrypt P w.stB (w.sentA.getD i dummyMsg).msg fresh).1 =
      .ok (w.sentA.getD i dummyMsg).plaintext ∧
    SessionInv P sk (stepSession P w (.deliverB i fresh)) := by
  have hsA := hI.hsA
  have hisum : i < w.lensA.sum := by
    rw [← hsA]
    exact hv1
  have hfble := frontierB_le P sk w hI
  have hmsg := hI.hmsgA i hv1
  have hh := hmsg.1
  have h24 := hmsg.2.2
  have hkeyid : ((w.sentA.getD i dummyMsg).msg.header.dhPublic,
      (w.sentA.getD i dummyMsg).msg.header.n) =
      skipKeyA P w.als w.lensA i := by
    rw [hh]
    rfl
  have hget : mapGet w.stB.skippedKeys (skipKeyA P w.als w.lensA i) =
      some (msgKeyA P sk w.als w.bts w.lensA i) := hI.htblB i hin hv2
  have h32 : (msgKeyA P sk w.als w.bts w.lensA i).length = 32 := by
    unfold msgKeyA
    exact msgKeyAt_length P hklen _ _
  have hdecA : decryptAead P (msgKeyA P sk w.als w.bts w.lensA i)
      (w.sentA.getD i dummyMsg).msg.ciphertext
      (w.sentA.getD i dummyMsg).msg.nonce =
      .ok (w.sentA.getD i dummyMsg).plaintext := by
    rw [hmsg.2.1]
    unfold decryptAead
    rw [if_neg (by omega), if_neg (by omega), hdec]
  have hdecrypt : ratchetDecrypt P w.stB (w.sentA.getD i dummyMsg).msg fresh =
      (.ok (w.sentA.getD i dummyMsg).plaintext,
       { w.stB with skippedKeys :=
                      mapDelete w.stB.skippedKeys
                        (skipKeyA P w.als w.lensA i) }) := by
    simp only [ratchetDecrypt, hkeyid, hget, hdecA]
  have hw'eq : stepSession P w (.deliverB i fresh) = { w with
      stB := { w.stB with skippedKeys :=
                            mapDelete w.stB.skippedKeys
                              (skipKeyA P w.als w.lensA i) },
      dlvB := w.dlvB ++ [i] } := by
    simp only [stepSession, hkeyid, hget, hdecrypt, Option.isNone_some,
      Bool.false_and, Bool.false_eq_true, if_false, ite_false]
  have hT : TableInv w.stB.skippedKeys (skipKeyA P w.als w.lensA)
      (msgKeyA P sk w.als w.bts w.lensA) w.dlvB (frontierB w) :=
    ⟨hI.htblB, hI.htblBmem, hI.htblBlen, hI.htblBnd⟩
  have hinj : ∀ a b, a < frontierB w → b < frontierB w →
      skipKeyA P w.als w.lensA a = skipKeyA P w.als w.lensA b → a = b := by
    intro a b ha hb
    exact skipKeyA_inj P sk w hI a b (lt_of_lt_of_le ha hfble)
      (lt_of_lt_of_le hb hfble)
  have hT' := tableInv_delete _ _ _ _ _ hT hinj i hin hv2
  obtain ⟨t1, t2, t3, t4⟩ := hT'
  have hfb : frontierB (stepSession P w (.deliverB i fresh)) = frontierB w := by
    rw [hw'eq]
    unfold frontierB
    dsimp only
  have hfa : frontierA (stepSession P w (.deliverB i fresh)) = frontierA w := by
    rw [hw'eq]
    unfold frontierA
    dsimp only
  rw [hw'eq] at hfb hfa
  refine ⟨by rw [hdecrypt], ?_⟩
  rw [hw'eq]
  exact {
    halen := hI.halen
    hblen := hI.hblen
    hapos := hI.hapos
    hbpos := hI.hbpos
    hab := hI.hab
    hnodup := hI.hnodup
    hlensB0 := hI.hlensB0
    hAdh := hI.hAdh
    hAsend := hI.hAsend
    hAsn := hI.hAsn
    hApn := hI.hApn
    hAroot := hI.hAroot
    hAmax := hI.hAmax
    hArdh := hI.hArdh
    hArck := hI.hArck
    hArn := hI.hArn
    hBdh := hI.hBdh
    hBsend := hI.hBsend
    hBsn := hI.hBsn
    hBpn := hI.hBpn
    hBroot := hI.hBroot
    hBmax := hI.hBmax
    hBrdh := hI.hBrdh
    hBrck := hI.hBrck
    hBrn := hI.hBrn
    hsA := hI.hsA
    hmsgA := hI.hmsgA
    hsB := hI.hsB
    hmsgB := hI.hmsgB
    hdlvB := by
      dsimp only
      intro j hj
      rw [hfb]
      rcases List.mem_append.mp hj with hl | hr
      · exact hI.hdlvB j hl
      · have : j = i := by simpa using hr
        rw [this]
        exact hin
    hdlvBnd := by
      dsimp only
      rw [List.nodup_append]
      refine ⟨hI.hdlvBnd, List.nodup_singleton _, ?_⟩
      intro a ha hb
      rw [List.mem_singleton] at hb
      subst hb
      exact hv2 ha
    htblB := by
      dsimp only
      intro j hj
      rw [hfb] at hj
      exact t1 j hj
    htblBmem := by
      dsimp only
      intro e he
      obtain ⟨j, g1, g2, g3⟩ := t2 e he
      exact ⟨j, by rw [hfb]; exact g1, g2, g3⟩
    htblBlen := by
      dsimp only
      rw [hfb]
      exact t3
    htblBnd := t4
    hslackB := by
      dsimp only
      rw [hfb, List.length_append, List.length_singleton]
      have := hI.hslackB
      omega
    hdlvA := by
      dsimp only
      intro j hj
      rw [hfa]
      exact hI.hdlvA j hj
    hdlvAnd := hI.hdlvAnd
    htblA := by
      dsimp only
      intro j h1 h2
      rw [hfa] at h1
      exact hI.htblA j h1 h2
    htblAmem := by
      dsimp only
      intro e he
      obtain ⟨j, g1, g2, g3⟩ := hI.htblAmem e he
      exact ⟨j, by rw [hfa]; exact g1, g2, g3⟩
    htblAlen := by
      dsimp only
      rw [hfa]
      exact hI.htblAlen
    htblAnd := hI.htblAnd
    hslackA := by
      dsimp only
      rw [hfa]
      exact hI.hslackA }

/-- Delivery of a not-yet-derived message of B's current receive
chain: the chain is advanced to the message, skipped keys are stored,
and the message key decrypts it. -/
theorem sessionInv_deliverB_chain (P : Prims) (sk : Bytes) (w : Session)
    (hdec : ∀ k n p, P.aeadDec k (P.aeadEnc k n p) n = some p)
    (hklen : ∀ ikm info, (P.hkdf ikm info 32).length = 32)
    (hI : SessionInv P sk w) (i : Nat) (fresh : Bytes)
    (hv1 : i < w.sentA.length) (hv2 : i ∉ w.dlvB)
    (hv3 : i ≤ w.dlvB.length + 1000)
    (hout : frontierB w ≤ i)
    (hk0 : ¬ w.bts.length - 1 = 0)
    (hcc : (chainPos w.lensA i).1 = w.bts.length - 2) :
    (ratchetDecrypt P w.stB (w.sentA.getD i dummyMsg).msg fresh).1 =
      .ok (w.sentA.getD i dummyMsg).plaintext ∧
    SessionInv P sk (stepSession P w (.deliverB i fresh)) := by
  have hsA := hI.hsA
  have hisum : i < w.lensA.sum := by
    rw [← hsA]
    exact hv1
  have hfble := frontierB_le P sk w hI
  have hmsg := hI.hmsgA i hv1
  have hh := hmsg.1
  have h24 := hmsg.2.2
  rcases hcn : chainPos w.lensA i with ⟨c, n⟩
  rw [hcn] at hcc
  simp only at hcc
  have hspec := chainPos_spec w.lensA i hisum
  rw [hcn] at hspec
  simp only at hspec
  rw [hcn] at hh
  simp only at hh
  have halen := hI.halen
  have hclt : c < w.als.length := by omega
  -- receive state of the current chain, phrased with `c`
  have hrdh : w.stB.dhReceive = some (P.xPub (w.als.getD c [])) := by
    rw [hI.hBrdh, if_neg hk0, hcc]
  have hrck : w.stB.receiveChainKey =
      some (chainKeyAt P (chainAB P sk w.als w.bts c) w.stB.receiveN) := by
    rw [hI.hBrck, if_neg hk0, hcc]
  have hFdef : frontierB w = sumTo w.lensA c + w.stB.receiveN := by
    unfold frontierB
    rw [hcc]
  have hrn_le : w.stB.receiveN ≤ n := by
    rw [hFdef] at hout
    omega
  have hdlv_le : w.dlvB.length ≤ frontierB w := by
    have := hI.htblBlen
    omega
  have hsz : w.stB.skippedKeys.length + (n - w.stB.receiveN) ≤ 1000 := by
    have h3 := hI.htblBlen
    rw [hFdef] at h3
    omega
  have hT : TableInv w.stB.skippedKeys (skipKeyA P w.als w.lensA)
      (msgKeyA P sk w.als w.bts w.lensA) w.dlvB (frontierB w) :=
    ⟨hI.htblB, hI.htblBmem, hI.htblBlen, hI.htblBnd⟩
  have hkeyid : ((w.sentA.getD i dummyMsg).msg.header.dhPublic,
      (w.sentA.getD i dummyMsg).msg.header.n) =
      skipKeyA P w.als w.lensA i := by
    rw [hh]
    unfold skipKeyA
    rw [hcn]
  have hpub : (w.sentA.getD i dummyMsg).msg.header.dhPublic =
      P.xPub (w.als.getD c []) := by
    rw [hh]
  have hnn : (w.sentA.getD i dummyMsg).msg.header.n = n := by
    rw [hh]
  have hnone : mapGet w.stB.skippedKeys (skipKeyA P w.als w.lensA i) = none := by
    apply tableInv_none _ _ _ _ _ hT
    intro j hj1 hj2 hc
    have := skipKeyA_inj P sk w hI j i (lt_of_lt_of_le hj1 hfble) hisum hc
    omega
  have habs : ∀ j, w.stB.receiveN ≤ j →
      mapGet w.stB.skippedKeys (P.xPub (w.als.getD c []), j) = none := by
    intro j hj
    apply tableInv_none _ _ _ _ _ hT
    intro j' hj1 hj2 hc
    rcases hcn' : chainPos w.lensA j' with ⟨c', n'⟩
    have hspec' := chainPos_spec w.lensA j' (lt_of_lt_of_le hj1 hfble)
    rw [hcn'] at hspec'
    simp only at hspec'
    unfold skipKeyA at hc
    rw [hcn'] at hc
    simp only [Prod.mk.injEq] at hc
    have hnodA : (w.als.map P.xPub).Nodup := by
      have h0 := hI.hnodup
      unfold xPubs at h0
      rw [List.map_append] at h0
      exact h0.of_append_left
    have hceq : c' = c := by
      by_contra hne
      exact xPubs_ne P w.als hnodA c' c (by omega) hclt hne hc.1
    rw [hceq] at hspec'
    rw [hFdef] at hj1
    omega
  have hself : constantTimeEqual (P.xPub (w.als.getD c []))
      (P.xPub (w.als.getD c [])) = true := (ctEq_iff _ _).mpr rfl
  have hsl0 := skipLoop_spec P w.stB n
    (chainKeyAt P (chainAB P sk w.als w.bts c) w.stB.receiveN)
    (P.xPub (w.als.getD c [])) hrck hrdh hrn_le
    (by rw [hI.hBmax]; exact hsz) habs
  rw [chainKeyAt_add,
      show w.stB.receiveN + (n - w.stB.receiveN) = n by omega] at hsl0
  have hentries : (List.range (n - w.stB.receiveN)).map
      (fun t => ((P.xPub (w.als.getD c []), w.stB.receiveN + t),
        msgKeyAt P (chainKeyAt P (chainAB P sk w.als w.bts c)
          w.stB.receiveN) t)) =
      (List.range (n - w.stB.receiveN)).map (fun t =>
        (skipKeyA P w.als w.lensA (frontierB w + t),
         msgKeyA P sk w.als w.bts w.lensA (frontierB w + t))) := by
    apply List.map_congr_left
    intro t ht
    rw [List.mem_range] at ht
    have hidx : frontierB w + t = sumTo w.lensA c + (w.stB.receiveN + t) := by
      rw [hFdef]
      omega
    have hpos_t : chainPos w.lensA (frontierB w + t) =
        (c, w.stB.receiveN + t) := by
      rw [hidx]
      exact chainPos_inv w.lensA c (w.stB.receiveN + t) (by omega) (by omega)
    unfold skipKeyA msgKeyA
    rw [hpos_t, msgKeyAt_add]
  rw [hentries] at hsl0
  have hsmk : skipMessageKeys P w.stB n = .ok { w.stB with
      receiveChainKey := some (chainKeyAt P (chainAB P sk w.als w.bts c) n),
      receiveN := n,
      skippedKeys := w.stB.skippedKeys ++
        (List.range (n - w.stB.receiveN)).map (fun t =>
          (skipKeyA P w.als w.lensA (frontierB w + t),
           msgKeyA P sk w.als w.bts w.lensA (frontierB w + t))) } := by
    unfold skipMessageKeys
    rw [hrck]
    rw [if_neg (by rw [hI.hBmax]; omega)]
    rw [hsl0]
  have hdecA : decryptAead P
      (kdfChain P (chainKeyAt P (chainAB P sk w.als w.bts c) n)).1
      (w.sentA.getD i dummyMsg).msg.ciphertext
      (w.sentA.getD i dummyMsg).msg.nonce =
      .ok (w.sentA.getD i dummyMsg).plaintext := by
    have h1 : (kdfChain P (chainKeyAt P (chainAB P sk w.als w.bts c) n)).1 =
        msgKeyA P sk w.als w.bts w.lensA i := by
      unfold msgKeyA
      rw [hcn]
      rfl
    have h32 : (msgKeyA P sk w.als w.bts w.lensA i).length = 32 := by
      unfold msgKeyA
      exact msgKeyAt_length P hklen _ _
    rw [h1, hmsg.2.1]
    unfold decryptAead
    rw [if_neg (by omega), if_neg (by omega), hdec]
  have hdecrypt : ratchetDecrypt P w.stB (w.sentA.getD i dummyMsg).msg fresh =
      (.ok (w.sentA.getD i dummyMsg).plaintext,
       { w.stB with
         receiveChainKey :=
           some (chainKeyAt P (chainAB P sk w.als w.bts c) (n + 1)),
         receiveN := n + 1,
         skippedKeys := w.stB.skippedKeys ++
           (List.range (n - w.stB.receiveN)).map (fun t =>
             (skipKeyA P w.als w.lensA (frontierB w + t),
              msgKeyA P sk w.als w.bts w.lensA (frontierB w + t))) }) := by
    have hnone' : mapGet w.stB.skippedKeys
        (P.xPub (w.als.getD c []), n) = none := by
      have h := hnone
      unfold skipKeyA at h
      rw [hcn] at h
      exact h
    simp only [ratchetDecrypt, hkeyid, hnone, hnone', hrdh, hpub, hself,
      Bool.not_true, Bool.false_eq_true, if_false, ite_false, hnn, hsmk,
      hdecA, chainKeyAt]
  have hratfalse : ((mapGet w.stB.skippedKeys
      ((w.sentA.getD i dummyMsg).msg.header.dhPublic,
       (w.sentA.getD i dummyMsg).msg.header.n)).isNone &&
      (match w.stB.dhReceive with
       | none => true
       | some r =>
         !(constantTimeEqual (w.sentA.getD i dummyMsg).msg.header.dhPublic
           r))) = false := by
    rw [hkeyid, hnone, hrdh, hpub]
    simp only [Option.isNone_none, Bool.true_and, hself, Bool.not_true]
  have hw'eq : stepSession P w (.deliverB i fresh) = { w with
      stB := { w.stB with
        receiveChainKey :=
          some (chainKeyAt P (chainAB P sk w.als w.bts c) (n + 1)),
        receiveN := n + 1,
        skippedKeys := w.stB.skippedKeys ++
          (List.range (n - w.stB.receiveN)).map (fun t =>
            (skipKeyA P w.als w.lensA (frontierB w + t),
             msgKeyA P sk w.als w.bts w.lensA (frontierB w + t))) },
      dlvB := w.dlvB ++ [i] } := by
    simp only [stepSession, hratfalse, hdecrypt, Bool.false_eq_true, if_false,
      ite_false]
  have hinj : ∀ a b, a < frontierB w + (n - w.stB.receiveN) →
      b < frontierB w + (n - w.stB.receiveN) →
      skipKeyA P w.als w.lensA a = skipKeyA P w.als w.lensA b → a = b := by
    intro a b ha hb
    have hFi : frontierB w + (n - w.stB.receiveN) = i := by
      rw [hFdef]
      omega
    exact skipKeyA_inj P sk w hI a b (by omega) (by omega)
  have hT1 := tableInv_append _ _ _ _ _ (n - w.stB.receiveN) hT hinj hI.hdlvB
  have hFi : frontierB w + (n - w.stB.receiveN) = i := by
    rw [hFdef]
    omega
  rw [hFi] at hT1
  have hT2 := tableInv_consume _ _ _ _ _ hT1 (by
    intro j hj
    have := hI.hdlvB j hj
    omega)
  refine ⟨by rw [hdecrypt], ?_⟩
  have hfbnew : frontierB (stepSession P w (.deliverB i fresh)) = i + 1 := by
    rw [hw'eq]
    unfold frontierB
    dsimp only
    rw [← hcc]
    omega
  have hfa : frontierA (stepSession P w (.deliverB i fresh)) = frontierA w := by
    rw [hw'eq]
    unfold frontierA
    dsimp only
  rw [hw'eq] at hfbnew hfa
  obtain ⟨t1, t2, t3, t4⟩ := hT2
  rw [hw'eq]
  exact {
    halen := hI.halen
    hblen := hI.hblen
    hapos := hI.hapos
    hbpos := hI.hbpos
    hab := hI.hab
    hnodup := hI.hnodup
    hlensB0 := hI.hlensB0
    hAdh := hI.hAdh
    hAsend := hI.hAsend
    hAsn := hI.hAsn
    hApn := hI.hApn
    hAroot := hI.hAroot
    hAmax := hI.hAmax
    hArdh := hI.hArdh
    hArck := hI.hArck
    hArn := hI.hArn
    hBdh := hI.hBdh
    hBsend := hI.hBsend
    hBsn := hI.hBsn
    hBpn := hI.hBpn
    hBroot := hI.hBroot
    hBmax := hI.hBmax
    hBrdh := hI.hBrdh
    hBrck := by
      dsimp only
      rw [if_neg hk0, hcc]
    hBrn := by
      dsimp only
      rw [if_neg hk0]
      rw [← hcc]
      omega
    hsA := hI.hsA
    hmsgA := hI.hmsgA
    hsB := hI.hsB
    hmsgB := hI.hmsgB
    hdlvB := by
      dsimp only
      intro j hj
      rw [hfbnew]
      rcases List.mem_append.mp hj with hl | hr
      · have := hI.hdlvB j hl
        omega
      · have : j = i := by simpa using hr
        omega
    hdlvBnd := by
      dsimp only
      rw [List.nodup_append]
      refine ⟨hI.hdlvBnd, List.nodup_singleton _, ?_⟩
      intro a ha hb
      rw [List.mem_singleton] at hb
      subst hb
      exact hv2 ha
    htblB := by
      dsimp only
      intro j hj hjd
      rw [hfbnew] at hj
      exact t1 j hj hjd
    htblBmem := by
      dsimp only
      intro e he
      obtain ⟨j, g1, g2, g3⟩ := t2 e he
      exact ⟨j, by rw [hfbnew]; omega, g2, g3⟩
    htblBlen := by
      dsimp only
      rw [hfbnew]
      exact t3
    htblBnd := t4
    hslackB := by
      dsimp only
      rw [hfbnew, List.length_append, List.length_singleton]
      omega
    hdlvA := by
      dsimp only
      intro j hj
      rw [hfa]
      exact hI.hdlvA j hj
    hdlvAnd := hI.hdlvAnd
    htblA := by
      dsimp only
      intro j h1 h2
      rw [hfa] at h1
      exact hI.htblA j h1 h2
    htblAmem := by
      dsimp only
      intro e he
      obtain ⟨j, g1, g2, g3⟩ := hI.htblAmem e he
      exact ⟨j, by rw [hfa]; exact g1, g2, g3⟩
    htblAlen := by
      dsimp only
      rw [hfa]
      exact hI.htblAlen
    htblAnd := hI.htblAnd
    hslackA := by
      dsimp only
      rw [hfa]
      exact hI.hslackA }

/-- Appending a chain keeps earlier prefix sums. -/
theorem sumTo_append (l : List Nat) (x : Nat) (cc : Nat) (h : cc ≤ l.length) :
    sumTo (l ++ [x]) cc = sumTo l cc := by
  unfold sumTo
  rw [List.take_append_of_le_length h]

/-- With an empty zeroth chain, every message sits in a later chain. -/
theorem chainPos_fst_pos (lens : List Nat) (h0 : lens.getD 0 0 = 0) (j : Nat)
    (hj : j < lens.sum) : 1 ≤ (chainPos lens j).1 := by
  rcases chainPos_spec lens j hj with ⟨g1, g2, g3⟩
  by_contra h
  push_neg at h
  have h0' : (chainPos lens j).1 = 0 := by omega
  rw [h0', h0] at g2
  omega

/-- Shape of the DH ratchet step B takes on receiving A's chain
`c = bts.length - 1` message: the ladder advances by two steps with
the fresh scalar appended to B's list. -/
theorem deliverB_ratchet_step (P : Prims) (sk : Bytes) (w : Session)
    (hsym : ∀ a b, P.dh a (P.xPub b) = P.dh b (P.xPub a))
    (hI : SessionInv P sk w) (fresh : Bytes) (c : Nat)
    (hcc : c = w.bts.length - 1) (hclt : c < w.als.length)
    (dr1 ck1 : Option Bytes) (rn1 : Nat) (tbl1 : List (SkipKey × Bytes)) :
    dhRatchetStep P
      { w.stB with
        dhReceive := dr1, receiveChainKey := ck1, receiveN := rn1,
        skippedKeys := tbl1 }
      (P.xPub (w.als.getD c [])) fresh =
      { w.stB with
        previousSendN := w.stB.sendN, sendN := 0, receiveN := 0,
        dhReceive := some (P.xPub (w.als.getD c [])),
        rootKey := rootAt P sk w.als (w.bts ++ [fresh]) (2 * c + 2),
        receiveChainKey := some (chainAB P sk w.als (w.bts ++ [fresh]) c),
        dhSend := ⟨P.xPub fresh, fresh⟩,
        sendChainKey := some (chainBA P sk w.als (w.bts ++ [fresh]) (c + 1)),
        skippedKeys := tbl1 } := by
  have hbpos := hI.hbpos
  have hdh1 : P.dh w.stB.dhSend.privateKey (P.xPub (w.als.getD c [])) =
      dhAt P w.als (w.bts ++ [fresh]) (2 * c) := by
    rw [hI.hBdh]
    dsimp only
    rw [show w.bts.length - 1 = c from hcc.symm, hsym]
    unfold dhAt
    rw [if_pos (show 2 * c % 2 = 0 by omega),
        show 2 * c / 2 = c by omega,
        List.getD_append _ _ _ _ (show c < w.bts.length by omega)]
  have hroot0 : w.stB.rootKey =
      rootAt P sk w.als (w.bts ++ [fresh]) (2 * c) := by
    rw [hI.hBroot, show w.bts.length - 1 = c from hcc.symm]
    exact (rootAt_snoc_b P sk w.als w.bts fresh (2 * c) (by omega)
      (by omega)).symm
  have hdharg2 : P.dh fresh (P.xPub (w.als.getD c [])) =
      dhAt P w.als (w.bts ++ [fresh]) (2 * c + 1) := by
    unfold dhAt
    rw [if_neg (show ¬ (2 * c + 1) % 2 = 0 by omega),
        show (2 * c + 1) / 2 = c by omega,
        show (w.bts ++ [fresh]).getD (c + 1) [] = fresh from by
          rw [show c + 1 = w.bts.length by omega]
          exact getD_concat_length _ _ _]
  have hba1 : chainBA P sk w.als (w.bts ++ [fresh]) (c + 1) =
      (kdfRootKey P (rootAt P sk w.als (w.bts ++ [fresh]) (2 * c + 1))
        (dhAt P w.als (w.bts ++ [fresh]) (2 * c + 1))).2 := by
    unfold chainBA
    rw [show 2 * (c + 1) - 1 = 2 * c + 1 by omega]
  rw [dhRatchetStep_eq]
  dsimp only
  rw [hroot0, hdh1, hdharg2, hba1]
  rfl

/-- After B's DH ratchet step for A's chain `c = bts.length - 1`, the
skip into the new chain and the final key derivation succeed, the
derived key decrypts the message, and the table tracks the new
frontier `i + 1`. -/
theorem deliverB_ratchet_tail (P : Prims) (sk : Bytes) (w : Session)
    (hdec : ∀ k n p, P.aeadDec k (P.aeadEnc k n p) n = some p)
    (hklen : ∀ ikm info, (P.hkdf ikm info 32).length = 32)
    (hI : SessionInv P sk w) (i : Nat) (fresh : Bytes) (c n : Nat)
    (hcn : chainPos w.lensA i = (c, n))
    (hv1 : i < w.sentA.length) (hv2 : i ∉ w.dlvB)
    (hv3 : i ≤ w.dlvB.length + 1000)
    (hcc : c = w.bts.length - 1)
    (tbl1 : List (SkipKey × Bytes))
    (hT1 : TableInv tbl1 (skipKeyA P w.als w.lensA)
      (msgKeyA P sk w.als w.bts w.lensA) w.dlvB (sumTo w.lensA c)) :
    skipMessageKeys P
      { w.stB with
        previousSendN := w.stB.sendN, sendN := 0, receiveN := 0,
        dhReceive := some (P.xPub (w.als.getD c [])),
        rootKey := rootAt P sk w.als (w.bts ++ [fresh]) (2 * c + 2),
        receiveChainKey := some (chainAB P sk w.als (w.bts ++ [fresh]) c),
        dhSend := ⟨P.xPub fresh, fresh⟩,
        sendChainKey := some (chainBA P sk w.als (w.bts ++ [fresh]) (c + 1)),
        skippedKeys := tbl1 } n =
      .ok { w.stB with
        previousSendN := w.stB.sendN, sendN := 0, receiveN := n,
        dhReceive := some (P.xPub (w.als.getD c [])),
        rootKey := rootAt P sk w.als (w.bts ++ [fresh]) (2 * c + 2),
        receiveChainKey := some (chainKeyAt P
          (chainAB P sk w.als (w.bts ++ [fresh]) c) n),
        dhSend := ⟨P.xPub fresh, fresh⟩,
        sendChainKey := some (chainBA P sk w.als (w.bts ++ [fresh]) (c + 1)),
        skippedKeys := tbl1 ++ (List.range n).map (fun t =>
          (skipKeyA P w.als w.lensA (sumTo w.lensA c + t),
           msgKeyA P sk w.als w.bts w.lensA (sumTo w.lensA c + t))) } ∧
    decryptAead P
      (kdfChain P (chainKeyAt P
        (chainAB P sk w.als (w.bts ++ [fresh]) c) n)).1
      (w.sentA.getD i dummyMsg).msg.ciphertext
      (w.sentA.getD i dummyMsg).msg.nonce =
      .ok (w.sentA.getD i dummyMsg).plaintext ∧
    TableInv (tbl1 ++ (List.range n).map (fun t =>
        (skipKeyA P w.als w.lensA (sumTo w.lensA c + t),
         msgKeyA P sk w.als w.bts w.lensA (sumTo w.lensA c + t))))
      (skipKeyA P w.als w.lensA) (msgKeyA P sk w.als w.bts w.lensA)
      (w.dlvB ++ [i]) (i + 1) := by
  have halen := hI.halen
  have hbpos := hI.hbpos
  have hisum : i < w.lensA.sum := by
    rw [← hI.hsA]
    exact hv1
  obtain ⟨hs1, hs2, hs3⟩ : c < w.lensA.length ∧ n < w.lensA.getD c 0 ∧
      sumTo w.lensA c + n = i := by
    have h := chainPos_spec w.lensA i hisum
    rw [hcn] at h
    exact h
  have hclt : c < w.als.length := by omega
  have hcb : c < w.bts.length := by omega
  have hnodA : (w.als.map P.xPub).Nodup := by
    have h0 := hI.hnodup
    unfold xPubs at h0
    rw [List.map_append] at h0
    exact h0.of_append_left
  have hlen1 : tbl1.length + w.dlvB.length = sumTo w.lensA c := hT1.2.2.1
  have hsz2 : tbl1.length + n ≤ 1000 := by omega
  have habs2 : ∀ j, mapGet tbl1 (P.xPub (w.als.getD c []), j) = none := by
    intro j
    apply tableInv_none _ _ _ _ _ hT1
    intro j' hj1 hj2 hc
    rcases hcn' : chainPos w.lensA j' with ⟨c', n'⟩
    have hj1s : j' < w.lensA.sum :=
      lt_of_lt_of_le hj1 (sumTo_le_sum _ _)
    obtain ⟨u1, u2, u3⟩ : c' < w.lensA.length ∧ n' < w.lensA.getD c' 0 ∧
        sumTo w.lensA c' + n' = j' := by
      have h := chainPos_spec w.lensA j' hj1s
      rw [hcn'] at h
      exact h
    unfold skipKeyA at hc
    rw [hcn'] at hc
    simp only [Prod.mk.injEq] at hc
    have hceq : c' = c := by
      by_contra hne
      exact xPubs_ne P w.als hnodA c' c (by omega) hclt hne hc.1
    rw [hceq] at u3
    have hmono := sumTo_mono w.lensA c c (le_refl c)
    omega
  have hsl2 := skipLoop_spec P
    { w.stB with
      previousSendN := w.stB.sendN, sendN := 0, receiveN := 0,
      dhReceive := some (P.xPub (w.als.getD c [])),
      rootKey := rootAt P sk w.als (w.bts ++ [fresh]) (2 * c + 2),
      receiveChainKey := some (chainAB P sk w.als (w.bts ++ [fresh]) c),
      dhSend := ⟨P.xPub fresh, fresh⟩,
      sendChainKey := some (chainBA P sk w.als (w.bts ++ [fresh]) (c + 1)),
      skippedKeys := tbl1 } n
    (chainAB P sk w.als (w.bts ++ [fresh]) c) (P.xPub (w.als.getD c []))
    rfl rfl (Nat.zero_le n)
    (by
      show tbl1.length + (n - 0) ≤ w.stB.maxSkip
      rw [hI.hBmax]
      omega)
    (fun j _ => habs2 j)
  simp only [Nat.sub_zero, Nat.zero_add] at hsl2
  have hentries : (List.range n).map
      (fun t => ((P.xPub (w.als.getD c []), t),
        msgKeyAt P (chainAB P sk w.als (w.bts ++ [fresh]) c) t)) =
      (List.range n).map (fun t =>
        (skipKeyA P w.als w.lensA (sumTo w.lensA c + t),
         msgKeyA P sk w.als w.bts w.lensA (sumTo w.lensA c + t))) := by
    apply List.map_congr_left
    intro t ht
    rw [List.mem_range] at ht
    have hpos_t : chainPos w.lensA (sumTo w.lensA c + t) = (c, t) :=
      chainPos_inv w.lensA c t (by omega) (by omega)
    unfold skipKeyA msgKeyA
    rw [hpos_t]
    dsimp only
    rw [chainAB_snoc_b P sk w.als w.bts fresh c hclt hcb]
  rw [hentries] at hsl2
  refine ⟨?_, ?_, ?_⟩
  · unfold skipMessageKeys
    dsimp only
    rw [if_neg (show ¬ 0 + w.stB.maxSkip < n from by
      rw [hI.hBmax]
      omega)]
    rw [hsl2]
  · have h1 : (kdfChain P (chainKeyAt P
        (chainAB P sk w.als (w.bts ++ [fresh]) c) n)).1 =
        msgKeyA P sk w.als w.bts w.lensA i := by
      unfold msgKeyA
      rw [hcn]
      dsimp only
      rw [chainAB_snoc_b P sk w.als w.bts fresh c hclt hcb]
      rfl
    have hmsg := hI.hmsgA i hv1
    have h24 := hmsg.2.2
    have h32 : (msgKeyA P sk w.als w.bts w.lensA i).length = 32 := by
      unfold msgKeyA
      exact msgKeyAt_length P hklen _ _
    rw [h1, hmsg.2.1]
    unfold decryptAead
    rw [if_neg (by omega), if_neg (by omega), hdec]
  · have hinj2 : ∀ a b, a < sumTo w.lensA c + n → b < sumTo w.lensA c + n →
        skipKeyA P w.als w.lensA a = skipKeyA P w.als w.lensA b → a = b := by
      intro a b ha hb
      exact skipKeyA_inj P sk w hI a b (by omega) (by omega)
    have hFle : frontierB w ≤ sumTo w.lensA c := by
      unfold frontierB
      by_cases hk0 : w.bts.length - 1 = 0
      · have h := hI.hBrn
        rw [if_pos hk0] at h
        rw [show w.bts.length - 2 = 0 by omega, show c = 0 by omega]
        omega
      · have h := hI.hBrn
        rw [if_neg hk0, show w.bts.length - 2 = c - 1 by omega] at h
        rw [show w.bts.length - 2 = c - 1 by omega]
        have h3 := sumTo_succ w.lensA (c - 1) (by omega)
        rw [show c - 1 + 1 = c by omega] at h3
        omega
    have hdlv2 : ∀ j ∈ w.dlvB, j < sumTo w.lensA c := by
      intro j hj
      exact lt_of_lt_of_le (hI.hdlvB j hj) hFle
    have hT2 := tableInv_append _ _ _ _ _ n hT1 hinj2 hdlv2
    have hT3 := tableInv_consume _ _ _ _ _ hT2 (by
      intro j hj
      have := hdlv2 j hj
      omega)
    rw [hs3] at hT3
    exact hT3

/-- Delivery of a message of A's newest chain `bts.length - 1`, which
B has not yet ratcheted into: B skips out the old receive chain,
performs the DH ratchet step with the fresh scalar, skips into the new
chain, and the derived key decrypts the message. -/
theorem sessionInv_deliverB_ratchet (P : Prims) (sk : Bytes) (w : Session)
    (hsym : ∀ a b, P.dh a (P.xPub b) = P.dh b (P.xPub a))
    (hdec : ∀ k n p, P.aeadDec k (P.aeadEnc k n p) n = some p)
    (hklen : ∀ ikm info, (P.hkdf ikm info 32).length = 32)
    (hI : SessionInv P sk w) (i : Nat) (fresh : Bytes)
    (hv1 : i < w.sentA.length) (hv2 : i ∉ w.dlvB)
    (hv3 : i ≤ w.dlvB.length + 1000)
    (hv4 : P.xPub fresh ∉ xPubs P (w.als ++ w.bts))
    (hout : frontierB w ≤ i)
    (hcr0 : (chainPos w.lensA i).1 = w.bts.length - 1) :
    (ratchetDecrypt P w.stB (w.sentA.getD i dummyMsg).msg fresh).1 =
      .ok (w.sentA.getD i dummyMsg).plaintext ∧
    SessionInv P sk (stepSession P w (.deliverB i fresh)) := by
  have hsA := hI.hsA
  have hisum : i < w.lensA.sum := by
    rw [← hsA]
    exact hv1
  have hfble := frontierB_le P sk w hI
  have hfale := frontierA_le P sk w hI
  have hmsg := hI.hmsgA i hv1
  have hh := hmsg.1
  have h24 := hmsg.2.2
  rcases hcn : chainPos w.lensA i with ⟨c, n⟩
  rw [hcn] at hcr0
  simp only at hcr0
  have hcr : c = w.bts.length - 1 := hcr0
  obtain ⟨hs1, hs2, hs3⟩ : c < w.lensA.length ∧ n < w.lensA.getD c 0 ∧
      sumTo w.lensA c + n = i := by
    have h := chainPos_spec w.lensA i hisum
    rw [hcn] at h
    exact h
  rw [hcn] at hh
  simp only at hh
  have halen := hI.halen
  have hblen := hI.hblen
  have hapos := hI.hapos
  have hbpos := hI.hbpos
  have hclt : c < w.als.length := by omega
  have hcb : c < w.bts.length := by omega
  have heq_len : w.bts.length = w.als.length := by
    rcases hI.hab with h | h <;> omega
  have hnodA : (w.als.map P.xPub).Nodup := by
    have h0 := hI.hnodup
    unfold xPubs at h0
    rw [List.map_append] at h0
    exact h0.of_append_left
  have hkeyid : ((w.sentA.getD i dummyMsg).msg.header.dhPublic,
      (w.sentA.getD i dummyMsg).msg.header.n) =
      skipKeyA P w.als w.lensA i := by
    rw [hh]
    unfold skipKeyA
    rw [hcn]
  have hpub : (w.sentA.getD i dummyMsg).msg.header.dhPublic =
      P.xPub (w.als.getD c []) := by
    rw [hh]
  have hnn : (w.sentA.getD i dummyMsg).msg.header.n = n := by
    rw [hh]
  have hT : TableInv w.stB.skippedKeys (skipKeyA P w.als w.lensA)
      (msgKeyA P sk w.als w.bts w.lensA) w.dlvB (frontierB w) :=
    ⟨hI.htblB, hI.htblBmem, hI.htblBlen, hI.htblBnd⟩
  have hnone : mapGet w.stB.skippedKeys (skipKeyA P w.als w.lensA i) =
      none := by
    apply tableInv_none _ _ _ _ _ hT
    intro j hj1 hj2 hc
    have := skipKeyA_inj P sk w hI j i (lt_of_lt_of_le hj1 hfble) hisum hc
    omega
  have hnone' : mapGet w.stB.skippedKeys
      (P.xPub (w.als.getD c []), n) = none := by
    have h := hnone
    unfold skipKeyA at h
    rw [hcn] at h
    exact h
  obtain ⟨tbl1, hdecrypt, hrat, hTfin⟩ :
      ∃ tbl1,
        ratchetDecrypt P w.stB (w.sentA.getD i dummyMsg).msg fresh =
          (.ok (w.sentA.getD i dummyMsg).plaintext,
           { w.stB with
             previousSendN := w.stB.sendN, sendN := 0, receiveN := n + 1,
             dhReceive := some (P.xPub (w.als.getD c [])),
             rootKey := rootAt P sk w.als (w.bts ++ [fresh]) (2 * c + 2),
             receiveChainKey := some (chainKeyAt P
               (chainAB P sk w.als (w.bts ++ [fresh]) c) (n + 1)),
             dhSend := ⟨P.xPub fresh, fresh⟩,
             sendChainKey := some
               (chainBA P sk w.als (w.bts ++ [fresh]) (c + 1)),
             skippedKeys := tbl1 ++ (List.range n).map (fun t =>
               (skipKeyA P w.als w.lensA (sumTo w.lensA c + t),
                msgKeyA P sk w.als w.bts w.lensA (sumTo w.lensA c + t))) }) ∧
        ((mapGet w.stB.skippedKeys
            ((w.sentA.getD i dummyMsg).msg.header.dhPublic,
             (w.sentA.getD i dummyMsg).msg.header.n)).isNone &&
          (match w.stB.dhReceive with
           | none => true
           | some r =>
             !(constantTimeEqual
               (w.sentA.getD i dummyMsg).msg.header.dhPublic r))) = true ∧
        TableInv (tbl1 ++ (List.range n).map (fun t =>
            (skipKeyA P w.als w.lensA (sumTo w.lensA c + t),
             msgKeyA P sk w.als w.bts w.lensA (sumTo w.lensA c + t))))
          (skipKeyA P w.als w.lensA) (msgKeyA P sk w.als w.bts w.lensA)
          (w.dlvB ++ [i]) (i + 1) := by
    by_cases hk0 : w.bts.length - 1 = 0
    · have hc0 : c = 0 := by omega
      have hrdh0 : w.stB.dhReceive = none := by
        rw [hI.hBrdh, if_pos hk0]
      have hF0 : frontierB w = sumTo w.lensA c := by
        unfold frontierB
        have h := hI.hBrn
        rw [if_pos hk0] at h
        rw [show w.bts.length - 2 = c by omega]
        omega
      have hT1 : TableInv w.stB.skippedKeys (skipKeyA P w.als w.lensA)
          (msgKeyA P sk w.als w.bts w.lensA) w.dlvB (sumTo w.lensA c) := by
        rw [← hF0]
        exact hT
      obtain ⟨hsmk2, hdecA2, hT3⟩ := deliverB_ratchet_tail P sk w hdec hklen
        hI i fresh c n hcn hv1 hv2 hv3 hcr w.stB.skippedKeys hT1
      have hdh2 : dhRatchetStep P w.stB (P.xPub (w.als.getD c [])) fresh =
          { w.stB with
            previousSendN := w.stB.sendN, sendN := 0, receiveN := 0,
            dhReceive := some (P.xPub (w.als.getD c [])),
            rootKey := rootAt P sk w.als (w.bts ++ [fresh]) (2 * c + 2),
            receiveChainKey :=
              some (chainAB P sk w.als (w.bts ++ [fresh]) c),
            dhSend := ⟨P.xPub fresh, fresh⟩,
            sendChainKey :=
              some (chainBA P sk w.als (w.bts ++ [fresh]) (c + 1)),
            skippedKeys := w.stB.skippedKeys } := by
        exact deliverB_ratchet_step P sk w hsym hI fresh c hcr hclt
          w.stB.dhReceive w.stB.receiveChainKey w.stB.receiveN
          w.stB.skippedKeys
      refine ⟨w.stB.skippedKeys, ?_, ?_, hT3⟩
      · simp only [ratchetDecrypt, hkeyid, hnone, hnone', hrdh0, hpub, hnn,
          hdh2, hsmk2, hdecA2, eq_self_iff_true, if_true, ite_true,
          chainKeyAt]
      · rw [hkeyid, hnone, hpub, hrdh0]
        rfl
    · have hc1 : 1 ≤ c := by omega
      have hrdh1 : w.stB.dhReceive =
          some (P.xPub (w.als.getD (c - 1) [])) := by
        rw [hI.hBrdh, if_neg hk0, show w.bts.length - 2 = c - 1 by omega]
      have hrck1 : w.stB.receiveChainKey =
          some (chainKeyAt P (chainAB P sk w.als w.bts (c - 1))
            w.stB.receiveN) := by
        rw [hI.hBrck, if_neg hk0, show w.bts.length - 2 = c - 1 by omega]
      have hpn : (w.sentA.getD i dummyMsg).msg.header.pn =
          w.lensA.getD (c - 1) 0 := by
        rw [hh]
        dsimp only
        rw [if_neg (show ¬ c = 0 by omega)]
      have hrn1 : w.stB.receiveN ≤ w.lensA.getD (c - 1) 0 := by
        have h := hI.hBrn
        rw [if_neg hk0, show w.bts.length - 2 = c - 1 by omega] at h
        exact h
      have hFdef1 : frontierB w =
          sumTo w.lensA (c - 1) + w.stB.receiveN := by
        unfold frontierB
        rw [show w.bts.length - 2 = c - 1 by omega]
      have hsumc : sumTo w.lensA c =
          sumTo w.lensA (c - 1) + w.lensA.getD (c - 1) 0 := by
        have h := sumTo_succ w.lensA (c - 1) (by omega)
        rw [show c - 1 + 1 = c by omega] at h
        exact h
      have hdlv_le : w.dlvB.length ≤ frontierB w := by
        have := hI.htblBlen
        omega
      have hsz1 : w.stB.skippedKeys.length +
          (w.lensA.getD (c - 1) 0 - w.stB.receiveN) ≤ 1000 := by
        have h3 := hI.htblBlen
        omega
      have hnothrow : ¬ (w.stB.receiveN + 1000 < w.lensA.getD (c - 1) 0) := by
        omega
      have habs1 : ∀ j, w.stB.receiveN ≤ j →
          mapGet w.stB.skippedKeys
            (P.xPub (w.als.getD (c - 1) []), j) = none := by
        intro j hj
        apply tableInv_none _ _ _ _ _ hT
        intro j' hj1 hj2 hc
        rcases hcn' : chainPos w.lensA j' with ⟨c', n'⟩
        obtain ⟨u1, u2, u3⟩ : c' < w.lensA.length ∧
            n' < w.lensA.getD c' 0 ∧ sumTo w.lensA c' + n' = j' := by
          have h := chainPos_spec w.lensA j' (lt_of_lt_of_le hj1 hfble)
          rw [hcn'] at h
          exact h
        unfold skipKeyA at hc
        rw [hcn'] at hc
        simp only [Prod.mk.injEq] at hc
        obtain ⟨hcp, hcs⟩ := hc
        have hceq : c' = c - 1 := by
          by_contra hne
          exact xPubs_ne P w.als hnodA c' (c - 1) (by omega) (by omega)
            hne hcp
        rw [hceq] at u3
        omega
      have hsl1 := skipLoop_spec P w.stB (w.lensA.getD (c - 1) 0)
        (chainKeyAt P (chainAB P sk w.als w.bts (c - 1)) w.stB.receiveN)
        (P.xPub (w.als.getD (c - 1) []))
        hrck1 hrdh1 hrn1
        (by
          rw [hI.hBmax]
          exact hsz1)
        habs1
      rw [chainKeyAt_add, show w.stB.receiveN +
        (w.lensA.getD (c - 1) 0 - w.stB.receiveN) =
        w.lensA.getD (c - 1) 0 by omega] at hsl1
      have hentries1 : (List.range
          (w.lensA.getD (c - 1) 0 - w.stB.receiveN)).map
          (fun t => ((P.xPub (w.als.getD (c - 1) []),
              w.stB.receiveN + t),
            msgKeyAt P (chainKeyAt P (chainAB P sk w.als w.bts (c - 1))
              w.stB.receiveN) t)) =
          (List.range (w.lensA.getD (c - 1) 0 - w.stB.receiveN)).map
          (fun t => (skipKeyA P w.als w.lensA (frontierB w + t),
            msgKeyA P sk w.als w.bts w.lensA (frontierB w + t))) := by
        apply List.map_congr_left
        intro t ht
        rw [List.mem_range] at ht
        have hidx : frontierB w + t =
            sumTo w.lensA (c - 1) + (w.stB.receiveN + t) := by
          rw [hFdef1]
          omega
        have hpos_t : chainPos w.lensA (frontierB w + t) =
            (c - 1, w.stB.receiveN + t) := by
          rw [hidx]
          exact chainPos_inv w.lensA (c - 1) (w.stB.receiveN + t)
            (by omega) (by omega)
        unfold skipKeyA msgKeyA
        rw [hpos_t, msgKeyAt_add]
      rw [hentries1] at hsl1
      have hsmk1 : skipMessageKeys P w.stB (w.lensA.getD (c - 1) 0) =
          .ok { w.stB with
            receiveChainKey := some (chainKeyAt P
              (chainAB P sk w.als w.bts (c - 1))
              (w.lensA.getD (c - 1) 0)),
            receiveN := w.lensA.getD (c - 1) 0,
            skippedKeys := w.stB.skippedKeys ++
              (List.range (w.lensA.getD (c - 1) 0 - w.stB.receiveN)).map
                (fun t => (skipKeyA P w.als w.lensA (frontierB w + t),
                  msgKeyA P sk w.als w.bts w.lensA (frontierB w + t))) } := by
        unfold skipMessageKeys
        rw [hrck1, if_neg (show ¬ w.stB.receiveN + w.stB.maxSkip <
          w.lensA.getD (c - 1) 0 from by
            rw [hI.hBmax]
            exact hnothrow), hsl1]
      have hinj1 : ∀ a b,
          a < frontierB w + (w.lensA.getD (c - 1) 0 - w.stB.receiveN) →
          b < frontierB w + (w.lensA.getD (c - 1) 0 - w.stB.receiveN) →
          skipKeyA P w.als w.lensA a = skipKeyA P w.als w.lensA b →
          a = b := by
        intro a b ha hb
        exact skipKeyA_inj P sk w hI a b (by omega) (by omega)
      have hT1 := tableInv_append _ _ _ _ _
        (w.lensA.getD (c - 1) 0 - w.stB.receiveN) hT hinj1 hI.hdlvB
      have hmid : frontierB w +
          (w.lensA.getD (c - 1) 0 - w.stB.receiveN) = sumTo w.lensA c := by
        omega
      rw [hmid] at hT1
      obtain ⟨hsmk2, hdecA2, hT3⟩ := deliverB_ratchet_tail P sk w hdec hklen
        hI i fresh c n hcn hv1 hv2 hv3 hcr
        (w.stB.skippedKeys ++
          (List.range (w.lensA.getD (c - 1) 0 - w.stB.receiveN)).map
            (fun t => (skipKeyA P w.als w.lensA (frontierB w + t),
              msgKeyA P sk w.als w.bts w.lensA (frontierB w + t)))) hT1
      have hdh2 := deliverB_ratchet_step P sk w hsym hI fresh c hcr hclt
        (some (P.xPub (w.als.getD (c - 1) [])))
        (some (chainKeyAt P (chainAB P sk w.als w.bts (c - 1))
          (w.lensA.getD (c - 1) 0)))
        (w.lensA.getD (c - 1) 0)
        (w.stB.skippedKeys ++
          (List.range (w.lensA.getD (c - 1) 0 - w.stB.receiveN)).map
            (fun t => (skipKeyA P w.als w.lensA (frontierB w + t),
              msgKeyA P sk w.als w.bts w.lensA (frontierB w + t))))
      have hctne : constantTimeEqual (P.xPub (w.als.getD c []))
          (P.xPub (w.als.getD (c - 1) [])) = false := by
        have hne : P.xPub (w.als.getD c []) ≠
            P.xPub (w.als.getD (c - 1) []) :=
          xPubs_ne P w.als hnodA c (c - 1) hclt (by omega) (by omega)
        cases hq : constantTimeEqual (P.xPub (w.als.getD c []))
            (P.xPub (w.als.getD (c - 1) []))
        · rfl
        · exact absurd ((ctEq_iff _ _).mp hq) hne
      refine ⟨w.stB.skippedKeys ++
        (List.range (w.lensA.getD (c - 1) 0 - w.stB.receiveN)).map
          (fun t => (skipKeyA P w.als w.lensA (frontierB w + t),
            msgKeyA P sk w.als w.bts w.lensA (frontierB w + t))),
        ?_, ?_, hT3⟩
      · simp only [ratchetDecrypt, hkeyid, hnone, hnone', hrdh1, hpub, hnn,
          hpn, hctne, Bool.not_false, hsmk1, hdh2, hsmk2, hdecA2,
          eq_self_iff_true, if_true, ite_true, chainKeyAt]
      · rw [hkeyid, hnone, hpub, hrdh1]
        simp only [Option.isNone_none, Bool.true_and, hctne, Bool.not_false]
  have hw'eq : stepSession P w (.deliverB i fresh) = { w with
      stB := { w.stB with
        previousSendN := w.stB.sendN, sendN := 0, receiveN := n + 1,
        dhReceive := some (P.xPub (w.als.getD c [])),
        rootKey := rootAt P sk w.als (w.bts ++ [fresh]) (2 * c + 2),
        receiveChainKey := some (chainKeyAt P
          (chainAB P sk w.als (w.bts ++ [fresh]) c) (n + 1)),
        dhSend := ⟨P.xPub fresh, fresh⟩,
        sendChainKey := some (chainBA P sk w.als (w.bts ++ [fresh]) (c + 1)),
        skippedKeys := tbl1 ++ (List.range n).map (fun t =>
          (skipKeyA P w.als w.lensA (sumTo w.lensA c + t),
           msgKeyA P sk w.als w.bts w.lensA (sumTo w.lensA c + t))) },
      dlvB := w.dlvB ++ [i],
      bts := w.bts ++ [fresh],
      lensB := w.lensB ++ [0] } := by
    simp only [stepSession, hrat, hdecrypt, eq_self_iff_true, if_true,
      ite_true]
  have hgb1 : (w.bts ++ [fresh]).length = w.bts.length + 1 := by
    rw [List.length_append, List.length_singleton]
  have hgl1 : (w.lensB ++ [0]).length = w.lensB.length + 1 := by
    rw [List.length_append, List.length_singleton]
  have hfbnew : frontierB (stepSession P w (.deliverB i fresh)) = i + 1 := by
    rw [hw'eq]
    unfold frontierB
    dsimp only
    rw [hgb1, show w.bts.length + 1 - 2 = c by omega]
    omega
  have hfa : frontierA (stepSession P w (.deliverB i fresh)) =
      frontierA w := by
    rw [hw'eq]
    unfold frontierA
    dsimp only
    rw [sumTo_append _ _ _ (by omega)]
  rw [hw'eq] at hfbnew hfa
  obtain ⟨t1, t2, t3, t4⟩ := hTfin
  have hmkeq : ∀ j, j < w.lensA.sum →
      msgKeyA P sk w.als (w.bts ++ [fresh]) w.lensA j =
        msgKeyA P sk w.als w.bts w.lensA j := by
    intro j hj
    obtain ⟨q1, q2, q3⟩ := chainPos_spec w.lensA j hj
    unfold msgKeyA
    rw [chainAB_snoc_b P sk w.als w.bts fresh _ (by omega) (by omega)]
  have hkeyBeq : ∀ j, j < w.lensB.sum →
      skipKeyB P (w.bts ++ [fresh]) (w.lensB ++ [0]) j =
        skipKeyB P w.bts w.lensB j := by
    intro j hj
    obtain ⟨q1, q2, q3⟩ := chainPos_spec w.lensB j hj
    unfold skipKeyB
    rw [chainPos_append w.lensB 0 j hj]
    rw [List.getD_append _ _ _ _
      (show (chainPos w.lensB j).1 < w.bts.length by omega)]
  have hmkeyBeq : ∀ j, j < w.lensB.sum →
      msgKeyB P sk w.als (w.bts ++ [fresh]) (w.lensB ++ [0]) j =
        msgKeyB P sk w.als w.bts w.lensB j := by
    intro j hj
    obtain ⟨q1, q2, q3⟩ := chainPos_spec w.lensB j hj
    have hpos1 := chainPos_fst_pos w.lensB hI.hlensB0 j hj
    unfold msgKeyB
    rw [chainPos_append w.lensB 0 j hj]
    rw [chainBA_snoc_b P sk w.als w.bts fresh _ (by omega) (by omega)
      (by omega)]
  refine ⟨by rw [hdecrypt], ?_⟩
  rw [hw'eq]
  exact {
    halen := hI.halen
    hblen := by
      dsimp only
      rw [hgb1, hgl1]
      omega
    hapos := hI.hapos
    hbpos := by
      dsimp only
      rw [hgb1]
      omega
    hab := by
      dsimp only
      refine Or.inr ?_
      rw [hgb1]
      omega
    hnodup := by
      dsimp only
      exact nodup_snoc_pubs_b P w.als w.bts fresh hI.hnodup hv4
    hlensB0 := by
      dsimp only
      rw [List.getD_append _ _ _ _ (by omega)]
      exact hI.hlensB0
    hAdh := hI.hAdh
    hAsend := by
      dsimp only
      rw [chainAB_snoc_b P sk w.als w.bts fresh _ (by omega) (by omega)]
      exact hI.hAsend
    hAsn := hI.hAsn
    hApn := hI.hApn
    hAroot := by
      dsimp only
      rw [rootAt_snoc_b P sk w.als w.bts fresh _ (by omega) (by omega)]
      exact hI.hAroot
    hAmax := hI.hAmax
    hArdh := by
      dsimp only
      rw [List.getD_append _ _ _ _
        (show w.als.length - 1 < w.bts.length by omega)]
      exact hI.hArdh
    hArck := by
      dsimp only
      by_cases h0 : w.als.length - 1 = 0
      · rw [if_pos h0]
        have h := hI.hArck
        rw [if_pos h0] at h
        exact h
      · rw [if_neg h0]
        rw [chainBA_snoc_b P sk w.als w.bts fresh _ (by omega) (by omega)
          (by omega)]
        have h := hI.hArck
        rw [if_neg h0] at h
        exact h
    hArn := by
      dsimp only
      rw [List.getD_append _ _ _ _
        (show w.als.length - 1 < w.lensB.length by omega)]
      exact hI.hArn
    hBdh := by
      dsimp only
      rw [hgb1, show w.bts.length + 1 - 1 = w.bts.length by omega,
          getD_concat_length]
    hBsend := by
      dsimp only
      have hz : (w.lensB ++ [0]).getD w.bts.length 0 = 0 := by
        rw [hblen]
        exact getD_concat_length _ _ _
      rw [hgb1, if_neg (show ¬ w.bts.length + 1 - 1 = 0 by omega),
          show w.bts.length + 1 - 1 = w.bts.length by omega]
      rw [hz]
      rw [show w.bts.length = c + 1 by omega]
      rfl
    hBsn := by
      dsimp only
      have hz : (w.lensB ++ [0]).getD w.bts.length 0 = 0 := by
        rw [hblen]
        exact getD_concat_length _ _ _
      rw [hgb1, show w.bts.length + 1 - 1 = w.bts.length by omega]
      rw [hz]
    hBpn := by
      dsimp only
      rw [hgb1, if_neg (show ¬ w.bts.length + 1 - 1 = 0 by omega),
          show w.bts.length + 1 - 2 = w.bts.length - 1 by omega,
          List.getD_append _ _ _ _
            (show w.bts.length - 1 < w.lensB.length by omega)]
      exact hI.hBsn
    hBroot := by
      dsimp only
      rw [hgb1, show w.bts.length + 1 - 1 = w.bts.length by omega,
          show 2 * w.bts.length = 2 * c + 2 by omega]
    hBmax := hI.hBmax
    hBrdh := by
      dsimp only
      rw [hgb1, if_neg (show ¬ w.bts.length + 1 - 1 = 0 by omega),
          show w.bts.length + 1 - 2 = c by omega]
    hBrck := by
      dsimp only
      rw [hgb1, if_neg (show ¬ w.bts.length + 1 - 1 = 0 by omega),
          show w.bts.length + 1 - 2 = c by omega]
    hBrn := by
      dsimp only
      rw [hgb1, if_neg (show ¬ w.bts.length + 1 - 1 = 0 by omega),
          show w.bts.length + 1 - 2 = c by omega]
      omega
    hsA := hI.hsA
    hmsgA := by
      dsimp only
      intro j hj
      have h := hI.hmsgA j hj
      have hj' : j < w.lensA.sum := by
        rw [← hI.hsA]
        exact hj
      refine ⟨h.1, ?_, h.2.2⟩
      rw [h.2.1, hmkeq j hj']
    hsB := by
      dsimp only
      rw [List.sum_append, show List.sum [0] = 0 from rfl, Nat.add_zero]
      exact hI.hsB
    hmsgB := by
      dsimp only
      intro j hj
      have h := hI.hmsgB j hj
      have hj' : j < w.lensB.sum := by
        rw [← hI.hsB]
        exact hj
      obtain ⟨q1, q2, q3⟩ := chainPos_spec w.lensB j hj'
      refine ⟨?_, ?_, h.2.2⟩
      · rw [chainPos_append w.lensB 0 j hj']
        rw [List.getD_append _ _ _ _
          (show (chainPos w.lensB j).1 < w.bts.length by omega)]
        rw [List.getD_append _ _ _ _
          (show (chainPos w.lensB j).1 - 1 < w.lensB.length by omega)]
        exact h.1
      · rw [h.2.1, hmkeyBeq j hj']
    hdlvB := by
      dsimp only
      intro j hj
      rw [hfbnew]
      rcases List.mem_append.mp hj with hl | hr
      · have := hI.hdlvB j hl
        omega
      · have : j = i := by simpa using hr
        omega
    hdlvBnd := by
      dsimp only
      rw [List.nodup_append]
      refine ⟨hI.hdlvBnd, List.nodup_singleton _, ?_⟩
      intro a ha hb
      rw [List.mem_singleton] at hb
      subst hb
      exact hv2 ha
    htblB := by
      dsimp only
      intro j hj hjd
      rw [hfbnew] at hj
      rw [hmkeq j (by omega)]
      exact t1 j hj hjd
    htblBmem := by
      dsimp only
      intro e he
      obtain ⟨j, g1, g2, g3⟩ := t2 e he
      refine ⟨j, by rw [hfbnew]; omega, g2, ?_⟩
      rw [hmkeq j (by omega)]
      exact g3
    htblBlen := by
      dsimp only
      rw [hfbnew]
      exact t3
    htblBnd := t4
    hslackB := by
      dsimp only
      rw [hfbnew, List.length_append, List.length_singleton]
      omega
    hdlvA := by
      dsimp only
      intro j hj
      rw [hfa]
      exact hI.hdlvA j hj
    hdlvAnd := hI.hdlvAnd
    htblA := by
      dsimp only
      intro j h1 h2
      rw [hfa] at h1
      rw [hkeyBeq j (by omega), hmkeyBeq j (by omega)]
      exact hI.htblA j h1 h2
    htblAmem := by
      dsimp only
      intro e he
      obtain ⟨j, g1, g2, g3⟩ := hI.htblAmem e he
      refine ⟨j, by rw [hfa]; exact g1, g2, ?_⟩
      rw [hkeyBeq j (by omega), hmkeyBeq j (by omega)]
      exact g3
    htblAlen := by
      dsimp only
      rw [hfa]
      exact hI.htblAlen
    htblAnd := hI.htblAnd
    hslackA := by
      dsimp only
      rw [hfa]
      exact hI.hslackA }

/-- Any valid delivery to B decrypts correctly and preserves the
invariant: the message is either already in the skipped-key table,
in B's current receive chain, or in A's newest chain. -/
theorem sessionInv_deliverB (P : Prims) (sk : Bytes) (w : Session)
    (hsym : ∀ a b, P.dh a (P.xPub b) = P.dh b (P.xPub a))
    (hdec : ∀ k n p, P.aeadDec k (P.aeadEnc k n p) n = some p)
    (hklen : ∀ ikm info, (P.hkdf ikm info 32).length = 32)
    (hI : SessionInv P sk w) (i : Nat) (fresh : Bytes)
    (hv : ValidEvent P w (.deliverB i fresh)) :
    (ratchetDecrypt P w.stB (w.sentA.getD i dummyMsg).msg fresh).1 =
      .ok (w.sentA.getD i dummyMsg).plaintext ∧
    SessionInv P sk (stepSession P w (.deliverB i fresh)) := by
  obtain ⟨hv1, hv2, hv3, hv4⟩ := hv
  by_cases hin : i < frontierB w
  · exact sessionInv_deliverB_stored P sk w hdec hklen hI i fresh hv1 hv2 hin
  · push_neg at hin
    have hisum : i < w.lensA.sum := by
      rw [← hI.hsA]
      exact hv1
    obtain ⟨hs1, hs2, hs3⟩ := chainPos_spec w.lensA i hisum
    have halen := hI.halen
    have hapos := hI.hapos
    have hbpos := hI.hbpos
    have hge : w.bts.length - 2 ≤ (chainPos w.lensA i).1 := by
      by_contra hlt
      push_neg at hlt
      have hsump : sumTo w.lensA ((chainPos w.lensA i).1 + 1) ≤
          sumTo w.lensA (w.bts.length - 2) :=
        sumTo_mono w.lensA _ _ (by omega)
      have hsucc := sumTo_succ w.lensA (chainPos w.lensA i).1 (by omega)
      have hF : sumTo w.lensA (w.bts.length - 2) ≤ frontierB w := by
        unfold frontierB
        omega
      omega
    have hle : (chainPos w.lensA i).1 ≤ w.als.length - 1 := by omega
    rcases hI.hab with hab | hab
    · by_cases hcr : (chainPos w.lensA i).1 = w.bts.length - 1
      · exact sessionInv_deliverB_ratchet P sk w hsym hdec hklen hI i fresh
          hv1 hv2 hv3 hv4 hin hcr
      · have hk0 : ¬ w.bts.length - 1 = 0 := by omega
        exact sessionInv_deliverB_chain P sk w hdec hklen hI i fresh hv1 hv2
          hv3 hin hk0 (by omega)
    · have hk0 : ¬ w.bts.length - 1 = 0 := by omega
      exact sessionInv_deliverB_chain P sk w hdec hklen hI i fresh hv1 hv2
        hv3 hin hk0 (by omega)

/-- Delivery of a message whose key sits in A's skipped-key table:
the stored key decrypts it and is deleted. -/
theorem sessionInv_deliverA_stored (P : Prims) (sk : Bytes) (w : Session)
    (hdec : ∀ k n p, P.aeadDec k (P.aeadEnc k n p) n = some p)
    (hklen : ∀ ikm info, (P.hkdf ikm info 32).length = 32)
    (hI : SessionInv P sk w) (i : Nat) (fresh : Bytes)
    (hv1 : i < w.sentB.length) (hv2 : i ∉ w.dlvA)
    (hin : i < frontierA w) :
    (ratchetDecrypt P w.stA (w.sentB.getD i dummyMsg).msg fresh).1 =
      .ok (w.sentB.getD i dummyMsg).plaintext ∧
    SessionInv P sk (stepSession P w (.deliverA i fresh)) := by
  have hsB := hI.hsB
  have hisum : i < w.lensB.sum := by
    rw [← hsB]
    exact hv1
  have hfale := frontierA_le P sk w hI
  have hmsg := hI.hmsgB i hv1
  have hh := hmsg.1
  have h24 := hmsg.2.2
  have hkeyid : ((w.sentB.getD i dummyMsg).msg.header.dhPublic,
      (w.sentB.getD i dummyMsg).msg.header.n) =
      skipKeyB P w.bts w.lensB i := by
    rw [hh]
    rfl
  have hget : mapGet w.stA.skippedKeys (skipKeyB P w.bts w.lensB i) =
      some (msgKeyB P sk w.als w.bts w.lensB i) := hI.htblA i hin hv2
  have h32 : (msgKeyB P sk w.als w.bts w.lensB i).length = 32 := by
    unfold msgKeyB
    exact msgKeyAt_length P hklen _ _
  have hdecA : decryptAead P (msgKeyB P sk w.als w.bts w.lensB i)
      (w.sentB.getD i dummyMsg).msg.ciphertext
      (w.sentB.getD i dummyMsg).msg.nonce =
      .ok (w.sentB.getD i dummyMsg).plaintext := by
    rw [hmsg.2.1]
    unfold decryptAead
    rw [if_neg (by omega), if_neg (by omega), hdec]
  have hdecrypt : ratchetDecrypt P w.stA (w.sentB.getD i dummyMsg).msg fresh =
      (.ok (w.sentB.getD i dummyMsg).plaintext,
       { w.stA with skippedKeys :=
                      mapDelete w.stA.skippedKeys
                        (skipKeyB P w.bts w.lensB i) }) := by
    simp only [ratchetDecrypt, hkeyid, hget, hdecA]
  have hw'eq : stepSession P w (.deliverA i fresh) = { w with
      stA := { w.stA with skippedKeys :=
                            mapDelete w.stA.skippedKeys
                              (skipKeyB P w.bts w.lensB i) },
      dlvA := w.dlvA ++ [i] } := by
    simp only [stepSession, hkeyid, hget, hdecrypt, Option.isNone_some,
      Bool.false_and, Bool.false_eq_true, if_false, ite_false]
  have hT : TableInv w.stA.skippedKeys (skipKeyB P w.bts w.lensB)
      (msgKeyB P sk w.als w.bts w.lensB) w.dlvA (frontierA w) :=
    ⟨hI.htblA, hI.htblAmem, hI.htblAlen, hI.htblAnd⟩
  have hinj : ∀ a b, a < frontierA w → b < frontierA w →
      skipKeyB P w.bts w.lensB a = skipKeyB P w.bts w.lensB b → a = b := by
    intro a b ha hb
    exact skipKeyB_inj P sk w hI a b (lt_of_lt_of_le ha hfale)
      (lt_of_lt_of_le hb hfale)
  have hT' := tableInv_delete _ _ _ _ _ hT hinj i hin hv2
  obtain ⟨t1, t2, t3, t4⟩ := hT'
  have hfa : frontierA (stepSession P w (.deliverA i fresh)) =
      frontierA w := by
    rw [hw'eq]
    unfold frontierA
    dsimp only
  have hfb : frontierB (stepSession P w (.deliverA i fresh)) =
      frontierB w := by
    rw [hw'eq]
    unfold frontierB
    dsimp only
  rw [hw'eq] at hfa hfb
  refine ⟨by rw [hdecrypt], ?_⟩
  rw [hw'eq]
  exact {
    halen := hI.halen
    hblen := hI.hblen
    hapos := hI.hapos
    hbpos := hI.hbpos
    hab := hI.hab
    hnodup := hI.hnodup
    hlensB0 := hI.hlensB0
    hAdh := hI.hAdh
    hAsend := hI.hAsend
    hAsn := hI.hAsn
    hApn := hI.hApn
    hAroot := hI.hAroot
    hAmax := hI.hAmax
    hArdh := hI.hArdh
    hArck := hI.hArck
    hArn := hI.hArn
    hBdh := hI.hBdh
    hBsend := hI.hBsend
    hBsn := hI.hBsn
    hBpn := hI.hBpn
    hBroot := hI.hBroot
    hBmax := hI.hBmax
    hBrdh := hI.hBrdh
    hBrck := hI.hBrck
    hBrn := hI.hBrn
    hsA := hI.hsA
    hmsgA := hI.hmsgA
    hsB := hI.hsB
    hmsgB := hI.hmsgB
    hdlvB := by
      dsimp only
      intro j hj
      rw [hfb]
      exact hI.hdlvB j hj
    hdlvBnd := hI.hdlvBnd
    htblB := by
      dsimp only
      intro j h1 h2
      rw [hfb] at h1
      exact hI.htblB j h1 h2
    htblBmem := by
      dsimp only
      intro e he
      obtain ⟨j, g1, g2, g3⟩ := hI.htblBmem e he
      exact ⟨j, by rw [hfb]; exact g1, g2, g3⟩
    htblBlen := by
      dsimp only
      rw [hfb]
      exact hI.htblBlen
    htblBnd := hI.htblBnd
    hslackB := by
      dsimp only
      rw [hfb]
      exact hI.hslackB
    hdlvA := by
      dsimp only
      intro j hj
      rw [hfa]
      rcases List.mem_append.mp hj with hl | hr
      · exact hI.hdlvA j hl
      · have : j = i := by simpa using hr
        rw [this]
        exact hin
    hdlvAnd := by
      dsimp only
      rw [List.nodup_append]
      refine ⟨hI.hdlvAnd, List.nodup_singleton _, ?_⟩
      intro a ha hb
      rw [List.mem_singleton] at hb
      subst hb
      exact hv2 ha
    htblA := by
      dsimp only
      intro j hj
      rw [hfa] at hj
      exact t1 j hj
    htblAmem := by
      dsimp only
      intro e he
      obtain ⟨j, g1, g2, g3⟩ := t2 e he
      exact ⟨j, by rw [hfa]; exact g1, g2, g3⟩
    htblAlen := by
      dsimp only
      rw [hfa]
      exact t3
    htblAnd := t4
    hslackA := by
      dsimp only
      rw [hfa, List.length_append, List.length_singleton]
      have := hI.hslackA
      omega }

/-- Delivery of a not-yet-derived message of A's current receive
chain: the chain is advanced to the message, skipped keys are stored,
and the message key decrypts it. -/
theorem sessionInv_deliverA_chain (P : Prims) (sk : Bytes) (w : Session)
    (hdec : ∀ k n p, P.aeadDec k (P.aeadEnc k n p) n = some p)
    (hklen : ∀ ikm info, (P.hkdf ikm info 32).length = 32)
    (hI : SessionInv P sk w) (i : Nat) (fresh : Bytes)
    (hv1 : i < w.sentB.length) (hv2 : i ∉ w.dlvA)
    (hv3 : i ≤ w.dlvA.length + 1000)
    (hout : frontierA w ≤ i)
    (hk0 : ¬ w.als.length - 1 = 0)
    (hcc0 : (chainPos w.lensB i).1 = w.als.length - 1) :
    (ratchetDecrypt P w.stA (w.sentB.getD i dummyMsg).msg fresh).1 =
      .ok (w.sentB.getD i dummyMsg).plaintext ∧
    SessionInv P sk (stepSession P w (.deliverA i fresh)) := by
  have hsB := hI.hsB
  have hisum : i < w.lensB.sum := by
    rw [← hsB]
    exact hv1
  have hfale := frontierA_le P sk w hI
  have hmsg := hI.hmsgB i hv1
  have hh := hmsg.1
  have h24 := hmsg.2.2
  rcases hcn : chainPos w.lensB i with ⟨c, n⟩
  rw [hcn] at hcc0
  simp only at hcc0
  have hcc : c = w.als.length - 1 := hcc0
  obtain ⟨hs1, hs2, hs3⟩ : c < w.lensB.length ∧ n < w.lensB.getD c 0 ∧
      sumTo w.lensB c + n = i := by
    have h := chainPos_spec w.lensB i hisum
    rw [hcn] at h
    exact h
  rw [hcn] at hh
  simp only at hh
  have hblen := hI.hblen
  have hclt : c < w.bts.length := by omega
  have hrdh : w.stA.dhReceive = some (P.xPub (w.bts.getD c [])) := by
    rw [hI.hArdh, show w.als.length - 1 = c from hcc.symm]
  have hrck : w.stA.receiveChainKey =
      some (chainKeyAt P (chainBA P sk w.als w.bts c) w.stA.receiveN) := by
    rw [hI.hArck, if_neg hk0, show w.als.length - 1 = c from hcc.symm]
  have hFdef : frontierA w = sumTo w.lensB c + w.stA.receiveN := by
    unfold frontierA
    rw [show w.als.length - 1 = c from hcc.symm]
  have hrn_le : w.stA.receiveN ≤ n := by
    rw [hFdef] at hout
    omega
  have hdlv_le : w.dlvA.length ≤ frontierA w := by
    have := hI.htblAlen
    omega
  have hsz : w.stA.skippedKeys.length + (n - w.stA.receiveN) ≤ 1000 := by
    have h3 := hI.htblAlen
    rw [hFdef] at h3
    omega
  have hT : TableInv w.stA.skippedKeys (skipKeyB P w.bts w.lensB)
      (msgKeyB P sk w.als w.bts w.lensB) w.dlvA (frontierA w) :=
    ⟨hI.htblA, hI.htblAmem, hI.htblAlen, hI.htblAnd⟩
  have hkeyid : ((w.sentB.getD i dummyMsg).msg.header.dhPublic,
      (w.sentB.getD i dummyMsg).msg.header.n) =
      skipKeyB P w.bts w.lensB i := by
    rw [hh]
    unfold skipKeyB
    rw [hcn]
  have hpub : (w.sentB.getD i dummyMsg).msg.header.dhPublic =
      P.xPub (w.bts.getD c []) := by
    rw [hh]
  have hnn : (w.sentB.getD i dummyMsg).msg.header.n = n := by
    rw [hh]
  have hnone : mapGet w.stA.skippedKeys (skipKeyB P w.bts w.lensB i) =
      none := by
    apply tableInv_none _ _ _ _ _ hT
    intro j hj1 hj2 hc
    have := skipKeyB_inj P sk w hI j i (lt_of_lt_of_le hj1 hfale) hisum hc
    omega
  have habs : ∀ j, w.stA.receiveN ≤ j →
      mapGet w.stA.skippedKeys (P.xPub (w.bts.getD c []), j) = none := by
    intro j hj
    apply tableInv_none _ _ _ _ _ hT
    intro j' hj1 hj2 hc
    rcases hcn' : chainPos w.lensB j' with ⟨c', n'⟩
    obtain ⟨u1, u2, u3⟩ : c' < w.lensB.length ∧ n' < w.lensB.getD c' 0 ∧
        sumTo w.lensB c' + n' = j' := by
      have h := chainPos_spec w.lensB j' (lt_of_lt_of_le hj1 hfale)
      rw [hcn'] at h
      exact h
    unfold skipKeyB at hc
    rw [hcn'] at hc
    simp only [Prod.mk.injEq] at hc
    obtain ⟨hcp, hcs⟩ := hc
    have hnodB : (w.bts.map P.xPub).Nodup := by
      have h0 := hI.hnodup
      unfold xPubs at h0
      rw [List.map_append] at h0
      exact h0.of_append_right
    have hceq : c' = c := by
      by_contra hne
      exact xPubs_ne P w.bts hnodB c' c (by omega) hclt hne hcp
    rw [hceq] at u3
    rw [hFdef] at hj1
    omega
  have hself : constantTimeEqual (P.xPub (w.bts.getD c []))
      (P.xPub (w.bts.getD c [])) = true := (ctEq_iff _ _).mpr rfl
  have hsl0 := skipLoop_spec P w.stA n
    (chainKeyAt P (chainBA P sk w.als w.bts c) w.stA.receiveN)
    (P.xPub (w.bts.getD c [])) hrck hrdh hrn_le
    (by rw [hI.hAmax]; exact hsz) habs
  rw [chainKeyAt_add,
      show w.stA.receiveN + (n - w.stA.receiveN) = n by omega] at hsl0
  have hentries : (List.range (n - w.stA.receiveN)).map
      (fun t => ((P.xPub (w.bts.getD c []), w.stA.receiveN + t),
        msgKeyAt P (chainKeyAt P (chainBA P sk w.als w.bts c)
          w.stA.receiveN) t)) =
      (List.range (n - w.stA.receiveN)).map (fun t =>
        (skipKeyB P w.bts w.lensB (frontierA w + t),
         msgKeyB P sk w.als w.bts w.lensB (frontierA w + t))) := by
    apply List.map_congr_left
    intro t ht
    rw [List.mem_range] at ht
    have hidx : frontierA w + t = sumTo w.lensB c + (w.stA.receiveN + t) := by
      rw [hFdef]
      omega
    have hpos_t : chainPos w.lensB (frontierA w + t) =
        (c, w.stA.receiveN + t) := by
      rw [hidx]
      exact chainPos_inv w.lensB c (w.stA.receiveN + t) (by omega) (by omega)
    unfold skipKeyB msgKeyB
    rw [hpos_t, msgKeyAt_add]
  rw [hentries] at hsl0
  have hsmk : skipMessageKeys P w.stA n = .ok { w.stA with
      receiveChainKey := some (chainKeyAt P (chainBA P sk w.als w.bts c) n),
      receiveN := n,
      skippedKeys := w.stA.skippedKeys ++
        (List.range (n - w.stA.receiveN)).map (fun t =>
          (skipKeyB P w.bts w.lensB (frontierA w + t),
           msgKeyB P sk w.als w.bts w.lensB (frontierA w + t))) } := by
    unfold skipMessageKeys
    rw [hrck]
    rw [if_neg (by rw [hI.hAmax]; omega)]
    rw [hsl0]
  have hdecA : decryptAead P
      (kdfChain P (chainKeyAt P (chainBA P sk w.als w.bts c) n)).1
      (w.sentB.getD i dummyMsg).msg.ciphertext
      (w.sentB.getD i dummyMsg).msg.nonce =
      .ok (w.sentB.getD i dummyMsg).plaintext := by
    have h1 : (kdfChain P (chainKeyAt P (chainBA P sk w.als w.bts c) n)).1 =
        msgKeyB P sk w.als w.bts w.lensB i := by
      unfold msgKeyB
      rw [hcn]
      rfl
    have h32 : (msgKeyB P sk w.als w.bts w.lensB i).length = 32 := by
      unfold msgKeyB
      exact msgKeyAt_length P hklen _ _
    rw [h1, hmsg.2.1]
    unfold decryptAead
    rw [if_neg (by omega), if_neg (by omega), hdec]
  have hdecrypt : ratchetDecrypt P w.stA (w.sentB.getD i dummyMsg).msg fresh =
      (.ok (w.sentB.getD i dummyMsg).plaintext,
       { w.stA with
         receiveChainKey :=
           some (chainKeyAt P (chainBA P sk w.als w.bts c) (n + 1)),
         receiveN := n + 1,
         skippedKeys := w.stA.skippedKeys ++
           (List.range (n - w.stA.receiveN)).map (fun t =>
             (skipKeyB P w.bts w.lensB (frontierA w + t),
              msgKeyB P sk w.als w.bts w.lensB (frontierA w + t))) }) := by
    have hnone' : mapGet w.stA.skippedKeys
        (P.xPub (w.bts.getD c []), n) = none := by
      have h := hnone
      unfold skipKeyB at h
      rw [hcn] at h
      exact h
    simp only [ratchetDecrypt, hkeyid, hnone, hnone', hrdh, hpub, hself,
      Bool.not_true, Bool.false_eq_true, if_false, ite_false, hnn, hsmk,
      hdecA, chainKeyAt]
  have hratfalse : ((mapGet w.stA.skippedKeys
      ((w.sentB.getD i dummyMsg).msg.header.dhPublic,
       (w.sentB.getD i dummyMsg).msg.header.n)).isNone &&
      (match w.stA.dhReceive with
       | none => true
       | some r =>
         !(constantTimeEqual (w.sentB.getD i dummyMsg).msg.header.dhPublic
           r))) = false := by
    rw [hkeyid, hnone, hrdh, hpub]
    simp only [Option.isNone_none, Bool.true_and, hself, Bool.not_true]
  have hw'eq : stepSession P w (.deliverA i fresh) = { w with
      stA := { w.stA with
        receiveChainKey :=
          some (chainKeyAt P (chainBA P sk w.als w.bts c) (n + 1)),
        receiveN := n + 1,
        skippedKeys := w.stA.skippedKeys ++
          (List.range (n - w.stA.receiveN)).map (fun t =>
            (skipKeyB P w.bts w.lensB (frontierA w + t),
             msgKeyB P sk w.als w.bts w.lensB (frontierA w + t))) },
      dlvA := w.dlvA ++ [i] } := by
    simp only [stepSession, hratfalse, hdecrypt, Bool.false_eq_true, if_false,
      ite_false]
  have hinj : ∀ a b, a < frontierA w + (n - w.stA.receiveN) →
      b < frontierA w + (n - w.stA.receiveN) →
      skipKeyB P w.bts w.lensB a = skipKeyB P w.bts w.lensB b → a = b := by
    intro a b ha hb
    have hFi : frontierA w + (n - w.stA.receiveN) = i := by
      rw [hFdef]
      omega
    exact skipKeyB_inj P sk w hI a b (by omega) (by omega)
  have hT1 := tableInv_append _ _ _ _ _ (n - w.stA.receiveN) hT hinj hI.hdlvA
  have hFi : frontierA w + (n - w.stA.receiveN) = i := by
    rw [hFdef]
    omega
  rw [hFi] at hT1
  have hT2 := tableInv_consume _ _ _ _ _ hT1 (by
    intro j hj
    have := hI.hdlvA j hj
    omega)
  refine ⟨by rw [hdecrypt], ?_⟩
  have hfanew : frontierA (stepSession P w (.deliverA i fresh)) = i + 1 := by
    rw [hw'eq]
    unfold frontierA
    dsimp only
    rw [← hcc]
    omega
  have hfb : frontierB (stepSession P w (.deliverA i fresh)) =
      frontierB w := by
    rw [hw'eq]
    unfold frontierB
    dsimp only
  rw [hw'eq] at hfanew hfb
  obtain ⟨t1, t2, t3, t4⟩ := hT2
  rw [hw'eq]
  exact {
    halen := hI.halen
    hblen := hI.hblen
    hapos := hI.hapos
    hbpos := hI.hbpos
    hab := hI.hab
    hnodup := hI.hnodup
    hlensB0 := hI.hlensB0
    hAdh := hI.hAdh
    hAsend := hI.hAsend
    hAsn := hI.hAsn
    hApn := hI.hApn
    hAroot := hI.hAroot
    hAmax := hI.hAmax
    hArdh := hI.hArdh
    hArck := by
      dsimp only
      rw [if_neg hk0, hcc]
    hArn := by
      dsimp only
      rw [← hcc]
      omega
    hBdh := hI.hBdh
    hBsend := hI.hBsend
    hBsn := hI.hBsn
    hBpn := hI.hBpn
    hBroot := hI.hBroot
    hBmax := hI.hBmax
    hBrdh := hI.hBrdh
    hBrck := hI.hBrck
    hBrn := hI.hBrn
    hsA := hI.hsA
    hmsgA := hI.hmsgA
    hsB := hI.hsB
    hmsgB := hI.hmsgB
    hdlvB := by
      dsimp only
      intro j hj
      rw [hfb]
      exact hI.hdlvB j hj
    hdlvBnd := hI.hdlvBnd
    htblB := by
      dsimp only
      intro j h1 h2
      rw [hfb] at h1
      exact hI.htblB j h1 h2
    htblBmem := by
      dsimp only
      intro e he
      obtain ⟨j, g1, g2, g3⟩ := hI.htblBmem e he
      exact ⟨j, by rw [hfb]; exact g1, g2, g3⟩
    htblBlen := by
      dsimp only
      rw [hfb]
      exact hI.htblBlen
    htblBnd := hI.htblBnd
    hslackB := by
      dsimp only
      rw [hfb]
      exact hI.hslackB
    hdlvA := by
      dsimp only
      intro j hj
      rw [hfanew]
      rcases List.mem_append.mp hj with hl | hr
      · have := hI.hdlvA j hl
        omega
      · have : j = i := by simpa using hr
        omega
    hdlvAnd := by
      dsimp only
      rw [List.nodup_append]
      refine ⟨hI.hdlvAnd, List.nodup_singleton _, ?_⟩
      intro a ha hb
      rw [List.mem_singleton] at hb
      subst hb
      exact hv2 ha
    htblA := by
      dsimp only
      intro j hj hjd
      rw [hfanew] at hj
      exact t1 j hj hjd
    htblAmem := by
      dsimp only
      intro e he
      obtain ⟨j, g1, g2, g3⟩ := t2 e he
      exact ⟨j, by rw [hfanew]; omega, g2, g3⟩
    htblAlen := by
      dsimp only
      rw [hfanew]
      exact t3
    htblAnd := t4
    hslackA := by
      dsimp only
      rw [hfanew, List.length_append, List.length_singleton]
      omega }

/-- Shape of the DH ratchet step A takes on receiving B's chain
`c = als.length` message: the ladder advances by two steps with the
fresh scalar appended to A's list. -/
theorem deliverA_ratchet_step (P : Prims) (sk : Bytes) (w : Session)
    (hsym : ∀ a b, P.dh a (P.xPub b) = P.dh b (P.xPub a))
    (hI : SessionInv P sk w) (fresh : Bytes) (c : Nat)
    (hcc : c = w.als.length) (hcb : c < w.bts.length)
    (dr1 ck1 : Option Bytes) (rn1 : Nat) (tbl1 : List (SkipKey × Bytes)) :
    dhRatchetStep P
      { w.stA with
        dhReceive := dr1, receiveChainKey := ck1, receiveN := rn1,
        skippedKeys := tbl1 }
      (P.xPub (w.bts.getD c [])) fresh =
      { w.stA with
        previousSendN := w.stA.sendN, sendN := 0, receiveN := 0,
        dhReceive := some (P.xPub (w.bts.getD c [])),
        rootKey := rootAt P sk (w.als ++ [fresh]) w.bts (2 * c + 1),
        receiveChainKey := some (chainBA P sk (w.als ++ [fresh]) w.bts c),
        dhSend := ⟨P.xPub fresh, fresh⟩,
        sendChainKey := some (chainAB P sk (w.als ++ [fresh]) w.bts c),
        skippedKeys := tbl1 } := by
  have hapos := hI.hapos
  obtain ⟨d, hd⟩ : ∃ d, 2 * c = d + 1 := ⟨2 * c - 1, by omega⟩
  have hdh1 : P.dh w.stA.dhSend.privateKey (P.xPub (w.bts.getD c [])) =
      dhAt P (w.als ++ [fresh]) w.bts d := by
    rw [hI.hAdh]
    dsimp only
    rw [show w.als.length - 1 = c - 1 by omega, hsym]
    unfold dhAt
    rw [if_neg (show ¬ d % 2 = 0 by omega),
        show d / 2 = c - 1 by omega,
        show c - 1 + 1 = c by omega,
        List.getD_append _ _ _ _ (show c - 1 < w.als.length by omega)]
  have hroot0 : w.stA.rootKey =
      rootAt P sk (w.als ++ [fresh]) w.bts d := by
    rw [hI.hAroot, show 2 * (w.als.length - 1) + 1 = d by omega]
    exact (rootAt_snoc_a P sk w.als w.bts fresh d (by omega)
      (by omega)).symm
  have hdharg2 : P.dh fresh (P.xPub (w.bts.getD c [])) =
      dhAt P (w.als ++ [fresh]) w.bts (d + 1) := by
    have hgetf : (w.als ++ [fresh]).getD c [] = fresh := by
      rw [show c = w.als.length from hcc]
      exact getD_concat_length _ _ _
    unfold dhAt
    rw [if_pos (show (d + 1) % 2 = 0 by omega),
        show (d + 1) / 2 = c by omega, hgetf]
  have hcb1 : chainBA P sk (w.als ++ [fresh]) w.bts c =
      (kdfRootKey P (rootAt P sk (w.als ++ [fresh]) w.bts d)
        (dhAt P (w.als ++ [fresh]) w.bts d)).2 := by
    unfold chainBA
    rw [show 2 * c - 1 = d by omega]
  have hca1 : chainAB P sk (w.als ++ [fresh]) w.bts c =
      (kdfRootKey P (rootAt P sk (w.als ++ [fresh]) w.bts (d + 1))
        (dhAt P (w.als ++ [fresh]) w.bts (d + 1))).2 := by
    unfold chainAB
    rw [show 2 * c = d + 1 from hd]
  rw [dhRatchetStep_eq]
  dsimp only
  rw [hroot0, hdh1, hdharg2, hcb1, hca1,
      show (2 : Nat) * c + 1 = d + 2 by omega]
  rfl

/-- After A's DH ratchet step for B's chain `c = als.length`, the skip
into the new chain and the final key derivation succeed, the derived
key decrypts the message, and the table tracks the new frontier
`i + 1`. -/
theorem deliverA_ratchet_tail (P : Prims) (sk : Bytes) (w : Session)
    (hdec : ∀ k n p, P.aeadDec k (P.aeadEnc k n p) n = some p)
    (hklen : ∀ ikm info, (P.hkdf ikm info 32).length = 32)
    (hI : SessionInv P sk w) (i : Nat) (fresh : Bytes) (c n : Nat)
    (hcn : chainPos w.lensB i = (c, n))
    (hv1 : i < w.sentB.length) (hv2 : i ∉ w.dlvA)
    (hv3 : i ≤ w.dlvA.length + 1000)
    (hcc : c = w.als.length)
    (tbl1 : List (SkipKey × Bytes))
    (hT1 : TableInv tbl1 (skipKeyB P w.bts w.lensB)
      (msgKeyB P sk w.als w.bts w.lensB) w.dlvA (sumTo w.lensB c)) :
    skipMessageKeys P
      { w.stA with
        previousSendN := w.stA.sendN, sendN := 0, receiveN := 0,
        dhReceive := some (P.xPub (w.bts.getD c [])),
        rootKey := rootAt P sk (w.als ++ [fresh]) w.bts (2 * c + 1),
        receiveChainKey := some (chainBA P sk (w.als ++ [fresh]) w.bts c),
        dhSend := ⟨P.xPub fresh, fresh⟩,
        sendChainKey := some (chainAB P sk (w.als ++ [fresh]) w.bts c),
        skippedKeys := tbl1 } n =
      .ok { w.stA with
        previousSendN := w.stA.sendN, sendN := 0, receiveN := n,
        dhReceive := some (P.xPub (w.bts.getD c [])),
        rootKey := rootAt P sk (w.als ++ [fresh]) w.bts (2 * c + 1),
        receiveChainKey := some (chainKeyAt P
          (chainBA P sk (w.als ++ [fresh]) w.bts c) n),
        dhSend := ⟨P.xPub fresh, fresh⟩,
        sendChainKey := some (chainAB P sk (w.als ++ [fresh]) w.bts c),
        skippedKeys := tbl1 ++ (List.range n).map (fun t =>
          (skipKeyB P w.bts w.lensB (sumTo w.lensB c + t),
           msgKeyB P sk w.als w.bts w.lensB (sumTo w.lensB c + t))) } ∧
    decryptAead P
      (kdfChain P (chainKeyAt P
        (chainBA P sk (w.als ++ [fresh]) w.bts c) n)).1
      (w.sentB.getD i dummyMsg).msg.ciphertext
      (w.sentB.getD i dummyMsg).msg.nonce =
      .ok (w.sentB.getD i dummyMsg).plaintext ∧
    TableInv (tbl1 ++ (List.range n).map (fun t =>
        (skipKeyB P w.bts w.lensB (sumTo w.lensB c + t),
         msgKeyB P sk w.als w.bts w.lensB (sumTo w.lensB c + t))))
      (skipKeyB P w.bts w.lensB) (msgKeyB P sk w.als w.bts w.lensB)
      (w.dlvA ++ [i]) (i + 1) := by
  have hblen := hI.hblen
  have hapos := hI.hapos
  have hisum : i < w.lensB.sum := by
    rw [← hI.hsB]
    exact hv1
  obtain ⟨hs1, hs2, hs3⟩ : c < w.lensB.length ∧ n < w.lensB.getD c 0 ∧
      sumTo w.lensB c + n = i := by
    have h := chainPos_spec w.lensB i hisum
    rw [hcn] at h
    exact h
  have hcb : c < w.bts.length := by omega
  have hcal : 1 ≤ c := by omega
  have hnodB : (w.bts.map P.xPub).Nodup := by
    have h0 := hI.hnodup
    unfold xPubs at h0
    rw [List.map_append] at h0
    exact h0.of_append_right
  have hlen1 : tbl1.length + w.dlvA.length = sumTo w.lensB c := hT1.2.2.1
  have hsz2 : tbl1.length + n ≤ 1000 := by omega
  have habs2 : ∀ j, mapGet tbl1 (P.xPub (w.bts.getD c []), j) = none := by
    intro j
    apply tableInv_none _ _ _ _ _ hT1
    intro j' hj1 hj2 hc
    rcases hcn' : chainPos w.lensB j' with ⟨c', n'⟩
    have hj1s : j' < w.lensB.sum :=
      lt_of_lt_of_le hj1 (sumTo_le_sum _ _)
    obtain ⟨u1, u2, u3⟩ : c' < w.lensB.length ∧ n' < w.lensB.getD c' 0 ∧
        sumTo w.lensB c' + n' = j' := by
      have h := chainPos_spec w.lensB j' hj1s
      rw [hcn'] at h
      exact h
    unfold skipKeyB at hc
    rw [hcn'] at hc
    simp only [Prod.mk.injEq] at hc
    have hceq : c' = c := by
      by_contra hne
      exact xPubs_ne P w.bts hnodB c' c (by omega) hcb hne hc.1
    rw [hceq] at u3
    omega
  have hsl2 := skipLoop_spec P
    { w.stA with
      previousSendN := w.stA.sendN, sendN := 0, receiveN := 0,
      dhReceive := some (P.xPub (w.bts.getD c [])),
      rootKey := rootAt P sk (w.als ++ [fresh]) w.bts (2 * c + 1),
      receiveChainKey := some (chainBA P sk (w.als ++ [fresh]) w.bts c),
      dhSend := ⟨P.xPub fresh, fresh⟩,
      sendChainKey := some (chainAB P sk (w.als ++ [fresh]) w.bts c),
      skippedKeys := tbl1 } n
    (chainBA P sk (w.als ++ [fresh]) w.bts c) (P.xPub (w.bts.getD c []))
    rfl rfl (Nat.zero_le n)
    (by
      show tbl1.length + (n - 0) ≤ w.stA.maxSkip
      rw [hI.hAmax]
      omega)
    (fun j _ => habs2 j)
  simp only [Nat.sub_zero, Nat.zero_add] at hsl2
  have hentries : (List.range n).map
      (fun t => ((P.xPub (w.bts.getD c []), t),
        msgKeyAt P (chainBA P sk (w.als ++ [fresh]) w.bts c) t)) =
      (List.range n).map (fun t =>
        (skipKeyB P w.bts w.lensB (sumTo w.lensB c + t),
         msgKeyB P sk w.als w.bts w.lensB (sumTo w.lensB c + t))) := by
    apply List.map_congr_left
    intro t ht
    rw [List.mem_range] at ht
    have hpos_t : chainPos w.lensB (sumTo w.lensB c + t) = (c, t) :=
      chainPos_inv w.lensB c t (by omega) (by omega)
    unfold skipKeyB msgKeyB
    rw [hpos_t]
    dsimp only
    rw [chainBA_snoc_a P sk w.als w.bts fresh c hcal (by omega) hcb]
  rw [hentries] at hsl2
  refine ⟨?_, ?_, ?_⟩
  · unfold skipMessageKeys
    dsimp only
    rw [if_neg (show ¬ 0 + w.stA.maxSkip < n from by
      rw [hI.hAmax]
      omega)]
    rw [hsl2]
  · have h1 : (kdfChain P (chainKeyAt P
        (chainBA P sk (w.als ++ [fresh]) w.bts c) n)).1 =
        msgKeyB P sk w.als w.bts w.lensB i := by
      unfold msgKeyB
      rw [hcn]
      dsimp only
      rw [chainBA_snoc_a P sk w.als w.bts fresh c hcal (by omega) hcb]
      rfl
    have hmsg := hI.hmsgB i hv1
    have h24 := hmsg.2.2
    have h32 : (msgKeyB P sk w.als w.bts w.lensB i).length = 32 := by
      unfold msgKeyB
      exact msgKeyAt_length P hklen _ _
    rw [h1, hmsg.2.1]
    unfold decryptAead
    rw [if_neg (by omega), if_neg (by omega), hdec]
  · have hinj2 : ∀ a b, a < sumTo w.lensB c + n → b < sumTo w.lensB c + n →
        skipKeyB P w.bts w.lensB a = skipKeyB P w.bts w.lensB b → a = b := by
      intro a b ha hb
      exact skipKeyB_inj P sk w hI a b (by omega) (by omega)
    have hFle : frontierA w ≤ sumTo w.lensB c := by
      unfold frontierA
      have h := hI.hArn
      rw [show w.als.length - 1 = c - 1 by omega] at h
      rw [show w.als.length - 1 = c - 1 by omega]
      have h3 := sumTo_succ w.lensB (c - 1) (by omega)
      rw [show c - 1 + 1 = c by omega] at h3
      omega
    have hdlv2 : ∀ j ∈ w.dlvA, j < sumTo w.lensB c := by
      intro j hj
      exact lt_of_lt_of_le (hI.hdlvA j hj) hFle
    have hT2 := tableInv_append _ _ _ _ _ n hT1 hinj2 hdlv2
    have hT3 := tableInv_consume _ _ _ _ _ hT2 (by
      intro j hj
      have := hdlv2 j hj
      omega)
    rw [hs3] at hT3
    exact hT3

/-- Delivery of a message of B's newest chain `als.length`, which A
has not yet ratcheted into: A skips out the old receive chain,
performs the DH ratchet step with the fresh scalar, skips into the new
chain, and the derived key decrypts the message. -/
theorem sessionInv_deliverA_ratchet (P : Prims) (sk : Bytes) (w : Session)
    (hsym : ∀ a b, P.dh a (P.xPub b) = P.dh b (P.xPub a))
    (hdec : ∀ k n p, P.aeadDec k (P.aeadEnc k n p) n = some p)
    (hklen : ∀ ikm info, (P.hkdf ikm info 32).length = 32)
    (hI : SessionInv P sk w) (i : Nat) (fresh : Bytes)
    (hv1 : i < w.sentB.length) (hv2 : i ∉ w.dlvA)
    (hv3 : i ≤ w.dlvA.length + 1000)
    (hv4 : P.xPub fresh ∉ xPubs P (w.als ++ w.bts))
    (hout : frontierA w ≤ i)
    (hcr0 : (chainPos w.lensB i).1 = w.als.length) :
    (ratchetDecrypt P w.stA (w.sentB.getD i dummyMsg).msg fresh).1 =
      .ok (w.sentB.getD i dummyMsg).plaintext ∧
    SessionInv P sk (stepSession P w (.deliverA i fresh)) := by
  have hsB := hI.hsB
  have hisum : i < w.lensB.sum := by
    rw [← hsB]
    exact hv1
  have hfale := frontierA_le P sk w hI
  have hfble := frontierB_le P sk w hI
  have hmsg := hI.hmsgB i hv1
  have hh := hmsg.1
  have h24 := hmsg.2.2
  rcases hcn : chainPos w.lensB i with ⟨c, n⟩
  rw [hcn] at hcr0
  simp only at hcr0
  have hcc : c = w.als.length := hcr0
  obtain ⟨hs1, hs2, hs3⟩ : c < w.lensB.length ∧ n < w.lensB.getD c 0 ∧
      sumTo w.lensB c + n = i := by
    have h := chainPos_spec w.lensB i hisum
    rw [hcn] at h
    exact h
  rw [hcn] at hh
  simp only at hh
  have halen := hI.halen
  have hblen := hI.hblen
  have hapos := hI.hapos
  have hbpos := hI.hbpos
  have hcb : c < w.bts.length := by omega
  have hc1 : 1 ≤ c := by omega
  have hbeq : w.bts.length = w.als.length + 1 := by
    rcases hI.hab with h | h <;> omega
  have hnodB : (w.bts.map P.xPub).Nodup := by
    have h0 := hI.hnodup
    unfold xPubs at h0
    rw [List.map_append] at h0
    exact h0.of_append_right
  have hkeyid : ((w.sentB.getD i dummyMsg).msg.header.dhPublic,
      (w.sentB.getD i dummyMsg).msg.header.n) =
      skipKeyB P w.bts w.lensB i := by
    rw [hh]
    unfold skipKeyB
    rw [hcn]
  have hpub : (w.sentB.getD i dummyMsg).msg.header.dhPublic =
      P.xPub (w.bts.getD c []) := by
    rw [hh]
  have hnn : (w.sentB.getD i dummyMsg).msg.header.n = n := by
    rw [hh]
  have hpn : (w.sentB.getD i dummyMsg).msg.header.pn =
      w.lensB.getD (c - 1) 0 := by
    rw [hh]
  have hT : TableInv w.stA.skippedKeys (skipKeyB P w.bts w.lensB)
      (msgKeyB P sk w.als w.bts w.lensB) w.dlvA (frontierA w) :=
    ⟨hI.htblA, hI.htblAmem, hI.htblAlen, hI.htblAnd⟩
  have hnone : mapGet w.stA.skippedKeys (skipKeyB P w.bts w.lensB i) =
      none := by
    apply tableInv_none _ _ _ _ _ hT
    intro j hj1 hj2 hc
    have := skipKeyB_inj P sk w hI j i (lt_of_lt_of_le hj1 hfale) hisum hc
    omega
  have hnone' : mapGet w.stA.skippedKeys
      (P.xPub (w.bts.getD c []), n) = none := by
    have h := hnone
    unfold skipKeyB at h
    rw [hcn] at h
    exact h
  have hrdh1 : w.stA.dhReceive =
      some (P.xPub (w.bts.getD (c - 1) [])) := by
    rw [hI.hArdh, show w.als.length - 1 = c - 1 by omega]
  have hctne : constantTimeEqual (P.xPub (w.bts.getD c []))
      (P.xPub (w.bts.getD (c - 1) [])) = false := by
    have hne : P.xPub (w.bts.getD c []) ≠
        P.xPub (w.bts.getD (c - 1) []) :=
      xPubs_ne P w.bts hnodB c (c - 1) hcb (by omega) (by omega)
    cases hq : constantTimeEqual (P.xPub (w.bts.getD c []))
        (P.xPub (w.bts.getD (c - 1) []))
    · rfl
    · exact absurd ((ctEq_iff _ _).mp hq) hne
  obtain ⟨tbl1, hdecrypt, hrat, hTfin⟩ :
      ∃ tbl1,
        ratchetDecrypt P w.stA (w.sentB.getD i dummyMsg).msg fresh =
          (.ok (w.sentB.getD i dummyMsg).plaintext,
           { w.stA with
             previousSendN := w.stA.sendN, sendN := 0, receiveN := n + 1,
             dhReceive := some (P.xPub (w.bts.getD c [])),
             rootKey := rootAt P sk (w.als ++ [fresh]) w.bts (2 * c + 1),
             receiveChainKey := some (chainKeyAt P
               (chainBA P sk (w.als ++ [fresh]) w.bts c) (n + 1)),
             dhSend := ⟨P.xPub fresh, fresh⟩,
             sendChainKey := some
               (chainAB P sk (w.als ++ [fresh]) w.bts c),
             skippedKeys := tbl1 ++ (List.range n).map (fun t =>
               (skipKeyB P w.bts w.lensB (sumTo w.lensB c + t),
                msgKeyB P sk w.als w.bts w.lensB (sumTo w.lensB c + t))) }) ∧
        ((mapGet w.stA.skippedKeys
            ((w.sentB.getD i dummyMsg).msg.header.dhPublic,
             (w.sentB.getD i dummyMsg).msg.header.n)).isNone &&
          (match w.stA.dhReceive with
           | none => true
           | some r =>
             !(constantTimeEqual
               (w.sentB.getD i dummyMsg).msg.header.dhPublic r))) = true ∧
        TableInv (tbl1 ++ (List.range n).map (fun t =>
            (skipKeyB P w.bts w.lensB (sumTo w.lensB c + t),
             msgKeyB P sk w.als w.bts w.lensB (sumTo w.lensB c + t))))
          (skipKeyB P w.bts w.lensB) (msgKeyB P sk w.als w.bts w.lensB)
          (w.dlvA ++ [i]) (i + 1) := by
    by_cases hk0 : w.als.length - 1 = 0
    · have hrck0 : w.stA.receiveChainKey = none := by
        rw [hI.hArck, if_pos hk0]
      have hsmk1 : skipMessageKeys P w.stA (w.lensB.getD (c - 1) 0) =
          .ok w.stA := by
        unfold skipMessageKeys
        rw [hrck0]
      have hF0 : frontierA w = sumTo w.lensB c := by
        have h := hI.hArn
        rw [show w.als.length - 1 = 0 from hk0, hI.hlensB0] at h
        unfold frontierA
        rw [show w.als.length - 1 = 0 from hk0]
        rw [show c = 0 + 1 by omega, sumTo_succ w.lensB 0 (by omega),
            hI.hlensB0]
        omega
      have hT1 : TableInv w.stA.skippedKeys (skipKeyB P w.bts w.lensB)
          (msgKeyB P sk w.als w.bts w.lensB) w.dlvA (sumTo w.lensB c) := by
        rw [← hF0]
        exact hT
      obtain ⟨hsmk2, hdecA2, hT3⟩ := deliverA_ratchet_tail P sk w hdec hklen
        hI i fresh c n hcn hv1 hv2 hv3 hcc w.stA.skippedKeys hT1
      have hdh2 : dhRatchetStep P w.stA (P.xPub (w.bts.getD c [])) fresh =
          { w.stA with
            previousSendN := w.stA.sendN, sendN := 0, receiveN := 0,
            dhReceive := some (P.xPub (w.bts.getD c [])),
            rootKey := rootAt P sk (w.als ++ [fresh]) w.bts (2 * c + 1),
            receiveChainKey :=
              some (chainBA P sk (w.als ++ [fresh]) w.bts c),
            dhSend := ⟨P.xPub fresh, fresh⟩,
            sendChainKey :=
              some (chainAB P sk (w.als ++ [fresh]) w.bts c),
            skippedKeys := w.stA.skippedKeys } := by
        exact deliverA_ratchet_step P sk w hsym hI fresh c hcc hcb
          w.stA.dhReceive w.stA.receiveChainKey w.stA.receiveN
          w.stA.skippedKeys
      refine ⟨w.stA.skippedKeys, ?_, ?_, hT3⟩
      · simp only [ratchetDecrypt, hkeyid, hnone, hnone', hrdh1, hpub, hnn,
          hpn, hctne, Bool.not_false, hsmk1, hdh2, hsmk2, hdecA2,
          eq_self_iff_true, if_true, ite_true, chainKeyAt]
      · rw [hkeyid, hnone, hpub, hrdh1]
        simp only [Option.isNone_none, Bool.true_and, hctne, Bool.not_false]
    · have hrck1 : w.stA.receiveChainKey =
          some (chainKeyAt P (chainBA P sk w.als w.bts (c - 1))
            w.stA.receiveN) := by
        rw [hI.hArck, if_neg hk0, show w.als.length - 1 = c - 1 by omega]
      have hrn1 : w.stA.receiveN ≤ w.lensB.getD (c - 1) 0 := by
        have h := hI.hArn
        rw [show w.als.length - 1 = c - 1 by omega] at h
        exact h
      have hFdef1 : frontierA w =
          sumTo w.lensB (c - 1) + w.stA.receiveN := by
        unfold frontierA
        rw [show w.als.length - 1 = c - 1 by omega]
      have hsumc : sumTo w.lensB c =
          sumTo w.lensB (c - 1) + w.lensB.getD (c - 1) 0 := by
        have h := sumTo_succ w.lensB (c - 1) (by omega)
        rw [show c - 1 + 1 = c by omega] at h
        exact h
      have hdlv_le : w.dlvA.length ≤ frontierA w := by
        have := hI.htblAlen
        omega
      have hsz1 : w.stA.skippedKeys.length +
          (w.lensB.getD (c - 1) 0 - w.stA.receiveN) ≤ 1000 := by
        have h3 := hI.htblAlen
        omega
      have hnothrow : ¬ (w.stA.receiveN + 1000 <
          w.lensB.getD (c - 1) 0) := by
        omega
      have habs1 : ∀ j, w.stA.receiveN ≤ j →
          mapGet w.stA.skippedKeys
            (P.xPub (w.bts.getD (c - 1) []), j) = none := by
        intro j hj
        apply tableInv_none _ _ _ _ _ hT
        intro j' hj1 hj2 hc
        rcases hcn' : chainPos w.lensB j' with ⟨c', n'⟩
        obtain ⟨u1, u2, u3⟩ : c' < w.lensB.length ∧
            n' < w.lensB.getD c' 0 ∧ sumTo w.lensB c' + n' = j' := by
          have h := chainPos_spec w.lensB j' (lt_of_lt_of_le hj1 hfale)
          rw [hcn'] at h
          exact h
        unfold skipKeyB at hc
        rw [hcn'] at hc
        simp only [Prod.mk.injEq] at hc
        obtain ⟨hcp, hcs⟩ := hc
        have hceq : c' = c - 1 := by
          by_contra hne
          exact xPubs_ne P w.bts hnodB c' (c - 1) (by omega) (by omega)
            hne hcp
        rw [hceq] at u3
        omega
      have hsl1 := skipLoop_spec P w.stA (w.lensB.getD (c - 1) 0)
        (chainKeyAt P (chainBA P sk w.als w.bts (c - 1)) w.stA.receiveN)
        (P.xPub (w.bts.getD (c - 1) []))
        hrck1 hrdh1 hrn1
        (by
          rw [hI.hAmax]
          exact hsz1)
        habs1
      rw [chainKeyAt_add, show w.stA.receiveN +
        (w.lensB.getD (c - 1) 0 - w.stA.receiveN) =
        w.lensB.getD (c - 1) 0 by omega] at hsl1
      have hentries1 : (List.range
          (w.lensB.getD (c - 1) 0 - w.stA.receiveN)).map
          (fun t => ((P.xPub (w.bts.getD (c - 1) []),
              w.stA.receiveN + t),
            msgKeyAt P (chainKeyAt P (chainBA P sk w.als w.bts (c - 1))
              w.stA.receiveN) t)) =
          (List.range (w.lensB.getD (c - 1) 0 - w.stA.receiveN)).map
          (fun t => (skipKeyB P w.bts w.lensB (frontierA w + t),
            msgKeyB P sk w.als w.bts w.lensB (frontierA w + t))) := by
        apply List.map_congr_left
        intro t ht
        rw [List.mem_range] at ht
        have hidx : frontierA w + t =
            sumTo w.lensB (c - 1) + (w.stA.receiveN + t) := by
          rw [hFdef1]
          omega
        have hpos_t : chainPos w.lensB (frontierA w + t) =
            (c - 1, w.stA.receiveN + t) := by
          rw [hidx]
          exact chainPos_inv w.lensB (c - 1) (w.stA.receiveN + t)
            (by omega) (by omega)
        unfold skipKeyB msgKeyB
        rw [hpos_t, msgKeyAt_add]
      rw [hentries1] at hsl1
      have hsmk1 : skipMessageKeys P w.stA (w.lensB.getD (c - 1) 0) =
          .ok { w.stA with
            receiveChainKey := some (chainKeyAt P
              (chainBA P sk w.als w.bts (c - 1))
              (w.lensB.getD (c - 1) 0)),
            receiveN := w.lensB.getD (c - 1) 0,
            skippedKeys := w.stA.skippedKeys ++
              (List.range (w.lensB.getD (c - 1) 0 - w.stA.receiveN)).map
                (fun t => (skipKeyB P w.bts w.lensB (frontierA w + t),
                  msgKeyB P sk w.als w.bts w.lensB (frontierA w + t))) } := by
        unfold skipMessageKeys
        rw [hrck1, if_neg (show ¬ w.stA.receiveN + w.stA.maxSkip <
          w.lensB.getD (c - 1) 0 from by
            rw [hI.hAmax]
            exact hnothrow), hsl1]
      have hinj1 : ∀ a b,
          a < frontierA w + (w.lensB.getD (c - 1) 0 - w.stA.receiveN) →
          b < frontierA w + (w.lensB.getD (c - 1) 0 - w.stA.receiveN) →
          skipKeyB P w.bts w.lensB a = skipKeyB P w.bts w.lensB b →
          a = b := by
        intro a b ha hb
        exact skipKeyB_inj P sk w hI a b (by omega) (by omega)
      have hT1 := tableInv_append _ _ _ _ _
        (w.lensB.getD (c - 1) 0 - w.stA.receiveN) hT hinj1 hI.hdlvA
      have hmid : frontierA w +
          (w.lensB.getD (c - 1) 0 - w.stA.receiveN) = sumTo w.lensB c := by
        omega
      rw [hmid] at hT1
      obtain ⟨hsmk2, hdecA2, hT3⟩ := deliverA_ratchet_tail P sk w hdec hklen
        hI i fresh c n hcn hv1 hv2 hv3 hcc
        (w.stA.skippedKeys ++
          (List.range (w.lensB.getD (c - 1) 0 - w.stA.receiveN)).map
            (fun t => (skipKeyB P w.bts w.lensB (frontierA w + t),
              msgKeyB P sk w.als w.bts w.lensB (frontierA w + t)))) hT1
      have hdh2 := deliverA_ratchet_step P sk w hsym hI fresh c hcc hcb
        (some (P.xPub (w.bts.getD (c - 1) [])))
        (some (chainKeyAt P (chainBA P sk w.als w.bts (c - 1))
          (w.lensB.getD (c - 1) 0)))
        (w.lensB.getD (c - 1) 0)
        (w.stA.skippedKeys ++
          (List.range (w.lensB.getD (c - 1) 0 - w.stA.receiveN)).map
            (fun t => (skipKeyB P w.bts w.lensB (frontierA w + t),
              msgKeyB P sk w.als w.bts w.lensB (frontierA w + t))))
      refine ⟨w.stA.skippedKeys ++
        (List.range (w.lensB.getD (c - 1) 0 - w.stA.receiveN)).map
          (fun t => (skipKeyB P w.bts w.lensB (frontierA w + t),
            msgKeyB P sk w.als w.bts w.lensB (frontierA w + t))),
        ?_, ?_, hT3⟩
      · simp only [ratchetDecrypt, hkeyid, hnone, hnone', hrdh1, hpub, hnn,
          hpn, hctne, Bool.not_false, hsmk1, hdh2, hsmk2, hdecA2,
          eq_self_iff_true, if_true, ite_true, chainKeyAt]
      · rw [hkeyid, hnone, hpub, hrdh1]
        simp only [Option.isNone_none, Bool.true_and, hctne, Bool.not_false]
  have hw'eq : stepSession P w (.deliverA i fresh) = { w with
      stA := { w.stA with
        previousSendN := w.stA.sendN, sendN := 0, receiveN := n + 1,
        dhReceive := some (P.xPub (w.bts.getD c [])),
        rootKey := rootAt P sk (w.als ++ [fresh]) w.bts (2 * c + 1),
        receiveChainKey := some (chainKeyAt P
          (chainBA P sk (w.als ++ [fresh]) w.bts c) (n + 1)),
        dhSend := ⟨P.xPub fresh, fresh⟩,
        sendChainKey := some (chainAB P sk (w.als ++ [fresh]) w.bts c),
        skippedKeys := tbl1 ++ (List.range n).map (fun t =>
          (skipKeyB P w.bts w.lensB (sumTo w.lensB c + t),
           msgKeyB P sk w.als w.bts w.lensB (sumTo w.lensB c + t))) },
      dlvA := w.dlvA ++ [i],
      als := w.als ++ [fresh],
      lensA := w.lensA ++ [0] } := by
    simp only [stepSession, hrat, hdecrypt, eq_self_iff_true, if_true,
      ite_true]
  have hga1 : (w.als ++ [fresh]).length = w.als.length + 1 := by
    rw [List.length_append, List.length_singleton]
  have hgla1 : (w.lensA ++ [0]).length = w.lensA.length + 1 := by
    rw [List.length_append, List.length_singleton]
  have hfanew : frontierA (stepSession P w (.deliverA i fresh)) = i + 1 := by
    rw [hw'eq]
    unfold frontierA
    dsimp only
    rw [hga1, show w.als.length + 1 - 1 = c by omega]
    omega
  have hfb : frontierB (stepSession P w (.deliverA i fresh)) =
      frontierB w := by
    rw [hw'eq]
    unfold frontierB
    dsimp only
    rw [sumTo_append _ _ _ (by omega)]
  rw [hw'eq] at hfanew hfb
  obtain ⟨t1, t2, t3, t4⟩ := hTfin
  have hmkeyBeqA : ∀ j, j < w.lensB.sum →
      msgKeyB P sk (w.als ++ [fresh]) w.bts w.lensB j =
        msgKeyB P sk w.als w.bts w.lensB j := by
    intro j hj
    obtain ⟨q1, q2, q3⟩ := chainPos_spec w.lensB j hj
    have hpos1 := chainPos_fst_pos w.lensB hI.hlensB0 j hj
    unfold msgKeyB
    rw [chainBA_snoc_a P sk w.als w.bts fresh _ (by omega) (by omega)
      (by omega)]
  have hkeyAeq : ∀ j, j < w.lensA.sum →
      skipKeyA P (w.als ++ [fresh]) (w.lensA ++ [0]) j =
        skipKeyA P w.als w.lensA j := by
    intro j hj
    obtain ⟨q1, q2, q3⟩ := chainPos_spec w.lensA j hj
    unfold skipKeyA
    rw [chainPos_append w.lensA 0 j hj]
    rw [List.getD_append _ _ _ _
      (show (chainPos w.lensA j).1 < w.als.length by omega)]
  have hmkeyAeq : ∀ j, j < w.lensA.sum →
      msgKeyA P sk (w.als ++ [fresh]) w.bts (w.lensA ++ [0]) j =
        msgKeyA P sk w.als w.bts w.lensA j := by
    intro j hj
    obtain ⟨q1, q2, q3⟩ := chainPos_spec w.lensA j hj
    unfold msgKeyA
    rw [chainPos_append w.lensA 0 j hj]
    rw [chainAB_snoc_a P sk w.als w.bts fresh _ (by omega) (by omega)]
  refine ⟨by rw [hdecrypt], ?_⟩
  rw [hw'eq]
  exact {
    halen := by
      dsimp only
      rw [hga1, hgla1]
      omega
    hblen := hI.hblen
    hapos := by
      dsimp only
      rw [hga1]
      omega
    hbpos := hI.hbpos
    hab := by
      dsimp only
      refine Or.inl ?_
      rw [hga1]
      omega
    hnodup := by
      dsimp only
      exact nodup_snoc_pubs_a P w.als w.bts fresh hI.hnodup hv4
    hlensB0 := hI.hlensB0
    hAdh := by
      dsimp only
      rw [hga1, show w.als.length + 1 - 1 = w.als.length by omega,
          getD_concat_length]
    hAsend := by
      dsimp only
      have hz : (w.lensA ++ [0]).getD w.als.length 0 = 0 := by
        rw [halen]
        exact getD_concat_length _ _ _
      rw [hga1, show w.als.length + 1 - 1 = w.als.length by omega]
      rw [hz]
      rw [show w.als.length = c from hcc.symm]
      rfl
    hAsn := by
      dsimp only
      have hz : (w.lensA ++ [0]).getD w.als.length 0 = 0 := by
        rw [halen]
        exact getD_concat_length _ _ _
      rw [hga1, show w.als.length + 1 - 1 = w.als.length by omega]
      rw [hz]
    hApn := by
      dsimp only
      rw [hga1, if_neg (show ¬ w.als.length + 1 - 1 = 0 by omega),
          show w.als.length + 1 - 2 = w.als.length - 1 by omega,
          List.getD_append _ _ _ _
            (show w.als.length - 1 < w.lensA.length by omega)]
      exact hI.hAsn
    hAroot := by
      dsimp only
      rw [hga1, show w.als.length + 1 - 1 = w.als.length by omega,
          show 2 * w.als.length + 1 = 2 * c + 1 by omega]
    hAmax := hI.hAmax
    hArdh := by
      dsimp only
      rw [hga1, show w.als.length + 1 - 1 = c by omega]
    hArck := by
      dsimp only
      rw [hga1, if_neg (show ¬ w.als.length + 1 - 1 = 0 by omega),
          show w.als.length + 1 - 1 = c by omega]
    hArn := by
      dsimp only
      rw [hga1, show w.als.length + 1 - 1 = c by omega]
      omega
    hBdh := hI.hBdh
    hBsend := by
      dsimp only
      rw [if_neg (show ¬ w.bts.length - 1 = 0 by omega)]
      rw [chainBA_snoc_a P sk w.als w.bts fresh _ (by omega) (by omega)
        (by omega)]
      have h := hI.hBsend
      rw [if_neg (show ¬ w.bts.length - 1 = 0 by omega)] at h
      exact h
    hBsn := hI.hBsn
    hBpn := hI.hBpn
    hBroot := by
      dsimp only
      rw [rootAt_snoc_a P sk w.als w.bts fresh _ (by omega) (by omega)]
      exact hI.hBroot
    hBmax := hI.hBmax
    hBrdh := by
      dsimp only
      rw [if_neg (show ¬ w.bts.length - 1 = 0 by omega)]
      rw [List.getD_append _ _ _ _
        (show w.bts.length - 2 < w.als.length by omega)]
      have h := hI.hBrdh
      rw [if_neg (show ¬ w.bts.length - 1 = 0 by omega)] at h
      exact h
    hBrck := by
      dsimp only
      rw [if_neg (show ¬ w.bts.length - 1 = 0 by omega)]
      rw [chainAB_snoc_a P sk w.als w.bts fresh _ (by omega) (by omega)]
      have h := hI.hBrck
      rw [if_neg (show ¬ w.bts.length - 1 = 0 by omega)] at h
      exact h
    hBrn := by
      dsimp only
      rw [if_neg (show ¬ w.bts.length - 1 = 0 by omega)]
      rw [List.getD_append _ _ _ _
        (show w.bts.length - 2 < w.lensA.length by omega)]
      have h := hI.hBrn
      rw [if_neg (show ¬ w.bts.length - 1 = 0 by omega)] at h
      exact h
    hsA := by
      dsimp only
      rw [List.sum_append, show List.sum [0] = 0 from rfl, Nat.add_zero]
      exact hI.hsA
    hmsgA := by
      dsimp only
      intro j hj
      have h := hI.hmsgA j hj
      have hj' : j < w.lensA.sum := by
        rw [← hI.hsA]
        exact hj
      obtain ⟨q1, q2, q3⟩ := chainPos_spec w.lensA j hj'
      refine ⟨?_, ?_, h.2.2⟩
      · rw [chainPos_append w.lensA 0 j hj']
        rw [List.getD_append _ _ _ _
          (show (chainPos w.lensA j).1 < w.als.length by omega)]
        rw [List.getD_append _ _ _ _
          (show (chainPos w.lensA j).1 - 1 < w.lensA.length by omega)]
        exact h.1
      · rw [h.2.1, hmkeyAeq j hj']
    hsB := hI.hsB
    hmsgB := by
      dsimp only
      intro j hj
      have h := hI.hmsgB j hj
      have hj' : j < w.lensB.sum := by
        rw [← hI.hsB]
        exact hj
      refine ⟨h.1, ?_, h.2.2⟩
      rw [h.2.1, hmkeyBeqA j hj']
    hdlvB := by
      dsimp only
      intro j hj
      rw [hfb]
      exact hI.hdlvB j hj
    hdlvBnd := hI.hdlvBnd
    htblB := by
      dsimp only
      intro j h1 h2
      rw [hfb] at h1
      rw [hkeyAeq j (by omega), hmkeyAeq j (by omega)]
      exact hI.htblB j h1 h2
    htblBmem := by
      dsimp only
      intro e he
      obtain ⟨j, g1, g2, g3⟩ := hI.htblBmem e he
      refine ⟨j, by rw [hfb]; exact g1, g2, ?_⟩
      rw [hkeyAeq j (by omega), hmkeyAeq j (by omega)]
      exact g3
    htblBlen := by
      dsimp only
      rw [hfb]
      exact hI.htblBlen
    htblBnd := hI.htblBnd
    hslackB := by
      dsimp only
      rw [hfb]
      exact hI.hslackB
    hdlvA := by
      dsimp only
      intro j hj
      rw [hfanew]
      rcases List.mem_append.mp hj with hl | hr
      · have := hI.hdlvA j hl
        omega
      · have : j = i := by simpa using hr
        omega
    hdlvAnd := by
      dsimp only
      rw [List.nodup_append]
      refine ⟨hI.hdlvAnd, List.nodup_singleton _, ?_⟩
      intro a ha hb
      rw [List.mem_singleton] at hb
      subst hb
      exact hv2 ha
    htblA := by
      dsimp only
      intro j hj hjd
      rw [hfanew] at hj
      rw [hmkeyBeqA j (by omega)]
      exact t1 j hj hjd
    htblAmem := by
      dsimp only
      intro e he
      obtain ⟨j, g1, g2, g3⟩ := t2 e he
      refine ⟨j, by rw [hfanew]; omega, g2, ?_⟩
      rw [hmkeyBeqA j (by omega)]
      exact g3
    htblAlen := by
      dsimp only
      rw [hfanew]
      exact t3
    htblAnd := t4
    hslackA := by
      dsimp only
      rw [hfanew, List.length_append, List.length_singleton]
      omega }

/-- Any valid delivery to A decrypts correctly and preserves the
invariant: the message is either already in the skipped-key table,
in A's current receive chain, or in B's newest chain. -/
theorem sessionInv_deliverA (P : Prims) (sk : Bytes) (w : Session)
    (hsym : ∀ a b, P.dh a (P.xPub b) = P.dh b (P.xPub a))
    (hdec : ∀ k n p, P.aeadDec k (P.aeadEnc k n p) n = some p)
    (hklen : ∀ ikm info, (P.hkdf ikm info 32).length = 32)
    (hI : SessionInv P sk w) (i : Nat) (fresh : Bytes)
    (hv : ValidEvent P w (.deliverA i fresh)) :
    (ratchetDecrypt P w.stA (w.sentB.getD i dummyMsg).msg fresh).1 =
      .ok (w.sentB.getD i dummyMsg).plaintext ∧
    SessionInv P sk (stepSession P w (.deliverA i fresh)) := by
  obtain ⟨hv1, hv2, hv3, hv4⟩ := hv
  by_cases hin : i < frontierA w
  · exact sessionInv_deliverA_stored P sk w hdec hklen hI i fresh hv1 hv2 hin
  · push_neg at hin
    have hisum : i < w.lensB.sum := by
      rw [← hI.hsB]
      exact hv1
    obtain ⟨hs1, hs2, hs3⟩ := chainPos_spec w.lensB i hisum
    have halen := hI.halen
    have hblen := hI.hblen
    have hapos := hI.hapos
    have hbpos := hI.hbpos
    have hpos1 := chainPos_fst_pos w.lensB hI.hlensB0 i hisum
    have hge : w.als.length - 1 ≤ (chainPos w.lensB i).1 := by
      by_contra hlt
      push_neg at hlt
      have hsump : sumTo w.lensB ((chainPos w.lensB i).1 + 1) ≤
          sumTo w.lensB (w.als.length - 1) :=
        sumTo_mono w.lensB _ _ (by omega)
      have hsucc := sumTo_succ w.lensB (chainPos w.lensB i).1 (by omega)
      have hF : sumTo w.lensB (w.als.length - 1) ≤ frontierA w := by
        unfold frontierA
        omega
      omega
    have hle : (chainPos w.lensB i).1 ≤ w.bts.length - 1 := by omega
    by_cases hcr : (chainPos w.lensB i).1 = w.als.length
    · exact sessionInv_deliverA_ratchet P sk w hsym hdec hklen hI i fresh
        hv1 hv2 hv3 hv4 hin hcr
    · have hk0 : ¬ w.als.length - 1 = 0 := by
        rcases hI.hab with hab | hab <;> omega
      refine sessionInv_deliverA_chain P sk w hdec hklen hI i fresh hv1 hv2
        hv3 hin hk0 ?_
      rcases hI.hab with hab | hab <;> omega

/-- Trace induction: from any state satisfying the synchronization
invariant, every valid trace has all its sends succeed and all its
deliveries decrypt to the original plaintexts. -/
theorem deliveriesOk_of_inv (P : Prims)
    (hsym : ∀ a b, P.dh a (P.xPub b) = P.dh b (P.xPub a))
    (hdec : ∀ k n p, P.aeadDec k (P.aeadEnc k n p) n = some p)
    (hklen : ∀ ikm info, (P.hkdf ikm info 32).length = 32)
    (sk : Bytes) :
    ∀ (tr : List SessionEvent) (w : Session), SessionInv P sk w →
      ValidFrom P w tr → DeliveriesOk P w tr := by
  intro tr
  induction tr with
  | nil =>
    intro w _ _
    trivial
  | cons e tr ih =>
    intro w hI hv
    obtain ⟨hve, hvtr⟩ := hv
    have hstep : DeliveredOk P w e ∧ SessionInv P sk (stepSession P w e) := by
      cases e with
      | sendA p nonce =>
        have h := sessionInv_sendA P sk w hklen hI p nonce hve
        exact ⟨h.1, h.2⟩
      | sendB p nonce =>
        have h := sessionInv_sendB P sk w hklen hI p nonce hve.1 hve.2
        exact ⟨h.1, h.2⟩
      | deliverA i fresh =>
        have h := sessionInv_deliverA P sk w hsym hdec hklen hI i fresh hve
        exact ⟨h.1, h.2⟩
      | deliverB i fresh =>
        have h := sessionInv_deliverB P sk w hsym hdec hklen hI i fresh hve
        exact ⟨h.1, h.2⟩
    exact ⟨hstep.1, ih (stepSession P w e) hstep.2 hvtr⟩

/-- C3: starting from ratchet states initialized by `initSenderRatchet`
and `initReceiverRatchet` over the same X3DH shared secret and the
responder's signed-prekey pair, for every sequence of `ratchetEncrypt`
calls from either side, delivering the resulting messages to the
opposite side's `ratchetDecrypt` — in order or in any permutation
whose out-of-order distance stays within `maxSkip` — returns the
original plaintexts. Stated over the two-party trace semantics
`stepSession`: every trace of sends and deliveries that is valid
(24-byte nonces, B sends only once its chain exists, deliveries name
undelivered messages at most 1000 positions past the count already
delivered to that side, fresh DH keys are new) has every send succeed
and every delivery decrypt to exactly the plaintext that was
encrypted. Hypotheses: DH symmetry, the AEAD round-trip contract, the
HKDF output-length contract, and distinctness of the two initial
public keys. -/
theorem ratchet_out_of_order_roundtrip (P : Prims)
    (hsym : ∀ a b, P.dh a (P.xPub b) = P.dh b (P.xPub a))
    (hdec : ∀ k n p, P.aeadDec k (P.aeadEnc k n p) n = some p)
    (hklen : ∀ ikm info, (P.hkdf ikm info 32).length = 32)
    (sk spkPriv freshA : Bytes)
    (hfresh : P.xPub freshA ≠ P.xPub spkPriv)
    (tr : List SessionEvent)
    (hvalid : ValidFrom P (initSession P sk spkPriv freshA) tr) :
    DeliveriesOk P (initSession P sk spkPriv freshA) tr :=
  deliveriesOk_of_inv P hsym hdec hklen sk tr
    (initSession P sk spkPriv freshA)
    (sessionInv_init P sk spkPriv freshA hfresh) hvalid

/-- C3 witness: with the toy primitives, the shared secret `[0]`, the
signed prekey `[1]` and initiator key `[2]`, the concrete trace
"A sends `[7]`, the message is delivered to B with fresh scalar `[3]`"
is valid, and the theorem yields that the delivery decrypts to `[7]`. -/
theorem ratchet_out_of_order_roundtrip_witness :
    toyPrims.xPub [2] ≠ toyPrims.xPub [1] ∧
    ValidFrom toyPrims (initSession toyPrims [0] [1] [2])
      [.sendA [7] (List.replicate 24 0), .deliverB 0 [3]] ∧
    DeliveriesOk toyPrims (initSession toyPrims [0] [1] [2])
      [.sendA [7] (List.replicate 24 0), .deliverB 0 [3]] := by
  have hfresh : toyPrims.xPub [2] ≠ toyPrims.xPub [1] := by decide
  have hv : ValidFrom toyPrims (initSession toyPrims [0] [1] [2])
      [.sendA [7] (List.replicate 24 0), .deliverB 0 [3]] :=
    ⟨show (List.replicate 24 0 : Bytes).length = 24 by decide,
     ⟨by decide, by decide, by decide, by decide⟩, trivial⟩
  exact ⟨hfresh, hv,
    ratchet_out_of_order_roundtrip toyPrims toy_dh_sym toy_aead_roundtrip
      (fun ikm info => toy_hkdf_length ikm info 32) [0] [1] [2] hfresh
      [.sendA [7] (List.replicate 24 0), .deliverB 0 [3]] hv⟩
